import Mathlib

/-!
# clicktocall `XmlRpcConnection`: framing, correlation and buffered I/O

A shallow embedding of `apps/clicktocall/XmlRpcConnection.cxx`, followed by
`ResipClock::getRandomFutureTimeMs` and `GTCLock::GTC64` of `rutil/Time.cxx`
and by `DumFeatureChain` of `dum/DumFeatureChain.cxx`.

* Byte strings (`resip::Data`) are lists of characters.
* The connection object is a record of its member variables; every member
  function becomes a function from the record (and the outcome of the system
  call it performs, if any) to its return value and the updated record.
* Calls that leave the object (`handleRequest` on the server, `read` and
  `write` on the socket) are recorded, in order, in the ghost field `trace`.
* `unsigned int` counters are natural numbers reduced modulo `2 ^ 32`.
  Buffer sizes are plain natural numbers.
* `UInt64` and `DWORD` arithmetic is reduced modulo `2 ^ 64` and `2 ^ 32`; a
  failed `assert` is the result `none`.
* What a feature of the chain returns for a message is a function of its
  position; the positions invoked are recorded in the ghost list `invoked`.
-/

namespace Resip

/-- A byte string, `resip::Data`. -/
abbrev Data := List Char

/-- Modelled from the spec: the constant `Symbols::CRLF` of
`resip/stack/Symbols.hxx` (not among the sources at hand), the line break
carriage return, line feed. -/
def Symbols.CRLF : Data := ['\r', '\n']

/-- Modelled from the spec: the constant `INVALID_SOCKET` of `rutil/Socket.hxx`
(not among the sources at hand), the value by which `read` and `write` report a
hard error. -/
def INVALID_SOCKET : Int := -1

/-! ## ParseBuffer -/

/-- Modelled from the spec: the whitespace bytes skipped by the cursor of
`rutil/ParseBuffer` (not among the sources at hand): space, tab, carriage
return and line feed. -/
def isWhitespace (c : Char) : Bool :=
  c == ' ' || c == '\t' || c == '\r' || c == '\n'

/-- Modelled from the spec: the scan of `skipWhitespace()`: the number of
leading whitespace bytes of the unread input. -/
def whitespaceRun : Data → Nat
  | [] => 0
  | c :: cs => if isWhitespace c then whitespaceRun cs + 1 else 0

/-- Modelled from the spec: the scan of `skipToChar(c)`: the number of bytes of
the unread input in front of the first `c` (all of them when there is no
`c`). -/
def charRun (c : Char) : Data → Nat
  | [] => 0
  | d :: ds => if d == c then 0 else charRun c ds + 1

/-- Modelled from the spec: the scan of `skipToChars(sub)`, a literal substring
search: the number of bytes of the unread input in front of the first
occurrence of `sub` (all of them when `sub` does not occur). -/
def charsRun (sub : Data) : Data → Nat
  | [] => 0
  | d :: ds => if sub.isPrefixOf (d :: ds) then 0 else charsRun sub ds + 1

/-- Modelled from the spec: the scanning cursor `resip::ParseBuffer` of
`rutil/ParseBuffer` (not among the sources at hand): an owned byte sequence
with an explicit cursor and bounds-checked primitives. `mBuff` is the scanned
text and `mPosition` the offset of the cursor in it. -/
structure ParseBuffer where
  mBuff : Data
  mPosition : Nat
deriving DecidableEq, Repr

namespace ParseBuffer

/-- Modelled from the spec: `ParseBuffer pb(data)`, a cursor at the first byte. -/
def init (d : Data) : ParseBuffer := ⟨d, 0⟩

/-- The unread input, from the cursor to the end. -/
def rest (pb : ParseBuffer) : Data := pb.mBuff.drop pb.mPosition

/-- Modelled from the spec: `position()`, the current cursor. -/
def position (pb : ParseBuffer) : Nat := pb.mPosition

/-- Modelled from the spec: `eof()`, the cursor has reached the end. -/
def eof (pb : ParseBuffer) : Bool := decide (pb.mBuff.length ≤ pb.mPosition)

/-- Modelled from the spec: `skipWhitespace()`, skip any whitespace at the
cursor. -/
def skipWhitespace (pb : ParseBuffer) : ParseBuffer :=
  { pb with mPosition := pb.mPosition + whitespaceRun pb.rest }

/-- Modelled from the spec: `skipToChar(c)`, scan forward to the first `c`, or
to the end when there is none. -/
def skipToChar (pb : ParseBuffer) (c : Char) : ParseBuffer :=
  { pb with mPosition := pb.mPosition + charRun c pb.rest }

/-- Modelled from the spec: `skipToChars(sub)`, literal substring search: scan
forward to the start of the first occurrence of `sub`, or to the end when there
is none. -/
def skipToChars (pb : ParseBuffer) (sub : Data) : ParseBuffer :=
  { pb with mPosition := pb.mPosition + charsRun sub pb.rest }

/-- Modelled from the spec: `skipChar()`, bounds-checked: advance by one byte,
failing at the end of the input. -/
def skipChar (pb : ParseBuffer) : Option ParseBuffer :=
  if pb.eof then none else some { pb with mPosition := pb.mPosition + 1 }

/-- Modelled from the spec: `skipN(count)`, bounds-checked: advance by `count`
bytes, failing when fewer remain. -/
def skipN (pb : ParseBuffer) (count : Nat) : Option ParseBuffer :=
  if pb.mPosition + count > pb.mBuff.length then none
  else some { pb with mPosition := pb.mPosition + count }

/-- Modelled from the spec: `skipToEnd()`, move the cursor to the end. -/
def skipToEnd (pb : ParseBuffer) : ParseBuffer :=
  { pb with mPosition := pb.mBuff.length }

/-- Modelled from the spec: `data(start)`, the bytes from offset `start` up to
the cursor. -/
def data (pb : ParseBuffer) (start : Nat) : Data :=
  (pb.mBuff.drop start).take (pb.mPosition - start)

/-- The cursor standing between `pre` (already scanned) and `suf` (unread). -/
def atSplit (pre suf : Data) : ParseBuffer := ⟨pre ++ suf, pre.length⟩

end ParseBuffer

/-! ## Request table -/

/-- The table `RequestMap` (`std::map<unsigned int, Data>`): an association
list kept in increasing key order. -/
abbrev RequestMap := List (Nat × Data)

namespace RequestMap

/-- The lookup `find(key)`: the stored value, `none` for `end()`. -/
def find (m : RequestMap) (key : Nat) : Option Data := m.lookup key

/-- The assignment `m[key] = value`: insert, or overwrite an existing entry. -/
def assign : RequestMap → Nat → Data → RequestMap
  | [], key, value => [(key, value)]
  | (k, v) :: m, key, value =>
    if key < k then (key, value) :: (k, v) :: m
    else if key = k then (key, value) :: m
    else (k, v) :: assign m key value

/-- The read `m[key]` of an entry (the empty string when there is none). -/
def index (m : RequestMap) (key : Nat) : Data := (m.find key).getD []

end RequestMap

/-! ## Environment -/

/-- Outcome of the system call `read(mSock, buf, bufSize)`: a hard error, or
the bytes placed in `buf` (none of them when the peer has closed; the call
places at most `bufSize` of them, a bound nothing below depends on). -/
inductive ReadResult where
  | error
  | bytes (chunk : Data)
deriving DecidableEq, Repr

/-- The integer `bytesRead` returned by the call. -/
def ReadResult.bytesRead : ReadResult → Int
  | .error => INVALID_SOCKET
  | .bytes chunk => (chunk.length : Int)

/-- The bytes `Data(buf, bytesRead)`. -/
def ReadResult.chunk : ReadResult → Data
  | .error => []
  | .bytes chunk => chunk

/-- Outcome of the system call `write(mSock, data, size)`: a hard error, or the
number of leading bytes the socket accepted. -/
inductive WriteResult where
  | error
  | accepted (n : Nat)
deriving DecidableEq, Repr

/-- The integer `bytesWritten` returned by the call. -/
def WriteResult.bytesWritten : WriteResult → Int
  | .error => INVALID_SOCKET
  | .accepted n => (n : Int)

/-- A call that leaves the connection object. -/
inductive Event where
  | handleRequest (connectionId requestId : Nat) (request : Data)
  | read (r : ReadResult)
  | write (offered : Data) (w : WriteResult)
deriving DecidableEq, Repr

/-- Modelled from the spec: the readiness multiplexer `FdSet` of
`rutil/Socket.hxx` (not among the sources at hand): the descriptors registered
for (before the poll) or reported ready for (after it) reading, writing and an
exceptional condition. -/
structure FdSet where
  read : List Nat
  write : List Nat
  except : List Nat
deriving DecidableEq, Repr

namespace FdSet

/-- Modelled from the spec: `setRead(fd)`. -/
def setRead (f : FdSet) (fd : Nat) : FdSet := { f with read := f.read.insert fd }

/-- Modelled from the spec: `setWrite(fd)`. -/
def setWrite (f : FdSet) (fd : Nat) : FdSet := { f with write := f.write.insert fd }

/-- Modelled from the spec: `readyToRead(fd)`. -/
def readyToRead (f : FdSet) (fd : Nat) : Bool := f.read.contains fd

/-- Modelled from the spec: `readyToWrite(fd)`. -/
def readyToWrite (f : FdSet) (fd : Nat) : Bool := f.write.contains fd

/-- Modelled from the spec: `hasException(fd)`. -/
def hasException (f : FdSet) (fd : Nat) : Bool := f.except.contains fd

end FdSet

/-! ## The connection -/

/-- Range of `unsigned int`. -/
def UINT_RANGE : Nat := 2 ^ 32

/-- The member variables of `XmlRpcConnection`, and the ghost `trace` of the
calls it has made on the server and on its socket. -/
structure XmlRpcConnection where
  mConnectionId : Nat
  mNextRequestId : Nat
  mSock : Nat
  mRxBuffer : Data
  mTxBuffer : Data
  mRequests : RequestMap
  trace : List Event
deriving DecidableEq, Repr

namespace XmlRpcConnection

/-- The constructor: takes the value of the static `NextConnectionId` and the
socket; returns the new object and the incremented counter. -/
def construct (NextConnectionId sock : Nat) : XmlRpcConnection × Nat :=
  ({ mConnectionId := NextConnectionId
     mNextRequestId := 1
     mSock := sock
     mRxBuffer := []
     mTxBuffer := []
     mRequests := []
     trace := [] },
   (NextConnectionId + 1) % UINT_RANGE)

/-- A connection as the constructor leaves it. -/
def fresh (connectionId sock : Nat) : XmlRpcConnection :=
  (construct connectionId sock).1

/-- Connection 7 on socket 3 after it has read and framed `request` as its
first message. -/
def holding (request : Data) : XmlRpcConnection :=
  { fresh 7 3 with
    mNextRequestId := 2
    mRequests := [(1, request)]
    trace := [Event.read (ReadResult.bytes request), Event.handleRequest 7 1 request] }

/-- The member function `buildFdSet`. -/
def buildFdSet (s : XmlRpcConnection) (fdset : FdSet) : FdSet :=
  let fdset := if !s.mTxBuffer.isEmpty then fdset.setWrite s.mSock else fdset
  fdset.setRead s.mSock

/-- The member function `tryParse`; `none` stands for a `ParseBuffer` bounds
failure. -/
def tryParse (s : XmlRpcConnection) : Option XmlRpcConnection :=
  let pb := ParseBuffer.init s.mRxBuffer
  let start := pb.position
  let pb := pb.skipWhitespace
  let pb := pb.skipToChar '<'
  if !pb.eof then
    (pb.skipChar).bind fun pb =>
    let anchor := pb.position
    let pb := pb.skipToChar '>'
    if !pb.eof then
      let initialTag := pb.data anchor
      -- Find end of initial tag
      let pb := pb.skipToChars ("</".toList ++ initialTag ++ ">".toList)
      if !pb.eof then
        (pb.skipN (initialTag.length + 3)).bind fun pb =>  -- Skip past </InitialTag>
        let mRequests := s.mRequests.assign s.mNextRequestId (pb.data start)
        let ev := Event.handleRequest s.mConnectionId s.mNextRequestId
          (mRequests.index s.mNextRequestId)
        let mNextRequestId := (s.mNextRequestId + 1) % UINT_RANGE
        -- Remove processed data from RxBuffer
        let pb := pb.skipWhitespace
        let mRxBuffer :=
          if !pb.eof then
            let anchor := pb.position
            let pb := pb.skipToEnd
            pb.data anchor
          else []
        some { s with
          mRequests := mRequests
          mNextRequestId := mNextRequestId
          mRxBuffer := mRxBuffer
          trace := s.trace ++ [ev] }
      else some s
    else some s
  else some s

/-- The size `bufSize` of the read buffer. -/
def bufSize : Nat := 8000

/-- The member function `processSomeReads`, given the outcome `r` of its
`read`. -/
def processSomeReads (s : XmlRpcConnection) (r : ReadResult) :
    Option (Bool × XmlRpcConnection) :=
  let bytesRead := r.bytesRead
  let s := { s with trace := s.trace ++ [Event.read r] }
  if bytesRead == INVALID_SOCKET then some (false, s)
  else if bytesRead == 0 then some (false, s)
  else
    let s := { s with mRxBuffer := s.mRxBuffer ++ r.chunk }
    (tryParse s).bind fun s => some (true, s)

/-- The member function `processSomeWrites`, given the outcome `w` of its
`write`. -/
def processSomeWrites (s : XmlRpcConnection) (w : WriteResult) :
    Bool × XmlRpcConnection :=
  if s.mTxBuffer.isEmpty then (true, s)
  else
    let bytesWritten := w.bytesWritten
    let s := { s with trace := s.trace ++ [Event.write s.mTxBuffer w] }
    if bytesWritten == INVALID_SOCKET then (false, s)
    else if bytesWritten == (s.mTxBuffer.length : Int) then
      (true, { s with mTxBuffer := [] })
    else
      let rest := s.mTxBuffer.drop bytesWritten.toNat
      (true, { s with mTxBuffer := rest })

/-- The member function `process`, given the outcomes `r` and `w` that its
`read` and `write` have if they are performed. -/
def process (s : XmlRpcConnection) (fdset : FdSet) (r : ReadResult) (w : WriteResult) :
    Option (Bool × XmlRpcConnection) :=
  if fdset.hasException s.mSock then some (false, s)
  else
    let afterRead : Option (Bool × XmlRpcConnection) :=
      if fdset.readyToRead s.mSock then processSomeReads s r else some (true, s)
    afterRead.bind fun (ok, s) =>
    if !ok then some (false, s)
    else if !s.mTxBuffer.isEmpty && fdset.readyToWrite s.mSock then
      let (ok, s) := processSomeWrites s w
      if !ok then some (false, s) else some (true, s)
    else some (true, s)

/-- The member function `sendResponse`; `none` stands for a `ParseBuffer`
bounds failure. -/
def sendResponse (s : XmlRpcConnection) (requestId : Nat) (responseData : Data) :
    Option (Bool × XmlRpcConnection) :=
  match s.mRequests.find requestId with
  | some request =>
    let pb := ParseBuffer.init request
    -- A response is formed by starting with the request and inserting the
    -- ResponseData between <Response> tags at the same level as the <Request> tags
    let start := pb.position
    let pb := pb.skipToChars "</Request>".toList
    let response : Option Data :=
      if !pb.eof then
        (pb.skipN 10).bind fun pb =>  -- Skip past </Request>
        let pb := pb.skipWhitespace
        -- Response starts with request message up to end of Request tag
        let response := pb.data start
        -- Add in response data
        let response := response ++ Symbols.CRLF
        let response := response ++ ("  <Response>".toList ++ responseData ++ "  </Response>".toList)
        let response := response ++ Symbols.CRLF
        -- Add remainder of request message
        let start := pb.position
        let pb := pb.skipToEnd
        some (response ++ pb.data start)
      else
        -- No Request in message - just send bare response
        some ("<Response>".toList ++ responseData ++ "</Response>".toList)
    response.bind fun response =>
    some (true, { s with mTxBuffer := s.mTxBuffer ++ response })
  | none => some (false, s)

/-! ## Observations on the trace -/

/-- The calls `handleRequest (connectionId, requestId, request)` in a trace. -/
def handled : List Event → List (Nat × Nat × Data)
  | [] => []
  | Event.handleRequest c r d :: es => (c, r, d) :: handled es
  | _ :: es => handled es

/-- The bytes the socket has accepted, in order. -/
def sent : List Event → Data
  | [] => []
  | Event.write offered (WriteResult.accepted n) :: es => offered.take n ++ sent es
  | _ :: es => sent es

/-- The number of `read` calls in a trace. -/
def readCount : List Event → Nat
  | [] => 0
  | Event.read _ :: es => readCount es + 1
  | _ :: es => readCount es

/-- The number of `write` calls in a trace. -/
def writeCount : List Event → Nat
  | [] => 0
  | Event.write _ _ :: es => writeCount es + 1
  | _ :: es => writeCount es

/-- One successful read per chunk, in order. -/
def feed : XmlRpcConnection → List Data → Option XmlRpcConnection
  | s, [] => some s
  | s, c :: cs => (processSomeReads s (ReadResult.bytes c)).bind fun p => feed p.2 cs

/-- One write event per outcome, in order, with nothing else in between. -/
def drain : XmlRpcConnection → List WriteResult → XmlRpcConnection
  | s, [] => s
  | s, w :: ws => drain (processSomeWrites s w).2 ws

end XmlRpcConnection

/-! ## Messages -/

/-- The closing sequence of a tag name. -/
def closingTag (tag : Data) : Data := '<' :: '/' :: (tag ++ ['>'])

/-- The message with leading bytes `w`, tag name `tag` and body `body`. -/
def message (w tag body : Data) : Data :=
  w ++ '<' :: tag ++ '>' :: body ++ closingTag tag

/-- The literal `sub` occurs in `l` at offset `i`. -/
def occursAt (sub l : Data) (i : Nat) : Prop := sub <+: l.drop i

instance (sub l : Data) (i : Nat) : Decidable (occursAt sub l i) := by
  unfold occursAt; infer_instance

/-- A well-formed message: leading whitespace only, no `>` in the tag name, and
the closing sequence occurs in `>`, body, closing sequence at its very end
only. -/
def WellFormed (w tag body : Data) : Prop :=
  (∀ c ∈ w, isWhitespace c = true) ∧ '>' ∉ tag ∧
  ∀ i, i ≤ body.length → ¬ occursAt (closingTag tag) ('>' :: body ++ closingTag tag) i

instance (w tag body : Data) : Decidable (WellFormed w tag body) := by
  unfold WellFormed; infer_instance

/-! ## Further observations used in the statements -/

namespace XmlRpcConnection

/-- The trace events of one successful read per chunk. -/
def readEvents (chunks : List Data) : List Event :=
  chunks.map fun c => Event.read (ReadResult.bytes c)

end XmlRpcConnection

/-- The bytes of the message given by its leading bytes, tag name and body. -/
def toMessage (m : Data × Data × Data) : Data := message m.1 m.2.1 m.2.2

/-- The chunks `cs` deliver the well-formed message `m`: they are non-empty and
make up its bytes. -/
def Delivers (m : Data × Data × Data) (cs : List Data) : Prop :=
  WellFormed m.1 m.2.1 m.2.2 ∧ (∀ c ∈ cs, c ≠ []) ∧ cs.flatten = toMessage m

/-- The request ids passed to `handleRequest`, in call order. -/
def handledIds (t : List Event) : List Nat := (XmlRpcConnection.handled t).map fun e => e.2.1

/-- The payloads passed to `handleRequest`, in call order. -/
def handledPayloads (t : List Event) : List Data :=
  (XmlRpcConnection.handled t).map fun e => e.2.2

instance (m : Data × Data × Data) (cs : List Data) : Decidable (Delivers m cs) := by
  unfold Delivers; infer_instance

/-- The number of messages that one read per chunk frames: a read frames the
next message when all its bytes are among the `pending` bytes that follow the
last framed message and the chunk read, and frames nothing otherwise. -/
def framedCount : List Data → Nat → List Data → Nat
  | M :: Ms, pending, c :: cs =>
    if M.length ≤ pending + c.length then
      framedCount Ms (pending + c.length - M.length) cs + 1
    else framedCount (M :: Ms) (pending + c.length) cs
  | _, _, _ => 0

/-! ## Calls, the process, and further observations -/

namespace XmlRpcConnection

/-- The bytes `sendResponse` builds from a stored request and the response
data: the splice behind the first `</Request>` and the whitespace after it, or
the bare response. -/
def envelope (request responseData : Data) : Data :=
  if charsRun "</Request>".toList request < request.length then
    request.take (charsRun "</Request>".toList request) ++ "</Request>".toList ++
      (request.drop (charsRun "</Request>".toList request + 10)).takeWhile isWhitespace ++
      Symbols.CRLF ++ ("  <Response>".toList ++ responseData ++ "  </Response>".toList) ++
      Symbols.CRLF ++
      (request.drop (charsRun "</Request>".toList request + 10)).dropWhile isWhitespace
  else "<Response>".toList ++ responseData ++ "</Response>".toList

/-- A call of a member function from outside, with the outcomes of the system
calls it makes. -/
inductive ConnOp where
  | read (r : ReadResult)
  | write (w : WriteResult)
  | respond (requestId : Nat) (responseData : Data)
  | poll (fdset : FdSet) (r : ReadResult) (w : WriteResult)
deriving DecidableEq, Repr

/-- The connection after one call: `processSomeReads`, `processSomeWrites`,
`sendResponse` or `process`. -/
def step (s : XmlRpcConnection) : ConnOp → Option XmlRpcConnection
  | ConnOp.read r => (processSomeReads s r).map fun p => p.2
  | ConnOp.write w => some (processSomeWrites s w).2
  | ConnOp.respond requestId responseData =>
    (sendResponse s requestId responseData).map fun p => p.2
  | ConnOp.poll fdset r w => (process s fdset r w).map fun p => p.2

/-- The connection after a sequence of calls. -/
def run : XmlRpcConnection → List ConnOp → Option XmlRpcConnection
  | s, [] => some s
  | s, op :: ops => (step s op).bind fun s1 => run s1 ops

/-- A call that frames nothing: connection id, `requests`, next request id and
the `handleRequest` calls made are as before. -/
def Quiet (s s1 : XmlRpcConnection) : Prop :=
  s1.mConnectionId = s.mConnectionId ∧ s1.mRequests = s.mRequests ∧
  s1.mNextRequestId = s.mNextRequestId ∧ handled s1.trace = handled s.trace

/-- A call that frames one message `d`: it is stored under the next request
id, handed to `handleRequest` under that id, and the next request id is
incremented (as an `unsigned int`). -/
def Frames (s s1 : XmlRpcConnection) (d : Data) : Prop :=
  s1.mConnectionId = s.mConnectionId ∧
  s1.mRequests = s.mRequests.assign s.mNextRequestId d ∧
  s1.mNextRequestId = (s.mNextRequestId + 1) % UINT_RANGE ∧
  handled s1.trace = handled s.trace ++ [(s.mConnectionId, s.mNextRequestId, d)]

/-- The request table of a connection that has framed `n` messages: the next
request id is `n + 1` and the keys are 1, ..., `n`. -/
def TableInvariant (s : XmlRpcConnection) : Prop :=
  s.mNextRequestId = (handled s.trace).length + 1 ∧
  ∀ j, s.mRequests.find j ≠ none ↔ 1 ≤ j ∧ j < s.mNextRequestId

end XmlRpcConnection

/-- The process: the static counter `XmlRpcConnection::NextConnectionId`, the
connections alive, and the ghost list `created` of the connection ids handed
out so far, in construction order. -/
structure ServerProcess where
  NextConnectionId : Nat
  live : List XmlRpcConnection
  created : List Nat
deriving DecidableEq, Repr

/-- What happens in the process: a connection is constructed on a socket, the
`i`-th live connection is destructed, or a member function of the `i`-th live
connection is called. -/
inductive ProcessOp where
  | construct (sock : Nat)
  | destruct (i : Nat)
  | call (i : Nat) (op : XmlRpcConnection.ConnOp)
deriving DecidableEq, Repr

namespace ServerProcess

/-- The process at its start: the static initialiser
`NextConnectionId = 1`, no connection. -/
def start : ServerProcess := { NextConnectionId := 1, live := [], created := [] }

/-- One step of the process. The destructor closes the socket and the object
is gone; it does not touch the static counter. -/
def step (p : ServerProcess) : ProcessOp → ServerProcess
  | ProcessOp.construct sock =>
    let (c, next) := XmlRpcConnection.construct p.NextConnectionId sock
    { NextConnectionId := next, live := p.live ++ [c], created := p.created ++ [c.mConnectionId] }
  | ProcessOp.destruct i => { p with live := p.live.eraseIdx i }
  | ProcessOp.call i op =>
    match p.live[i]? with
    | some c =>
      match XmlRpcConnection.step c op with
      | some c1 => { p with live := p.live.set i c1 }
      | none => p
    | none => p

/-- The process after a sequence of steps. -/
def run (p : ServerProcess) (ops : List ProcessOp) : ServerProcess := ops.foldl step p

/-- The number of constructions in a sequence of steps. -/
def constructions : List ProcessOp → Nat
  | [] => 0
  | ProcessOp.construct _ :: ops => constructions ops + 1
  | _ :: ops => constructions ops

/-- The ids of the connections alive. -/
def liveIds (p : ServerProcess) : List Nat := p.live.map fun c => c.mConnectionId

/-- After `n` constructions: the ids handed out are 1, ..., `n`, the counter
stands at `n + 1` (as an `unsigned int`), and the ids of the connections alive
are among those handed out, in order. -/
def Counted (p : ServerProcess) (n : Nat) : Prop :=
  p.created = List.range' 1 n ∧ p.NextConnectionId = (n + 1) % UINT_RANGE ∧
  p.liveIds.Sublist p.created

end ServerProcess

/-! ## The clock of `rutil/Time.cxx` -/

/-- Range of `UInt64`. -/
def UINT64_RANGE : Nat := 2 ^ 64

/-- Range of `DWORD`. -/
def DWORD_RANGE : Nat := 2 ^ 32

namespace ResipClock

/-- The multiplier `r` of `getRandomFutureTimeMs`, an `int`: the random value
modulo 4000 (the remainder of C, which takes the sign of the dividend), plus
5000. -/
def multiplier (random : Int) : Int :=
  let r := random.tmod 4000
  r + 5000

/-- The member function `getRandomFutureTimeMs`, given the value `now` that
`getTimeMs()` returns and the value `random` that `Random::getRandom()` returns.
The arithmetic is that of `UInt64`, with `r` converted to `UInt64` for the
product; `none` stands for a failed `assert`. -/
def getRandomFutureTimeMs (now : Nat) (random : Int) (futureMs : Nat) : Option Nat :=
  let r := multiplier random
  let ret := now
  let ret := (ret + (futureMs * (r % (UINT64_RANGE : Int)).toNat) % UINT64_RANGE / 10000)
    % UINT64_RANGE
  if ret ≥ now ∧ ret ≥ (now + futureMs / 2) % UINT64_RANGE ∧
      ret ≤ (now + futureMs) % UINT64_RANGE then
    some ret
  else none

namespace WinMonoClock

namespace GTCLock

/-- The member function `GTCLock::GTC64`, given the static `mBaseTime` (its
`QuadPart`) and the value `tickNow` that `GetTickCount()` returns: the new
`mBaseTime`, which is also the value returned. `LowPart` is the low 32 bits of
`QuadPart`; the difference is taken in `DWORD`, the sum in `UInt64`. -/
def GTC64 (mBaseTime tickNow : Nat) : Nat :=
  let LowPart := mBaseTime % DWORD_RANGE
  if tickNow ≠ LowPart then
    (mBaseTime + (tickNow + DWORD_RANGE - LowPart) % DWORD_RANGE) % UINT64_RANGE
  else mBaseTime

/-- The values returned by successive calls of `GTC64`, one per tick value
read. -/
def clock : Nat → List Nat → List Nat
  | _, [] => []
  | mBaseTime, tickNow :: ticks => GTC64 mBaseTime tickNow :: clock (GTC64 mBaseTime tickNow) ticks

end GTCLock

end WinMonoClock

end ResipClock

/-! ## The feature chain of `dum/DumFeatureChain.cxx` -/

namespace DumFeature

/-- The enumeration `DumFeature::ProcessingResult`: the six enumerators that
`DumFeatureChain::process` switches on, and `other` for any value of the type
that is none of them. -/
inductive ProcessingResult where
  | EventTaken
  | FeatureDone
  | FeatureDoneAndEventDone
  | FeatureDoneAndEventTaken
  | ChainDoneAndEventTaken
  | ChainDoneAndEventDone
  | other (code : Nat)
deriving DecidableEq, Repr

end DumFeature

/-- The integer values that `DumFeature.hxx` and `DumFeatureChain.hxx` (not
among the sources at hand) give to the enumerators and bit masks used by
`DumFeatureChain::process`, taken as parameters. -/
structure ResultCodes where
  value : DumFeature.ProcessingResult → Nat
  EventDoneBit : Nat
  EventTakenBit : Nat
  ChainDoneBit : Nat
  chainChainDoneBit : Nat
  chainEventTakenBit : Nat

/-- A feature of the chain: one handed to the constructor, or the
`GuardFeature` the constructor appends. -/
inductive DumFeature where
  | user (id : Nat)
  | guard
deriving DecidableEq, Repr

/-- The virtual `process(msg)` of the feature at position `pos`:
`GuardFeature::process` returns `FeatureDone`; what another feature returns
for this message is given by `respond`. -/
def DumFeature.process (respond : Nat → DumFeature.ProcessingResult) (pos : Nat) :
    DumFeature → DumFeature.ProcessingResult
  | DumFeature.guard => DumFeature.ProcessingResult.FeatureDone
  | DumFeature.user _ => respond pos

/-- The member variables of `DumFeatureChain`. -/
structure DumFeatureChain where
  mFeatures : List DumFeature
  mActiveFeatures : List Bool
deriving DecidableEq, Repr

namespace DumFeatureChain

/-- The constructor. -/
def construct (features : List DumFeature) : DumFeatureChain :=
  let mFeatures := features ++ [DumFeature.guard]
  { mFeatures := mFeatures
    mActiveFeatures := List.replicate mFeatures.length true }

/-- The `switch` of `process` on the result of a feature: the new value of
`*active` (which was true) and of `stop` (which was false). -/
def switchResult : DumFeature.ProcessingResult → Bool × Bool
  | DumFeature.ProcessingResult.EventTaken => (true, true)
  | DumFeature.ProcessingResult.FeatureDone => (false, false)
  | DumFeature.ProcessingResult.FeatureDoneAndEventDone => (false, true)
  | DumFeature.ProcessingResult.FeatureDoneAndEventTaken => (false, true)
  | DumFeature.ProcessingResult.ChainDoneAndEventTaken => (false, true)
  | DumFeature.ProcessingResult.ChainDoneAndEventDone => (false, true)
  | DumFeature.ProcessingResult.other _ => (true, false)

/-- The value of `pres` after the test of `EventDoneBit`. -/
def adjustResult (codes : ResultCodes) (pres : Nat) : Nat :=
  if pres &&& codes.EventDoneBit ≠ 0 then
    let bits := pres
    let bits := bits ^^^ codes.EventDoneBit
    let bits := bits ||| codes.value DumFeature.ProcessingResult.EventTaken
    bits
  else pres

/-- What the `do ... while` loop of `process` leaves behind. -/
structure LoopState where
  active : List Bool
  pres : Nat
  atEnd : Bool
  invoked : List Nat
deriving DecidableEq, Repr

/-- The `do ... while` loop of `process`, with the iterators `feat` and
`active` standing at position `pos`: `features` and `active` are the elements
from the iterators on. The result holds the flags from `active` on, `pres`,
whether `feat` is `mFeatures.end()`, and the ghost list of the positions of the
features invoked, in order. The constructor leaves `mFeatures` non-empty and
`mActiveFeatures` of the same length; for other lists, where the loop would
dereference an end iterator, the model stops. -/
def processLoop (codes : ResultCodes) (respond : Nat → DumFeature.ProcessingResult) :
    Nat → List DumFeature → List Bool → Nat → LoopState
  | pos, feat :: features, a :: active, pres =>
    let step : Bool × Nat × Bool × List Nat :=
      if a then
        let res := feat.process respond pos
        let sw := switchResult res
        (sw.1, adjustResult codes (codes.value res), sw.2, [pos])
      else (a, pres, false, [])
    if !step.2.2.1 && !features.isEmpty then
      let rest := processLoop codes respond (pos + 1) features active step.2.1
      { rest with active := step.1 :: rest.active, invoked := step.2.2.2 ++ rest.invoked }
    else
      { active := step.1 :: active, pres := step.2.1, atEnd := features.isEmpty,
        invoked := step.2.2.2 }
  | _, [], active, pres => { active := active, pres := pres, atEnd := true, invoked := [] }
  | _, _ :: _, [], pres => { active := [], pres := pres, atEnd := false, invoked := [] }

/-- The outcome of `process`: the chain, the value returned, and the ghost
list of the positions of the features invoked, in order. -/
structure Outcome where
  chain : DumFeatureChain
  result : Nat
  invoked : List Nat
deriving DecidableEq, Repr

/-- The member function `process`. -/
def process (codes : ResultCodes) (respond : Nat → DumFeature.ProcessingResult)
    (c : DumFeatureChain) : Outcome :=
  let pres := codes.value DumFeature.ProcessingResult.FeatureDone
  let loop := processLoop codes respond 0 c.mFeatures c.mActiveFeatures pres
  let chainBits := 0
  let chainBits :=
    if loop.pres &&& codes.ChainDoneBit ≠ 0 || loop.atEnd then
      chainBits ||| codes.chainChainDoneBit
    else chainBits
  let chainBits :=
    if loop.pres &&& codes.EventTakenBit ≠ 0 then chainBits ||| codes.chainEventTakenBit
    else chainBits
  { chain := { c with mActiveFeatures := loop.active }
    result := chainBits
    invoked := loop.invoked }

/-- The chain after successive calls of `process`, one per message. -/
def after (codes : ResultCodes) :
    DumFeatureChain → List (Nat → DumFeature.ProcessingResult) → DumFeatureChain
  | c, [] => c
  | c, respond :: responds => after codes (process codes respond c).chain responds

/-- The positions invoked by each of successive calls of `process`. -/
def invokedBy (codes : ResultCodes) :
    DumFeatureChain → List (Nat → DumFeature.ProcessingResult) → List (List Nat)
  | _, [] => []
  | c, respond :: responds =>
    (process codes respond c).invoked :: invokedBy codes (process codes respond c).chain responds

/-- The results after which `process` clears the flag of a feature:
`FeatureDone` and every combination with `FeatureDone` or `ChainDone`. -/
def deactivates (res : DumFeature.ProcessingResult) : Bool := !(switchResult res).1

/-- One assignment of the codes, with the bit masks 1, 2, 4 and 8. -/
def sampleCodes : ResultCodes :=
  { value := fun res =>
      match res with
      | DumFeature.ProcessingResult.EventTaken => 2
      | DumFeature.ProcessingResult.FeatureDone => 4
      | DumFeature.ProcessingResult.FeatureDoneAndEventDone => 5
      | DumFeature.ProcessingResult.FeatureDoneAndEventTaken => 6
      | DumFeature.ProcessingResult.ChainDoneAndEventTaken => 10
      | DumFeature.ProcessingResult.ChainDoneAndEventDone => 9
      | DumFeature.ProcessingResult.other code => code
    EventDoneBit := 1
    EventTakenBit := 2
    ChainDoneBit := 8
    chainChainDoneBit := 2
    chainEventTakenBit := 1 }

end DumFeatureChain

/-! ## Lemmas -/

theorem whitespaceRun_append (w suf : Data) (hw : ∀ c ∈ w, isWhitespace c = true) :
    whitespaceRun (w ++ suf) = w.length + whitespaceRun suf := by
  induction w with
  | nil => simp
  | cons c cs ih =>
    have hc : isWhitespace c = true := hw c (List.mem_cons_self _ _)
    have hcs : ∀ d ∈ cs, isWhitespace d = true := fun d hd => hw d (List.mem_cons_of_mem _ hd)
    simp [whitespaceRun, hc, ih hcs]
    omega

theorem whitespaceRun_dropWhile (l : Data) : whitespaceRun (l.dropWhile isWhitespace) = 0 := by
  induction l with
  | nil => rfl
  | cons c cs ih =>
    by_cases hc : isWhitespace c = true
    · simp [List.dropWhile, hc, ih]
    · simp [List.dropWhile, hc, whitespaceRun]

theorem charRun_append (c : Char) (x suf : Data) (hx : c ∉ x) :
    charRun c (x ++ suf) = x.length + charRun c suf := by
  induction x with
  | nil => simp
  | cons d ds ih =>
    have hd : d ≠ c := fun h => hx (h ▸ List.mem_cons_self _ _)
    have hds : c ∉ ds := fun h => hx (List.mem_cons_of_mem _ h)
    simp [charRun, hd, ih hds]
    omega

theorem charRun_cons_self (c : Char) (suf : Data) : charRun c (c :: suf) = 0 := by
  simp [charRun]

/-- A literal occurring at the end of `x ++ sub` only is found there. -/
theorem charsRun_first (sub x suf : Data)
    (h : ∀ i, i < x.length → ¬ occursAt sub (x ++ sub) i) :
    charsRun sub (x ++ (sub ++ suf)) = x.length := by
  induction x with
  | nil =>
    cases hs : sub ++ suf with
    | nil => simp [charsRun]
    | cons d ds =>
      have : sub.isPrefixOf (d :: ds) = true := by
        rw [← hs, List.isPrefixOf_iff_prefix]; exact List.prefix_append _ _
      simp [charsRun, this]
  | cons a x ih =>
    have h0 : ¬ sub <+: (a :: x) ++ sub := by
      have := h 0 (by simp)
      simpa [occursAt] using this
    have hnp : sub.isPrefixOf (a :: (x ++ (sub ++ suf))) = false := by
      rw [Bool.eq_false_iff]
      intro hp
      rw [List.isPrefixOf_iff_prefix] at hp
      apply h0
      have h1 : (a :: x) ++ sub <+: a :: (x ++ (sub ++ suf)) := by
        simp
      exact List.prefix_of_prefix_length_le hp h1 (by simp; omega)
    have ih' := ih (fun i hi hocc => h (i + 1) (by simpa using hi) (by simpa [occursAt] using hocc))
    simp [charsRun, hnp, ih']

/-- A literal that occurs nowhere is scanned for up to the end. -/
theorem charsRun_absent (sub l : Data) (h : ¬ sub <:+: l) : charsRun sub l = l.length := by
  induction l with
  | nil => rfl
  | cons d ds ih =>
    have hnp : sub.isPrefixOf (d :: ds) = false := by
      rw [Bool.eq_false_iff]
      intro hp
      rw [List.isPrefixOf_iff_prefix] at hp
      exact h hp.isInfix
    have ih' := ih (fun hi => h (hi.trans (List.suffix_cons d ds).isInfix))
    simp [charsRun, hnp, ih']

namespace ParseBuffer

theorem init_eq (d : Data) : init d = atSplit [] d := rfl

@[simp] theorem rest_atSplit (pre suf : Data) : (atSplit pre suf).rest = suf := by
  simp [rest, atSplit]

@[simp] theorem position_atSplit (pre suf : Data) : (atSplit pre suf).position = pre.length := rfl

@[simp] theorem eof_atSplit (pre suf : Data) : (atSplit pre suf).eof = suf.isEmpty := by
  cases suf <;> simp [eof, atSplit]

theorem advance (pre x suf : Data) :
    (⟨pre ++ (x ++ suf), pre.length + x.length⟩ : ParseBuffer) = atSplit (pre ++ x) suf := by
  simp [atSplit]

theorem skipWhitespace_atSplit (pre w suf : Data) (hw : ∀ c ∈ w, isWhitespace c = true)
    (hs : whitespaceRun suf = 0) :
    (atSplit pre (w ++ suf)).skipWhitespace = atSplit (pre ++ w) suf := by
  rw [← advance]
  simp [skipWhitespace, whitespaceRun_append _ _ hw, hs]
  simp [atSplit]

theorem skipToChar_atSplit (pre x suf : Data) (c : Char) (hx : c ∉ x) (hs : charRun c suf = 0) :
    (atSplit pre (x ++ suf)).skipToChar c = atSplit (pre ++ x) suf := by
  rw [← advance]
  simp [skipToChar, charRun_append _ _ _ hx, hs]
  simp [atSplit]

theorem skipToChars_atSplit (pre x suf sub : Data) (h : charsRun sub (x ++ suf) = x.length) :
    (atSplit pre (x ++ suf)).skipToChars sub = atSplit (pre ++ x) suf := by
  rw [← advance]
  simp [skipToChars, h]
  simp [atSplit]

theorem skipChar_atSplit (pre suf : Data) (c : Char) :
    (atSplit pre (c :: suf)).skipChar = some (atSplit (pre ++ [c]) suf) := by
  simp [skipChar, eof, atSplit]

theorem skipN_atSplit (pre x suf : Data) (n : Nat) (hn : x.length = n) :
    (atSplit pre (x ++ suf)).skipN n = some (atSplit (pre ++ x) suf) := by
  subst hn
  simp [skipN, atSplit]

theorem skipToEnd_atSplit (pre suf : Data) :
    (atSplit pre suf).skipToEnd = atSplit (pre ++ suf) [] := by
  simp [skipToEnd, atSplit]

theorem data_atSplit (a x suf : Data) : (atSplit (a ++ x) suf).data a.length = x := by
  simp [data, atSplit]

theorem data_atSplit_zero (x suf : Data) : (atSplit x suf).data 0 = x := by
  simp [data, atSplit]

end ParseBuffer

namespace RequestMap

theorem find_cons (k0 : Nat) (v0 : Data) (m : RequestMap) (k : Nat) :
    find ((k0, v0) :: m) k = if k = k0 then some v0 else find m k := by
  by_cases h : k = k0
  · subst h; simp [find, List.lookup]
  · have hb : (k == k0) = false := by simpa using h
    simp [find, List.lookup, hb, h]

theorem find_assign (m : RequestMap) (key : Nat) (value : Data) (k : Nat) :
    (assign m key value).find k = if k = key then some value else m.find k := by
  induction m with
  | nil =>
    rw [assign, find_cons]
  | cons p m ih =>
    obtain ⟨k0, v0⟩ := p
    simp only [assign]
    by_cases h1 : key < k0
    · simp [h1, find_cons]
    · by_cases h2 : key = k0
      · subst h2
        by_cases h : k = key <;> simp [find_cons, h]
      · by_cases h : k = key
        · subst h
          simp [h1, h2, find_cons, ih]
        · simp [h1, h2, h, find_cons, ih]

theorem index_assign (m : RequestMap) (key : Nat) (value : Data) :
    (assign m key value).index key = value := by
  simp [index, find_assign]

end RequestMap

theorem closingTag_eq (tag : Data) : "</".toList ++ tag ++ ">".toList = closingTag tag := rfl

theorem closingTag_length (tag : Data) : (closingTag tag).length = tag.length + 3 := by
  simp [closingTag]

namespace ParseBuffer

theorem skipWhitespace_general (pre suf : Data) :
    (atSplit pre suf).skipWhitespace
      = atSplit (pre ++ suf.takeWhile isWhitespace) (suf.dropWhile isWhitespace) := by
  have h := skipWhitespace_atSplit pre (suf.takeWhile isWhitespace) (suf.dropWhile isWhitespace)
    (fun c hc => List.mem_takeWhile_imp hc) (whitespaceRun_dropWhile suf)
  rwa [List.takeWhile_append_dropWhile] at h

@[simp] theorem position_init (d : Data) : (init d).position = 0 := rfl

theorem skipToChar_stay (pre suf : Data) (c : Char) (hs : charRun c suf = 0) :
    (atSplit pre suf).skipToChar c = atSplit pre suf := by
  simpa using skipToChar_atSplit pre [] suf c (by simp) hs

end ParseBuffer

namespace XmlRpcConnection

open ParseBuffer

/-- A buffer that starts with a well-formed message is framed: the message is
stored and handed over, the counter advances, and the buffer keeps what follows
the message, less its leading whitespace. -/
theorem tryParse_frame (s : XmlRpcConnection) (w tag body rest : Data)
    (hwf : WellFormed w tag body) (hrx : s.mRxBuffer = message w tag body ++ rest) :
    tryParse s = some { s with
      mRequests := s.mRequests.assign s.mNextRequestId (message w tag body)
      mNextRequestId := (s.mNextRequestId + 1) % UINT_RANGE
      mRxBuffer := rest.dropWhile isWhitespace
      trace := s.trace ++
        [Event.handleRequest s.mConnectionId s.mNextRequestId (message w tag body)] } := by
  obtain ⟨hw, htag, hclose⟩ := hwf
  have hB : s.mRxBuffer = w ++ '<' :: (tag ++ '>' :: (body ++ (closingTag tag ++ rest))) := by
    simp [hrx, message]
  have h1 : (init s.mRxBuffer).skipWhitespace
      = atSplit w ('<' :: (tag ++ '>' :: (body ++ (closingTag tag ++ rest)))) := by
    rw [hB, init_eq]
    simpa using skipWhitespace_atSplit [] w _ hw (by simp [whitespaceRun, isWhitespace])
  have h2 : (atSplit w ('<' :: (tag ++ '>' :: (body ++ (closingTag tag ++ rest))))).skipToChar '<'
      = atSplit w ('<' :: (tag ++ '>' :: (body ++ (closingTag tag ++ rest)))) :=
    skipToChar_stay _ _ _ (charRun_cons_self _ _)
  have h3 := skipChar_atSplit w (tag ++ '>' :: (body ++ (closingTag tag ++ rest))) '<'
  have h4 := skipToChar_atSplit (w ++ ['<']) tag ('>' :: (body ++ (closingTag tag ++ rest))) '>'
    htag (charRun_cons_self _ _)
  have h5 : (atSplit (w ++ ['<'] ++ tag) ('>' :: (body ++ (closingTag tag ++ rest)))).data
      (w ++ ['<']).length = tag := data_atSplit _ _ _
  have h6 : (atSplit (w ++ ['<'] ++ tag)
      ('>' :: (body ++ (closingTag tag ++ rest)))).skipToChars (closingTag tag)
      = atSplit (w ++ ['<'] ++ tag ++ '>' :: body) (closingTag tag ++ rest) := by
    have := skipToChars_atSplit (w ++ ['<'] ++ tag) ('>' :: body) (closingTag tag ++ rest)
      (closingTag tag) (charsRun_first _ _ _ (fun i hi => hclose i (by simpa [Nat.lt_succ_iff] using hi)))
    simpa using this
  have h7 := skipN_atSplit (w ++ ['<'] ++ tag ++ '>' :: body) (closingTag tag) rest
    (tag.length + 3) (closingTag_length tag)
  have h8 : w ++ ['<'] ++ tag ++ '>' :: body ++ closingTag tag = message w tag body := by
    simp [message]
  rw [h8] at h7
  have h9 := skipWhitespace_general (message w tag body) rest
  have h10 := skipToEnd_atSplit (message w tag body ++ rest.takeWhile isWhitespace)
    (rest.dropWhile isWhitespace)
  have h11 := data_atSplit (message w tag body ++ rest.takeWhile isWhitespace)
    (rest.dropWhile isWhitespace) []
  have h12 : (closingTag tag ++ rest).isEmpty = false := by simp [closingTag]
  simp only [tryParse, h1, h2, eof_atSplit, h3, position_atSplit, h4, h5, closingTag_eq, h6, h7,
    h12, h9, h10, h11, data_atSplit_zero, RequestMap.index_assign, Option.some_bind,
    Option.bind_eq_bind, position_init]
  cases hd : rest.dropWhile isWhitespace <;> simp

/-- No closing sequence lies inside a proper prefix of `>`, body, closing
sequence of a well-formed message. -/
theorem closingTag_absent (tag body b D : Data)
    (hclose : ∀ i, i ≤ body.length →
      ¬ occursAt (closingTag tag) ('>' :: body ++ closingTag tag) i)
    (hD : D ≠ []) (hb : '>' :: body ++ closingTag tag = b ++ D) :
    ¬ closingTag tag <:+: b := by
  rintro ⟨p, q, hpq⟩
  have hlen : (('>' :: body ++ closingTag tag).length) = (b ++ D).length := by rw [hb]
  have hbl : b.length = p.length + (closingTag tag).length + q.length := by
    rw [← hpq]; simp [Nat.add_assoc]
  have hDl : 0 < D.length := List.length_pos.mpr hD
  simp only [List.length_append, List.length_cons] at hlen
  apply hclose p.length (by omega)
  unfold occursAt
  rw [hb, ← hpq]
  simp

/-- A buffer holding a proper prefix of a well-formed message is left as it
is. -/
theorem tryParse_incomplete (s : XmlRpcConnection) (w tag body D : Data)
    (hwf : WellFormed w tag body) (hD : D ≠ [])
    (hrx : s.mRxBuffer ++ D = message w tag body) : tryParse s = some s := by
  obtain ⟨hw, htag, hclose⟩ := hwf
  have hsplit : s.mRxBuffer ++ D = w ++ '<' :: (tag ++ '>' :: (body ++ closingTag tag)) := by
    simp [hrx, message]
  rcases List.append_eq_append_iff.mp hsplit with ⟨a, ha, -⟩ | ⟨c, hc, hc2⟩
  · -- the buffer ends inside the leading whitespace
    have hP : ∀ x ∈ s.mRxBuffer, isWhitespace x = true := fun x hx =>
      hw x (by rw [ha]; exact List.mem_append_left _ hx)
    have h1 : (init s.mRxBuffer).skipWhitespace = atSplit s.mRxBuffer [] := by
      rw [init_eq]
      simpa using skipWhitespace_atSplit [] s.mRxBuffer [] hP rfl
    have h2 : (atSplit s.mRxBuffer []).skipToChar '<' = atSplit s.mRxBuffer [] :=
      skipToChar_stay _ _ _ rfl
    simp [tryParse, h1, h2]
  · cases c with
    | nil =>
      have hP : ∀ x ∈ s.mRxBuffer, isWhitespace x = true := fun x hx =>
        hw x (by simpa [hc] using hx)
      have h1 : (init s.mRxBuffer).skipWhitespace = atSplit s.mRxBuffer [] := by
        rw [init_eq]
        simpa using skipWhitespace_atSplit [] s.mRxBuffer [] hP rfl
      have h2 : (atSplit s.mRxBuffer []).skipToChar '<' = atSplit s.mRxBuffer [] :=
        skipToChar_stay _ _ _ rfl
      simp [tryParse, h1, h2]
    | cons c0 c =>
      simp only [List.cons_append, List.cons.injEq] at hc2
      obtain ⟨hc0, hc3⟩ := hc2
      subst hc0
      have h1 : (init s.mRxBuffer).skipWhitespace = atSplit w ('<' :: c) := by
        rw [hc, init_eq]
        simpa using skipWhitespace_atSplit [] w _ hw (by simp [whitespaceRun, isWhitespace])
      have h2 : (atSplit w ('<' :: c)).skipToChar '<' = atSplit w ('<' :: c) :=
        skipToChar_stay _ _ _ (charRun_cons_self _ _)
      have h3 := skipChar_atSplit w c '<'
      rcases List.append_eq_append_iff.mp hc3 with ⟨e, he, he2⟩ | ⟨a, ha, -⟩
      · cases e with
        | nil =>
          have hgt : '>' ∉ c := by simpa [he] using htag
          have h4 : (atSplit (w ++ ['<']) c).skipToChar '>' = atSplit (w ++ ['<'] ++ c) [] := by
            simpa using skipToChar_atSplit (w ++ ['<']) c [] '>' hgt rfl
          simp [tryParse, h1, h2, h3, h4]
        | cons e0 b =>
          -- the buffer ends inside the body or the closing sequence
          simp only [List.cons_append, List.cons.injEq] at he2
          obtain ⟨he0, he3⟩ := he2
          subst he0
          subst he
          have h4 := skipToChar_atSplit (w ++ ['<']) tag ('>' :: b) '>' htag
            (charRun_cons_self _ _)
          have h5 : (atSplit (w ++ ['<'] ++ tag) ('>' :: b)).data (w ++ ['<']).length = tag :=
            data_atSplit _ _ _
          have habs : ¬ closingTag tag <:+: '>' :: b :=
            closingTag_absent tag body ('>' :: b) D hclose hD (by simp [he3])
          have h6 : (atSplit (w ++ ['<'] ++ tag) ('>' :: b)).skipToChars (closingTag tag)
              = atSplit (w ++ ['<'] ++ tag ++ '>' :: b) [] := by
            simpa using skipToChars_atSplit (w ++ ['<'] ++ tag) ('>' :: b) [] (closingTag tag)
              (by simpa using charsRun_absent _ _ habs)
          simp only [tryParse, h1, h2, eof_atSplit, h3, position_atSplit, h4, h5, closingTag_eq,
            h6, Option.some_bind, Option.bind_eq_bind]
          simp
      · -- the buffer ends inside the tag name
        have hgt : '>' ∉ c := fun h => htag (by rw [ha]; exact List.mem_append_left _ h)
        have h4 : (atSplit (w ++ ['<']) c).skipToChar '>' = atSplit (w ++ ['<'] ++ c) [] := by
          simpa using skipToChar_atSplit (w ++ ['<']) c [] '>' hgt rfl
        simp [tryParse, h1, h2, h3, h4]

theorem processSomeReads_bytes (s : XmlRpcConnection) (c : Data) (hc : c ≠ []) :
    processSomeReads s (ReadResult.bytes c)
      = (tryParse { s with
            trace := s.trace ++ [Event.read (ReadResult.bytes c)]
            mRxBuffer := s.mRxBuffer ++ c }).bind fun s => some (true, s) := by
  have h0 : (c.length : Int) ≠ 0 := by
    have := List.length_pos.mpr hc
    omega
  have h1 : (c.length : Int) ≠ -1 := by omega
  simp [processSomeReads, ReadResult.bytesRead, ReadResult.chunk, INVALID_SOCKET, h0, h1]

theorem processSomeReads_close (s : XmlRpcConnection) (r : ReadResult)
    (hr : r = ReadResult.error ∨ r = ReadResult.bytes []) :
    processSomeReads s r = some (false, { s with trace := s.trace ++ [Event.read r] }) := by
  rcases hr with rfl | rfl <;> simp [processSomeReads, ReadResult.bytesRead, INVALID_SOCKET]

theorem handled_append (t u : List Event) : handled (t ++ u) = handled t ++ handled u := by
  induction t with
  | nil => rfl
  | cons e t ih => cases e <;> simp [handled, ih]

theorem handled_readEvents (chunks : List Data) : handled (readEvents chunks) = [] := by
  induction chunks with
  | nil => rfl
  | cons c cs ih => simpa [readEvents, handled] using ih

/-- Chunks that stop short of the end of a well-formed message are buffered. -/
theorem feed_partial (w tag body : Data) (hwf : WellFormed w tag body) (D : Data) (hD : D ≠ []) :
    ∀ (cs : List Data) (s : XmlRpcConnection), (∀ c ∈ cs, c ≠ []) →
      s.mRxBuffer ++ cs.flatten ++ D = message w tag body →
      feed s cs = some { s with
        mRxBuffer := s.mRxBuffer ++ cs.flatten
        trace := s.trace ++ readEvents cs } := by
  intro cs
  induction cs with
  | nil => intro s _ _; simp [feed, readEvents]
  | cons c cs ih =>
    intro s hne hs
    have hc : c ≠ [] := hne c (List.mem_cons_self _ _)
    have hcs : ∀ d ∈ cs, d ≠ [] := fun d hd => hne d (List.mem_cons_of_mem _ hd)
    have hinc := tryParse_incomplete
      { s with trace := s.trace ++ [Event.read (ReadResult.bytes c)]
               mRxBuffer := s.mRxBuffer ++ c } w tag body (cs.flatten ++ D) hwf (by simp [hD])
      (by simpa using hs)
    have hstep := ih { s with trace := s.trace ++ [Event.read (ReadResult.bytes c)]
                              mRxBuffer := s.mRxBuffer ++ c } hcs (by simpa using hs)
    simp only [feed, processSomeReads_bytes s c hc, hinc, Option.some_bind, hstep]
    simp [readEvents]

/-- Chunks that make up a well-formed message frame it on the last chunk. -/
theorem feed_message (w tag body : Data) (hwf : WellFormed w tag body) :
    ∀ (cs : List Data) (s : XmlRpcConnection), cs ≠ [] → (∀ c ∈ cs, c ≠ []) →
      s.mRxBuffer ++ cs.flatten = message w tag body →
      feed s cs = some { s with
        mRequests := s.mRequests.assign s.mNextRequestId (message w tag body)
        mNextRequestId := (s.mNextRequestId + 1) % UINT_RANGE
        mRxBuffer := []
        trace := s.trace ++ readEvents cs ++
          [Event.handleRequest s.mConnectionId s.mNextRequestId (message w tag body)] } := by
  intro cs
  induction cs with
  | nil => intro s h; exact absurd rfl h
  | cons c cs ih =>
    intro s _ hne hs
    have hc : c ≠ [] := hne c (List.mem_cons_self _ _)
    have hcs : ∀ d ∈ cs, d ≠ [] := fun d hd => hne d (List.mem_cons_of_mem _ hd)
    cases cs with
    | nil =>
      have hfr := tryParse_frame
        { s with trace := s.trace ++ [Event.read (ReadResult.bytes c)]
                 mRxBuffer := s.mRxBuffer ++ c } w tag body [] hwf (by simpa using hs)
      simp only [feed, processSomeReads_bytes s c hc, hfr, Option.some_bind]
      simp [readEvents]
    | cons c2 cs2 =>
      have hc2 : c2 ≠ [] := hcs c2 (List.mem_cons_self _ _)
      have hinc := tryParse_incomplete
        { s with trace := s.trace ++ [Event.read (ReadResult.bytes c)]
                 mRxBuffer := s.mRxBuffer ++ c } w tag body (c2 :: cs2).flatten hwf
        (by simp [hc2]) (by simpa using hs)
      have hstep := ih { s with trace := s.trace ++ [Event.read (ReadResult.bytes c)]
                                mRxBuffer := s.mRxBuffer ++ c } (by simp) hcs (by simpa using hs)
      rw [feed, processSomeReads_bytes s c hc, hinc, Option.some_bind, Option.some_bind, hstep]
      simp [readEvents]

end XmlRpcConnection

theorem dropWhile_whitespace_append (w suf : Data) (hw : ∀ c ∈ w, isWhitespace c = true)
    (hs : whitespaceRun suf = 0) : (w ++ suf).dropWhile isWhitespace = suf := by
  induction w with
  | nil =>
    cases suf with
    | nil => rfl
    | cons d ds =>
      by_cases hd : isWhitespace d = true
      · simp [whitespaceRun, hd] at hs
      · simp [List.dropWhile, hd]
  | cons c cs ih =>
    have hc : isWhitespace c = true := hw c (List.mem_cons_self _ _)
    have hcs : ∀ d ∈ cs, isWhitespace d = true := fun d hd => hw d (List.mem_cons_of_mem _ hd)
    simp [List.dropWhile, hc, ih hcs]

theorem charsRun_le (sub l : Data) : charsRun sub l ≤ l.length := by
  induction l with
  | nil => simp [charsRun]
  | cons d ds ih =>
    by_cases hp : sub.isPrefixOf (d :: ds) = true
    · simp [charsRun, hp]
    · simp [charsRun, hp, ih]

/-- Where the scan for a literal stops short of the end, the literal stands. -/
theorem charsRun_found (sub l : Data) (h : charsRun sub l < l.length) :
    ∃ S, l = l.take (charsRun sub l) ++ (sub ++ S) ∧
      charsRun sub (l.take (charsRun sub l) ++ (sub ++ S)) = (l.take (charsRun sub l)).length := by
  induction l with
  | nil => simp at h
  | cons d ds ih =>
    by_cases hp : sub.isPrefixOf (d :: ds) = true
    · obtain ⟨S, hS⟩ := List.isPrefixOf_iff_prefix.mp hp
      refine ⟨S, ?_, ?_⟩
      · simp [charsRun, hp, hS]
      · simp [charsRun, hp, hS]
    · have hlt : charsRun sub ds < ds.length := by
        simp [charsRun, hp] at h
        exact h
      obtain ⟨S, hS1, hS2⟩ := ih hlt
      refine ⟨S, ?_, ?_⟩
      · simp only [charsRun, hp, Bool.false_eq_true, if_false, List.take_succ_cons,
          List.cons_append]
        rw [← hS1]
      · simp only [charsRun, hp, Bool.false_eq_true, if_false, List.take_succ_cons,
          List.cons_append]
        rw [← hS1]
        simp [charsRun, hp, Nat.min_eq_left (charsRun_le sub ds)]

namespace XmlRpcConnection

open ParseBuffer

theorem closeRequest_length : ("</Request>".toList).length = 10 := rfl

/-- An unknown request id: failure, nothing changes. -/
theorem sendResponse_unknown (s : XmlRpcConnection) (requestId : Nat) (responseData : Data)
    (h : s.mRequests.find requestId = none) :
    sendResponse s requestId responseData = some (false, s) := by
  simp [sendResponse, h]

/-- A stored request in which the scan for `</Request>` reaches the end: the
bare response is queued. -/
theorem sendResponse_bare (s : XmlRpcConnection) (requestId : Nat) (responseData R : Data)
    (h : s.mRequests.find requestId = some R)
    (hrun : charsRun "</Request>".toList R = R.length) :
    sendResponse s requestId responseData = some (true, { s with
      mTxBuffer := s.mTxBuffer ++
        ("<Response>".toList ++ responseData ++ "</Response>".toList) }) := by
  have h1 : (init R).skipToChars "</Request>".toList = atSplit R [] := by
    rw [init_eq]
    simpa using skipToChars_atSplit [] R [] "</Request>".toList (by simpa using hrun)
  simp only [sendResponse, h, h1, eof_atSplit]
  simp

/-- A stored request in which `</Request>` is found after `P`: the response is
spliced in behind `</Request>` and the whitespace that follows it. -/
theorem sendResponse_splice (s : XmlRpcConnection) (requestId : Nat) (responseData P S : Data)
    (h : s.mRequests.find requestId = some (P ++ ("</Request>".toList ++ S)))
    (hrun : charsRun "</Request>".toList (P ++ ("</Request>".toList ++ S)) = P.length) :
    sendResponse s requestId responseData = some (true, { s with
      mTxBuffer := s.mTxBuffer ++
        (P ++ "</Request>".toList ++ S.takeWhile isWhitespace ++ Symbols.CRLF ++
          ("  <Response>".toList ++ responseData ++ "  </Response>".toList) ++ Symbols.CRLF ++
          S.dropWhile isWhitespace) }) := by
  have h1 : (init (P ++ ("</Request>".toList ++ S))).skipToChars "</Request>".toList
      = atSplit P ("</Request>".toList ++ S) := by
    rw [init_eq]
    simpa using skipToChars_atSplit [] P ("</Request>".toList ++ S) "</Request>".toList hrun
  have h2 := skipN_atSplit P "</Request>".toList S 10 closeRequest_length
  have h3 := skipWhitespace_general (P ++ "</Request>".toList) S
  have h4 := skipToEnd_atSplit (P ++ "</Request>".toList ++ S.takeWhile isWhitespace)
    (S.dropWhile isWhitespace)
  have h5 := data_atSplit (P ++ "</Request>".toList ++ S.takeWhile isWhitespace)
    (S.dropWhile isWhitespace) []
  have h6 : ("</Request>".toList ++ S).isEmpty = false := rfl
  simp only [sendResponse, h, h1, eof_atSplit, h6, h2, h3, h4, h5, position_atSplit,
    position_init, data_atSplit_zero, Option.some_bind, Option.bind_eq_bind]
  simp

/-- The function `sendResponse` always returns, and touches nothing but the
transmit buffer. -/
theorem sendResponse_total (s : XmlRpcConnection) (requestId : Nat) (responseData : Data) :
    ∃ ok E, sendResponse s requestId responseData
      = some (ok, { s with mTxBuffer := s.mTxBuffer ++ E }) ∧
      (ok = true ↔ s.mRequests.find requestId ≠ none) := by
  cases h : s.mRequests.find requestId with
  | none =>
    exact ⟨false, [], by simp [sendResponse_unknown s requestId responseData h], by simp⟩
  | some R =>
    rcases Nat.lt_or_ge (charsRun "</Request>".toList R) R.length with hlt | hge
    · obtain ⟨S, hS1, hS2⟩ := charsRun_found _ _ hlt
      rw [hS1] at h
      exact ⟨true, _, sendResponse_splice s requestId responseData _ S h hS2, by simp⟩
    · have hrun : charsRun "</Request>".toList R = R.length :=
        Nat.le_antisymm (charsRun_le _ _) hge
      exact ⟨true, _, sendResponse_bare s requestId responseData R h hrun, by simp⟩

theorem processSomeWrites_handled (s : XmlRpcConnection) (w : WriteResult) :
    handled (processSomeWrites s w).2.trace = handled s.trace := by
  unfold processSomeWrites
  split
  · rfl
  · simp only
    split
    · simp [handled_append, handled]
    · split <;> simp [handled_append, handled]

end XmlRpcConnection

namespace ParseBuffer

theorem skipChar_of_not_eof (pb : ParseBuffer) (h : pb.eof = false) :
    pb.skipChar = some { pb with mPosition := pb.mPosition + 1 } := by
  simp [skipChar, h]

/-- After a successful search the literal found can be skipped. -/
theorem skipN_skipToChars (pb : ParseBuffer) (sub : Data) (n : Nat) (hn : n = sub.length)
    (h : (pb.skipToChars sub).eof = false) :
    (pb.skipToChars sub).skipN n
      = some { pb.skipToChars sub with mPosition := (pb.skipToChars sub).mPosition + n } := by
  have hlt : pb.mPosition + charsRun sub pb.rest < pb.mBuff.length := by
    simpa [eof, skipToChars] using h
  have hrest : pb.rest.length = pb.mBuff.length - pb.mPosition := by simp [rest]
  have hrun : charsRun sub pb.rest < pb.rest.length := by omega
  obtain ⟨S, hS, -⟩ := charsRun_found sub pb.rest hrun
  have hlen := congrArg List.length hS
  simp only [List.length_append, List.length_take, Nat.min_eq_left (charsRun_le sub pb.rest)]
    at hlen
  have hfit : ¬ (pb.mPosition + charsRun sub pb.rest + n > pb.mBuff.length) := by omega
  simp [skipN, skipToChars, hfit]

end ParseBuffer

namespace XmlRpcConnection

open ParseBuffer

/-- The parser always returns; it touches neither the transmit buffer nor the
socket, and its only call out is at most one `handleRequest`. -/
theorem tryParse_total (s : XmlRpcConnection) :
    ∃ s1, tryParse s = some s1 ∧ s1.mTxBuffer = s.mTxBuffer ∧ s1.mSock = s.mSock ∧
      s1.mConnectionId = s.mConnectionId ∧
      (s1.trace = s.trace ∨
        ∃ d, s1.trace = s.trace ++ [Event.handleRequest s.mConnectionId s.mNextRequestId d]) := by
  unfold tryParse
  simp only []
  by_cases h1 : (((ParseBuffer.init s.mRxBuffer).skipWhitespace).skipToChar '<').eof = false
  · rw [ParseBuffer.skipChar_of_not_eof _ h1]
    simp only [h1, Option.some_bind, Bool.not_false, if_true]
    split
    · split
      · rename_i h3
        simp only [Bool.not_eq_true'] at h3
        rw [closingTag_eq] at h3 ⊢
        rw [ParseBuffer.skipN_skipToChars _ _ _ (closingTag_length _).symm h3]
        exact ⟨_, rfl, rfl, rfl, rfl, Or.inr ⟨_, rfl⟩⟩
      · exact ⟨s, rfl, rfl, rfl, rfl, Or.inl rfl⟩
    · exact ⟨s, rfl, rfl, rfl, rfl, Or.inl rfl⟩
  · simp only [h1]
    exact ⟨s, by simp, rfl, rfl, rfl, Or.inl rfl⟩

theorem readCount_append (t u : List Event) :
    readCount (t ++ u) = readCount t + readCount u := by
  induction t with
  | nil => simp [readCount]
  | cons e t ih =>
    cases e <;> simp [readCount, ih]
    omega

theorem writeCount_append (t u : List Event) :
    writeCount (t ++ u) = writeCount t + writeCount u := by
  induction t with
  | nil => simp [writeCount]
  | cons e t ih =>
    cases e <;> simp [writeCount, ih]
    omega

/-- Every read event returns: `false` on a hard error or zero bytes, `true`
otherwise; it performs one `read` and no `write`. -/
theorem processSomeReads_total (s : XmlRpcConnection) (r : ReadResult) :
    ∃ ok s1, processSomeReads s r = some (ok, s1) ∧
      (ok = false ↔ (r = ReadResult.error ∨ r = ReadResult.bytes [])) ∧
      s1.mTxBuffer = s.mTxBuffer ∧ s1.mSock = s.mSock ∧
      readCount s1.trace = readCount s.trace + 1 ∧ writeCount s1.trace = writeCount s.trace := by
  by_cases hr : r = ReadResult.error ∨ r = ReadResult.bytes []
  · refine ⟨false, _, processSomeReads_close s r hr, by simp [hr], rfl, rfl, ?_, ?_⟩
    · simp [readCount_append, readCount]
    · simp [writeCount_append, writeCount]
  · obtain ⟨c, rfl, hc⟩ : ∃ c, r = ReadResult.bytes c ∧ c ≠ [] := by
      cases r with
      | error => simp at hr
      | bytes c => exact ⟨c, rfl, by simpa using hr⟩
    obtain ⟨s1, hs1, htx, hsock, -, htr⟩ := tryParse_total
      { s with trace := s.trace ++ [Event.read (ReadResult.bytes c)]
               mRxBuffer := s.mRxBuffer ++ c }
    refine ⟨true, s1, ?_, by simp [hc], htx, hsock, ?_, ?_⟩
    · rw [processSomeReads_bytes s c hc, hs1]; rfl
    · rcases htr with h | ⟨d, h⟩ <;> rw [h] <;> simp [readCount_append, readCount]
    · rcases htr with h | ⟨d, h⟩ <;> rw [h] <;> simp [writeCount_append, writeCount]

end XmlRpcConnection

/-- A literal whose first byte does not recur in it cannot straddle the end of
a non-empty `t` in `t ++ sub`: if it stands at the start, it lies within `t`. -/
theorem prefix_of_prefix_append_self (c : Char) (sub1 t : Data) (hc : c ∉ sub1) (ht : t ≠ [])
    (h : c :: sub1 <+: t ++ c :: sub1) : c :: sub1 <+: t := by
  cases t with
  | nil => exact absurd rfl ht
  | cons a t1 =>
    rw [List.cons_append, List.cons_prefix_cons] at h
    obtain ⟨hca, hpre⟩ := h
    rw [List.cons_prefix_cons]
    refine ⟨hca, ?_⟩
    rcases List.prefix_or_prefix_of_prefix hpre (List.prefix_append t1 (c :: sub1)) with h1 | h1
    · exact h1
    · obtain ⟨r, hr⟩ := h1
      cases r with
      | nil => rw [List.append_nil] at hr; rw [hr]
      | cons d r1 =>
        exfalso
        rw [← hr, List.prefix_append_right_inj, List.cons_prefix_cons] at hpre
        apply hc
        rw [← hr, ← hpre.1]
        simp

/-- In `<Request>`, any `X` free of `</Request>`, `</Request>`, the closing
literal stands at the end only. -/
theorem closeRequest_only_at_end (X : Data) (hX : ¬ "</Request>".toList <:+: X) :
    ∀ i, i < ("<Request>".toList ++ X).length →
      ¬ occursAt "</Request>".toList ("<Request>".toList ++ X ++ "</Request>".toList) i := by
  intro i hi hocc
  unfold occursAt at hocc
  rcases Nat.lt_or_ge i 9 with h9 | h9
  · interval_cases i <;> simp at hocc
  · obtain ⟨j, rfl⟩ : ∃ j, i = 9 + j := ⟨i - 9, by omega⟩
    have hj : j < X.length := by
      have : ("<Request>".toList ++ X).length = 9 + X.length := by simp; omega
      omega
    have hdrop : ("<Request>".toList ++ X ++ "</Request>".toList).drop (9 + j)
        = X.drop j ++ "</Request>".toList := by
      rw [List.append_assoc, List.drop_append_eq_append_drop]
      simp [List.drop_append_eq_append_drop, Nat.sub_eq_zero_of_le (Nat.le_of_lt hj)]
    rw [hdrop] at hocc
    have hne : X.drop j ≠ [] := by
      intro h
      have := congrArg List.length h
      simp at this
      omega
    have := prefix_of_prefix_append_self '<' "/Request>".toList (X.drop j) (by decide) hne hocc
    exact hX (this.isInfix.trans (List.drop_suffix j X).isInfix)

namespace XmlRpcConnection

open ParseBuffer

theorem flatten_ne_nil_of_ne_nil (cs : List Data) (hcs : cs ≠ []) (hne : ∀ c ∈ cs, c ≠ []) :
    cs.flatten ≠ [] := by
  cases cs with
  | nil => exact absurd rfl hcs
  | cons c cs =>
    have hc : c ≠ [] := hne c (List.mem_cons_self _ _)
    simp [hc]

theorem wellFormed_strip {w tag body : Data} (h : WellFormed w tag body) :
    WellFormed [] tag body := ⟨by simp, h.2.1, h.2.2⟩

/-- A successful read that completes a well-formed message at the head of
the buffer frames it. -/
theorem processSomeReads_frame (s : XmlRpcConnection) (w tag body rest c : Data)
    (hwf : WellFormed w tag body) (hc : c ≠ [])
    (hrx : s.mRxBuffer ++ c = message w tag body ++ rest) :
    processSomeReads s (ReadResult.bytes c) = some (true, { s with
      mRequests := s.mRequests.assign s.mNextRequestId (message w tag body)
      mNextRequestId := (s.mNextRequestId + 1) % UINT_RANGE
      mRxBuffer := rest.dropWhile isWhitespace
      trace := s.trace ++ [Event.read (ReadResult.bytes c),
        Event.handleRequest s.mConnectionId s.mNextRequestId (message w tag body)] }) := by
  rw [processSomeReads_bytes s c hc,
    tryParse_frame { s with trace := s.trace ++ [Event.read (ReadResult.bytes c)]
                            mRxBuffer := s.mRxBuffer ++ c } w tag body rest hwf hrx]
  simp

theorem feed_append (a b : List Data) :
    ∀ s : XmlRpcConnection, feed s (a ++ b) = (feed s a).bind fun s1 => feed s1 b := by
  induction a with
  | nil => intro s; simp [feed]
  | cons c cs ih =>
    intro s
    simp only [List.cons_append, feed]
    cases processSomeReads s (ReadResult.bytes c) with
    | none => simp
    | some p => simp [ih]

theorem message_ne_nil (w tag body : Data) : message w tag body ≠ [] := by simp [message]

/-- Well-formed messages, each delivered in chunks of its own, are framed one
after the other under consecutive request ids, as long as the ids stay within
the range of `unsigned int`. -/
theorem feed_deliveries (msgs : List (Data × Data × Data)) (deliveries : List (List Data))
    (h : List.Forall₂ Delivers msgs deliveries) :
    ∀ s : XmlRpcConnection, s.mRxBuffer = [] → s.mNextRequestId < UINT_RANGE →
      s.mNextRequestId + msgs.length ≤ UINT_RANGE →
      ∃ s1, feed s deliveries.flatten = some s1 ∧ s1.mRxBuffer = [] ∧
        s1.mConnectionId = s.mConnectionId ∧
        s1.mNextRequestId = (s.mNextRequestId + msgs.length) % UINT_RANGE ∧
        handledIds s1.trace = handledIds s.trace ++ List.range' s.mNextRequestId msgs.length ∧
        handledPayloads s1.trace = handledPayloads s.trace ++ msgs.map toMessage ∧
        (∀ k (hk : k < msgs.length),
          s1.mRequests.find (s.mNextRequestId + k) = some (toMessage msgs[k])) ∧
        (∀ j, j < s.mNextRequestId ∨ s.mNextRequestId + msgs.length ≤ j →
          s1.mRequests.find j = s.mRequests.find j) := by
  induction h with
  | nil =>
    intro s hrx hlt _
    exact ⟨s, by simp [feed], hrx, rfl, by simp [Nat.mod_eq_of_lt hlt], by simp, by simp,
      by simp, by simp⟩
  | @cons m cs ms dss hm hrest ih =>
    intro s hrx hlt hle
    obtain ⟨hwf, hne, hflat⟩ := hm
    have hcs : cs ≠ [] := by
      rintro rfl
      exact message_ne_nil _ _ _ (by simpa [toMessage] using hflat.symm)
    have hstep : ∃ s1 : XmlRpcConnection, feed s cs = some s1 ∧ s1.mRxBuffer = [] ∧
        s1.mConnectionId = s.mConnectionId ∧
        s1.mNextRequestId = (s.mNextRequestId + 1) % UINT_RANGE ∧
        s1.mRequests = s.mRequests.assign s.mNextRequestId (toMessage m) ∧
        s1.trace = s.trace ++ readEvents cs ++
          [Event.handleRequest s.mConnectionId s.mNextRequestId (toMessage m)] :=
      ⟨_, feed_message m.1 m.2.1 m.2.2 hwf cs s hcs hne (by simpa [hrx, toMessage] using hflat),
        rfl, rfl, rfl, rfl, rfl⟩
    obtain ⟨s1, hs1, hrx1, hcid1, hn1, hreq1, htr1⟩ := hstep
    have hR : 0 < UINT_RANGE := by simp [UINT_RANGE]
    have hnext1 : s1.mNextRequestId < UINT_RANGE := by rw [hn1]; exact Nat.mod_lt _ hR
    have hids1 : handledIds s1.trace = handledIds s.trace ++ [s.mNextRequestId] := by
      simp [htr1, handledIds, handled_append, handled_readEvents, handled]
    have hpay1 : handledPayloads s1.trace = handledPayloads s.trace ++ [toMessage m] := by
      simp [htr1, handledPayloads, handled_append, handled_readEvents, handled]
    rw [List.flatten_cons, feed_append, hs1, Option.some_bind]
    simp only [List.length_cons] at hle
    rcases Nat.lt_or_ge (s.mNextRequestId + 1) UINT_RANGE with hlt1 | hge1
    · -- the next id does not wrap
      rw [Nat.mod_eq_of_lt hlt1] at hn1
      obtain ⟨s2, hfeed, hrx2, hcid2, hnext2, hids2, hpay2, hfind2, hkeep2⟩ :=
        ih s1 hrx1 hnext1 (by rw [hn1]; omega)
      rw [hn1] at hnext2 hids2 hfind2 hkeep2
      refine ⟨s2, hfeed, hrx2, hcid2.trans hcid1, ?_, ?_, ?_, ?_, ?_⟩
      · rw [hnext2, List.length_cons]
        congr 1
        omega
      · rw [hids2, hids1, List.length_cons, List.range'_succ]
        simp
      · rw [hpay2, hpay1]
        simp
      · intro k hk
        cases k with
        | zero =>
          rw [Nat.add_zero, hkeep2 _ (Or.inl (Nat.lt_succ_self _)), hreq1]
          simp [RequestMap.find_assign]
        | succ k =>
          have := hfind2 k (by simpa using hk)
          simpa [Nat.add_assoc, Nat.add_comm 1] using this
      · intro j hj
        have hjne : j ≠ s.mNextRequestId := by
          simp only [List.length_cons] at hj
          omega
        rw [hkeep2 j (by simp only [List.length_cons] at hj; omega), hreq1]
        simp [RequestMap.find_assign, hjne]
    · -- the last id of the range has been used: no message is left
      have hms : ms = [] := List.length_eq_zero.mp (by omega)
      subst hms
      cases hrest
      refine ⟨s1, by simp [feed], hrx1, hcid1, by simp [hn1], ?_, ?_, ?_, ?_⟩
      · simp [hids1, List.range'_succ]
      · simp [hpay1]
      · intro k hk
        have hk0 : k = 0 := by simpa using hk
        subst hk0
        simp [hreq1, RequestMap.find_assign]
      · intro j hj
        have hjne : j ≠ s.mNextRequestId := by
          simp only [List.length_singleton] at hj
          omega
        simp [hreq1, RequestMap.find_assign, hjne]

/-- With no message left nothing is framed. -/
theorem framedCount_nil (pending : Nat) (cs : List Data) : framedCount [] pending cs = 0 := by
  cases cs <;> simp [framedCount]

/-- No more messages are framed than there are. -/
theorem framedCount_le : ∀ (cs Ms : List Data) (pending : Nat),
    framedCount Ms pending cs ≤ Ms.length := by
  intro cs
  induction cs with
  | nil => intro Ms pending; cases Ms <;> simp [framedCount]
  | cons c cs ih =>
    intro Ms pending
    cases Ms with
    | nil => simp [framedCount]
    | cons M Ms =>
      simp only [framedCount]
      split
      · have := ih Ms (pending + c.length - M.length)
        simp only [List.length_cons]
        omega
      · exact ih (M :: Ms) _

/-- No more messages are framed than there are reads. -/
theorem framedCount_le_reads : ∀ (cs Ms : List Data) (pending : Nat),
    framedCount Ms pending cs ≤ cs.length := by
  intro cs
  induction cs with
  | nil => intro Ms pending; cases Ms <;> simp [framedCount]
  | cons c cs ih =>
    intro Ms pending
    cases Ms with
    | nil => simp [framedCount]
    | cons M Ms =>
      simp only [framedCount, List.length_cons]
      split
      · have := ih Ms (pending + c.length - M.length)
        omega
      · have := ih (M :: Ms) (pending + c.length)
        omega

/-- Whitespace at the head of a message is part of its leading bytes. -/
theorem whitespace_prefix (ws X w Y : Data) (hws : ∀ x ∈ ws, isWhitespace x = true)
    (h : ws ++ X = w ++ '<' :: Y) : ∃ u, w = ws ++ u ∧ X = u ++ '<' :: Y := by
  rcases List.append_eq_append_iff.mp h with ⟨a, ha, hb⟩ | ⟨c, hc, hd⟩
  · exact ⟨a, ha, hb⟩
  · cases c with
    | nil => exact ⟨[], by simpa using hc.symm, by simpa using hd.symm⟩
    | cons x c =>
      exfalso
      simp only [List.cons_append, List.cons.injEq] at hd
      have := hws x (by rw [hc]; simp)
      rw [← hd.1] at this
      simp [isWhitespace] at this

/-- Of two prefixes of the same bytes the shorter is a prefix of the longer. -/
theorem split_of_le (A B M S : Data) (h : A ++ B = M ++ S) (hl : M.length ≤ A.length) :
    ∃ rest, A = M ++ rest ∧ rest ++ B = S := by
  rcases List.append_eq_append_iff.mp h with ⟨a, ha, hb⟩ | ⟨c, hc, hd⟩
  · have : a = [] := by
      have := congrArg List.length ha
      simp only [List.length_append] at this
      exact List.length_eq_zero.mp (by omega)
    subst this
    exact ⟨[], by simpa using ha.symm, by simpa using hb⟩
  · exact ⟨c, hc, hd.symm⟩

/-- A strictly shorter prefix leaves a non-empty remainder. -/
theorem split_of_lt (A B M S : Data) (h : A ++ B = M ++ S) (hl : A.length < M.length) :
    ∃ D, D ≠ [] ∧ M = A ++ D := by
  rcases List.append_eq_append_iff.mp h with ⟨a, ha, hb⟩ | ⟨c, hc, hd⟩
  · refine ⟨a, ?_, ha⟩
    rintro rfl
    simp at ha
    rw [ha] at hl
    exact Nat.lt_irrefl _ hl
  · exfalso
    have := congrArg List.length hc
    simp only [List.length_append] at this
    omega

/-- Well-formed messages whose bytes arrive in any non-empty chunks are framed
one per read, each as soon as all its bytes have arrived, under consecutive
request ids, as long as the ids stay within the range of `unsigned int`. The
bytes `ws` are the whitespace skipped after the last framed message. -/
theorem feed_stream : ∀ (chunks : List Data) (msgs : List (Data × Data × Data))
    (s : XmlRpcConnection) (ws D : Data),
    (∀ m ∈ msgs, WellFormed m.1 m.2.1 m.2.2) → (∀ c ∈ chunks, c ≠ []) →
    (∀ x ∈ ws, isWhitespace x = true) →
    ws ++ s.mRxBuffer ++ chunks.flatten ++ D = (msgs.map toMessage).flatten →
    s.mNextRequestId + msgs.length ≤ UINT_RANGE →
    ∃ (s1 : XmlRpcConnection) (P : List Data), feed s chunks = some s1 ∧
      P.length = framedCount (msgs.map toMessage) (ws.length + s.mRxBuffer.length) chunks ∧
      handledIds s1.trace = handledIds s.trace ++ List.range' s.mNextRequestId P.length ∧
      handledPayloads s1.trace = handledPayloads s.trace ++ P ∧
      (∀ k, k < P.length → ∃ m n, msgs[k]? = some m ∧ n ≤ m.1.length ∧
        (k = 0 → n = ws.length) ∧
        P[k]? = some (message (m.1.drop n) m.2.1 m.2.2) ∧
        s1.mRequests.find (s.mNextRequestId + k) = P[k]?) ∧
      (∀ j, j < s.mNextRequestId ∨ s.mNextRequestId + P.length ≤ j →
        s1.mRequests.find j = s.mRequests.find j) := by
  intro chunks
  induction chunks with
  | nil =>
    intro msgs s ws D _ _ _ _ _
    refine ⟨s, [], rfl, ?_, by simp, by simp, by simp, by simp⟩
    cases msgs <;> simp [framedCount]
  | cons c cs ih =>
    intro msgs s ws D hwf hne hws hflat hle
    have hc : c ≠ [] := hne c (List.mem_cons_self _ _)
    have hcs : ∀ d ∈ cs, d ≠ [] := fun d hd => hne d (List.mem_cons_of_mem _ hd)
    cases msgs with
    | nil =>
      exfalso
      have hlen := congrArg List.length hflat
      have hpos := List.length_pos.mpr hc
      simp only [List.map_nil, List.flatten_nil, List.length_append, List.flatten_cons,
        List.length_nil] at hlen
      omega
    | cons m ms =>
      obtain ⟨w, tag, body⟩ := m
      have hwfm : WellFormed w tag body := hwf _ (List.mem_cons_self _ _)
      have hwfms : ∀ m ∈ ms, WellFormed m.1 m.2.1 m.2.2 :=
        fun m hm => hwf m (List.mem_cons_of_mem _ hm)
      have hstream : (ws ++ (s.mRxBuffer ++ c)) ++ (cs.flatten ++ D)
          = message w tag body ++ (ms.map toMessage).flatten := by
        simpa [toMessage] using hflat
      have hM : (toMessage (w, tag, body)).length = (message w tag body).length := rfl
      rcases Nat.lt_or_ge (ws.length + s.mRxBuffer.length + c.length)
          (message w tag body).length with hshort | hlong
      · -- the bytes of the message have not all arrived
        obtain ⟨D1, hD1, hsplit⟩ := split_of_lt _ _ _ _ hstream
          (by simp only [List.length_append]; omega)
        obtain ⟨u, hu, hbuf⟩ := whitespace_prefix ws (s.mRxBuffer ++ c ++ D1) w
          (tag ++ '>' :: body ++ closingTag tag) hws (by simpa [message] using hsplit.symm)
        have hwfu : WellFormed u tag body :=
          ⟨fun x hx => hwfm.1 x (by rw [hu]; exact List.mem_append_right _ hx),
            hwfm.2.1, hwfm.2.2⟩
        have hinc := tryParse_incomplete
          { s with trace := s.trace ++ [Event.read (ReadResult.bytes c)]
                   mRxBuffer := s.mRxBuffer ++ c } u tag body D1 hwfu hD1
          (by simpa [message] using hbuf)
        obtain ⟨s1, P, hfeed, hP, hids, hpay, hk, hkeep⟩ :=
          ih ((w, tag, body) :: ms)
            { s with trace := s.trace ++ [Event.read (ReadResult.bytes c)]
                     mRxBuffer := s.mRxBuffer ++ c } ws D hwf hcs hws
            (by simpa using hflat) hle
        refine ⟨s1, P, ?_, ?_, ?_, ?_, hk, hkeep⟩
        · simp only [feed, processSomeReads_bytes s c hc, hinc, Option.some_bind]
          exact hfeed
        · rw [hP]
          simp only [List.map_cons, framedCount, hM, List.length_append]
          rw [if_neg (by omega), Nat.add_assoc]
        · simpa [handledIds, handled_append, handled] using hids
        · simpa [handledPayloads, handled_append, handled] using hpay
      · -- all the bytes of the message have arrived: the read frames it
        obtain ⟨rest, hsplit, hrest⟩ := split_of_le _ _ _ _ hstream
          (by simp only [List.length_append]; omega)
        obtain ⟨u, hu, hbuf⟩ := whitespace_prefix ws (s.mRxBuffer ++ c) w
          (tag ++ '>' :: body ++ closingTag tag ++ rest) hws
          (by simpa [message] using hsplit)
        have hwfu : WellFormed u tag body :=
          ⟨fun x hx => hwfm.1 x (by rw [hu]; exact List.mem_append_right _ hx),
            hwfm.2.1, hwfm.2.2⟩
        have hdrop : w.drop ws.length = u := by rw [hu, List.drop_left]
        have hrestlen : rest.length
            = ws.length + s.mRxBuffer.length + c.length - (message w tag body).length := by
          have := congrArg List.length hsplit
          simp only [List.length_append] at this
          omega
        obtain ⟨s1, hs1, hrx1, hnext1, hreq1, htr1⟩ : ∃ s1 : XmlRpcConnection,
            processSomeReads s (ReadResult.bytes c) = some (true, s1) ∧
            s1.mRxBuffer = rest.dropWhile isWhitespace ∧
            s1.mNextRequestId = (s.mNextRequestId + 1) % UINT_RANGE ∧
            s1.mRequests = s.mRequests.assign s.mNextRequestId (message u tag body) ∧
            s1.trace = s.trace ++ [Event.read (ReadResult.bytes c),
              Event.handleRequest s.mConnectionId s.mNextRequestId (message u tag body)] :=
          ⟨_, processSomeReads_frame s u tag body rest c hwfu hc
            (by simpa [message] using hbuf), rfl, rfl, rfl, rfl⟩
        have htd : rest.takeWhile isWhitespace ++ rest.dropWhile isWhitespace = rest :=
          List.takeWhile_append_dropWhile _ _
        have hcase : s1.mNextRequestId = s.mNextRequestId + 1 ∨
            (ms = [] ∧ s1.mNextRequestId = 0) := by
          simp only [List.length_cons] at hle
          rcases Nat.lt_or_ge (s.mNextRequestId + 1) UINT_RANGE with h | h
          · exact Or.inl (by rw [hnext1, Nat.mod_eq_of_lt h])
          · refine Or.inr ⟨List.length_eq_zero.mp (by omega), ?_⟩
            have : s.mNextRequestId + 1 = UINT_RANGE := by omega
            rw [hnext1, this, Nat.mod_self]
        obtain ⟨s2, P, hfeed, hP, hids, hpay, hk, hkeep⟩ :=
          ih ms s1 (rest.takeWhile isWhitespace) D hwfms hcs
            (fun x hx => (List.mem_takeWhile_imp hx))
            (by rw [hrx1, htd, List.append_assoc]; exact hrest)
            (by
              rcases hcase with h | ⟨h, h0⟩
              · rw [h]; simp only [List.length_cons] at hle; omega
              · rw [h, h0]; simp)
        have hPcase : s1.mNextRequestId = s.mNextRequestId + 1 ∨
            (P.length = 0 ∧ s1.mNextRequestId = 0) := by
          rcases hcase with h | ⟨h, h0⟩
          · exact Or.inl h
          · refine Or.inr ⟨?_, h0⟩
            rw [hP, h]
            exact framedCount_nil _ _
        have hids1 : handledIds s1.trace = handledIds s.trace ++ [s.mNextRequestId] := by
          simp [htr1, handledIds, handled_append, handled]
        have hpay1 : handledPayloads s1.trace
            = handledPayloads s.trace ++ [message u tag body] := by
          simp [htr1, handledPayloads, handled_append, handled]
        have hfind0 : s2.mRequests.find s.mNextRequestId = some (message u tag body) := by
          rw [hkeep s.mNextRequestId (by
            rcases hPcase with h | ⟨h, h0⟩
            · left; omega
            · right; omega), hreq1]
          simp [RequestMap.find_assign]
        refine ⟨s2, message u tag body :: P, ?_, ?_, ?_, ?_, ?_, ?_⟩
        · simp only [feed, hs1, Option.some_bind]
          exact hfeed
        · simp only [List.map_cons, framedCount, hM, List.length_cons]
          rw [if_pos (by omega), hP, hrx1]
          have : (rest.takeWhile isWhitespace).length + (rest.dropWhile isWhitespace).length
              = ws.length + s.mRxBuffer.length + c.length - (message w tag body).length := by
            rw [← List.length_append, htd, hrestlen]
          rw [this]
        · rw [hids, hids1, List.length_cons, List.range'_succ, List.append_assoc]
          rcases hPcase with h | ⟨h, -⟩
          · rw [h]; rfl
          · rw [h]; simp
        · rw [hpay, hpay1, List.append_assoc]; rfl
        · intro k hk1
          cases k with
          | zero =>
            exact ⟨(w, tag, body), ws.length, by simp, by rw [hu]; simp, fun _ => rfl,
              by simp [hdrop], by simpa using hfind0⟩
          | succ k =>
            have hkP : k < P.length := by simpa using hk1
            obtain ⟨m, n, hm, hn, -, hPk, hfind⟩ := hk k hkP
            have hnx : s1.mNextRequestId = s.mNextRequestId + 1 := by
              rcases hPcase with h | ⟨h, -⟩
              · exact h
              · omega
            refine ⟨m, n, by simpa using hm, hn, fun h => absurd h (Nat.succ_ne_zero k),
              by simpa using hPk, ?_⟩
            rw [hnx] at hfind
            have he : s.mNextRequestId + (k + 1) = s.mNextRequestId + 1 + k := by omega
            rw [he, hfind]
            simp
        · intro j hj
          simp only [List.length_cons] at hj
          have hjne : j ≠ s.mNextRequestId := by omega
          rw [hkeep j (by
            rcases hPcase with h | ⟨h, h0⟩
            · rw [h]; omega
            · right; omega), hreq1]
          simp [RequestMap.find_assign, hjne]

/-- The same well-formed message read `n` times over: the request ids run
through the range of `unsigned int` and wrap. -/
theorem feed_replicate (w tag body : Data) (hwf : WellFormed w tag body) :
    ∀ (n : Nat) (s : XmlRpcConnection), s.mRxBuffer = [] → s.mNextRequestId < UINT_RANGE →
      ∃ s1, feed s (List.replicate n (message w tag body)) = some s1 ∧ s1.mRxBuffer = [] ∧
        s1.mConnectionId = s.mConnectionId ∧
        (∀ e ∈ handled s.trace, e ∈ handled s1.trace) ∧
        ∀ k, k < n →
          (s.mConnectionId, (s.mNextRequestId + k) % UINT_RANGE, message w tag body)
            ∈ handled s1.trace := by
  intro n
  induction n with
  | zero =>
    intro s hrx _
    exact ⟨s, by simp [feed], hrx, rfl, fun e he => he, fun k hk => absurd hk (Nat.not_lt_zero k)⟩
  | succ n ih =>
    intro s hrx hlt
    have hR : 0 < UINT_RANGE := by simp [UINT_RANGE]
    have hstep : ∃ s1 : XmlRpcConnection,
        processSomeReads s (ReadResult.bytes (message w tag body)) = some (true, s1) ∧
        s1.mRxBuffer = [] ∧ s1.mConnectionId = s.mConnectionId ∧
        s1.mNextRequestId = (s.mNextRequestId + 1) % UINT_RANGE ∧
        s1.trace = s.trace ++ [Event.read (ReadResult.bytes (message w tag body)),
          Event.handleRequest s.mConnectionId s.mNextRequestId (message w tag body)] :=
      ⟨_, processSomeReads_frame s w tag body [] (message w tag body) hwf (message_ne_nil _ _ _)
        (by simp [hrx]), rfl, rfl, rfl, rfl⟩
    obtain ⟨s1, hs1, hrx1, hcid1, hn1, htr1⟩ := hstep
    obtain ⟨s2, hfeed, hrx2, hcid2, hmono, hmem⟩ :=
      ih s1 hrx1 (by rw [hn1]; exact Nat.mod_lt _ hR)
    have hh1 : handled s1.trace = handled s.trace ++
        [(s.mConnectionId, s.mNextRequestId, message w tag body)] := by
      simp [htr1, handled_append, handled]
    refine ⟨s2, ?_, hrx2, hcid2.trans hcid1, ?_, ?_⟩
    · simp [List.replicate_succ, feed, hs1, hfeed]
    · intro e he
      exact hmono e (by rw [hh1]; exact List.mem_append_left _ he)
    · intro k hk
      cases k with
      | zero =>
        rw [Nat.add_zero, Nat.mod_eq_of_lt hlt]
        exact hmono _ (by rw [hh1]; simp)
      | succ k =>
        have := hmem k (by omega)
        rw [hcid1, hn1, Nat.mod_add_mod] at this
        rwa [show s.mNextRequestId + (k + 1) = s.mNextRequestId + 1 + k by omega]

/-- After as many messages as `unsigned int` has values, request id 0 has been
handed out. -/
theorem ids_wrap (n : Nat) (hn : n = UINT_RANGE) :
    ∃ s, feed (fresh 7 3) (List.replicate n (message [] "a".toList [])) = some s ∧
      handledIds s.trace ≠ List.range' 1 n := by
  obtain ⟨s, hfeed, -, -, -, hmem⟩ := feed_replicate [] "a".toList [] (by decide) n (fresh 7 3)
    rfl (by simp [fresh, construct, UINT_RANGE])
  refine ⟨s, hfeed, ?_⟩
  intro hids
  have h0 := hmem (n - 1) (by rw [hn]; simp [UINT_RANGE])
  have hz : ((fresh 7 3).mNextRequestId + (n - 1)) % UINT_RANGE = 0 := by
    have : (fresh 7 3).mNextRequestId + (n - 1) = UINT_RANGE := by
      rw [hn]; simp [fresh, construct, UINT_RANGE]
    rw [this, Nat.mod_self]
  rw [hz] at h0
  have hin : 0 ∈ handledIds s.trace :=
    List.mem_map.mpr ⟨_, h0, rfl⟩
  rw [hids] at hin
  have := (List.mem_range'_1.mp hin).1
  omega

theorem takeWhile_whitespace_eq_nil (S : Data)
    (hS : ∀ c, S.head? = some c → isWhitespace c = false) : S.takeWhile isWhitespace = [] := by
  cases S with
  | nil => rfl
  | cons c cs => simp [List.takeWhile, hS c rfl]

theorem dropWhile_whitespace_eq_self (S : Data)
    (hS : ∀ c, S.head? = some c → isWhitespace c = false) : S.dropWhile isWhitespace = S := by
  cases S with
  | nil => rfl
  | cons c cs => simp [List.dropWhile, hS c rfl]

theorem sent_append (t u : List Event) : sent (t ++ u) = sent t ++ sent u := by
  induction t with
  | nil => rfl
  | cons e t ih =>
    cases e with
    | handleRequest c r d => simpa [sent] using ih
    | read r => simpa [sent] using ih
    | write offered w => cases w <;> simp [sent, ih]

theorem processSomeWrites_accepted (s : XmlRpcConnection) (n : Nat) (h : s.mTxBuffer ≠ []) :
    processSomeWrites s (WriteResult.accepted n) = (true, { s with
      mTxBuffer := s.mTxBuffer.drop n
      trace := s.trace ++ [Event.write s.mTxBuffer (WriteResult.accepted n)] }) := by
  have hne : s.mTxBuffer.isEmpty = false := by simpa using h
  have h1 : ¬ ((n : Int) = -1) := by omega
  by_cases hfull : (n : Int) = (s.mTxBuffer.length : Int)
  · have hn : n = s.mTxBuffer.length := by exact_mod_cast hfull
    simp [processSomeWrites, hne, WriteResult.bytesWritten, INVALID_SOCKET, h1, hn]
  · simp [processSomeWrites, hne, WriteResult.bytesWritten, INVALID_SOCKET, h1, hfull]

theorem processSomeWrites_error (s : XmlRpcConnection) (h : s.mTxBuffer ≠ []) :
    processSomeWrites s WriteResult.error = (false, { s with
      trace := s.trace ++ [Event.write s.mTxBuffer WriteResult.error] }) := by
  have hne : s.mTxBuffer.isEmpty = false := by simpa using h
  simp [processSomeWrites, hne, WriteResult.bytesWritten, INVALID_SOCKET]

theorem processSomeWrites_empty (s : XmlRpcConnection) (w : WriteResult) (h : s.mTxBuffer = []) :
    processSomeWrites s w = (true, s) := by
  simp [processSomeWrites, h]

/-- One write event keeps the bytes accepted so far followed by the transmit
buffer. -/
theorem processSomeWrites_stream (s : XmlRpcConnection) (w : WriteResult) :
    sent (processSomeWrites s w).2.trace ++ (processSomeWrites s w).2.mTxBuffer
      = sent s.trace ++ s.mTxBuffer := by
  by_cases h : s.mTxBuffer = []
  · rw [processSomeWrites_empty s w h]
  · cases w with
    | error => rw [processSomeWrites_error s h]; simp [sent_append, sent]
    | accepted n => rw [processSomeWrites_accepted s n h]; simp [sent_append, sent]

theorem drain_stream (ws : List WriteResult) :
    ∀ s : XmlRpcConnection,
      sent (drain s ws).trace ++ (drain s ws).mTxBuffer = sent s.trace ++ s.mTxBuffer := by
  induction ws with
  | nil => intro s; rfl
  | cons w ws ih =>
    intro s
    rw [drain, ih, processSomeWrites_stream]

theorem processSomeWrites_counts (s : XmlRpcConnection) (w : WriteResult)
    (h : s.mTxBuffer ≠ []) :
    readCount (processSomeWrites s w).2.trace = readCount s.trace ∧
    writeCount (processSomeWrites s w).2.trace = writeCount s.trace + 1 := by
  cases w with
  | error =>
    rw [processSomeWrites_error s h]
    simp [readCount_append, writeCount_append, readCount, writeCount]
  | accepted n =>
    rw [processSomeWrites_accepted s n h]
    simp [readCount_append, writeCount_append, readCount, writeCount]

/-- The write step of `process`. -/
theorem process_write_step (s1 : XmlRpcConnection) (fdset : FdSet) (w : WriteResult) :
    (if (!s1.mTxBuffer.isEmpty && fdset.readyToWrite s1.mSock) = true then
        (match processSomeWrites s1 w with
          | (ok, s2) => if (!ok) = true then some (false, s2) else some (true, s2))
      else some (true, s1))
    = if s1.mTxBuffer ≠ [] ∧ fdset.readyToWrite s1.mSock = true
        then some (processSomeWrites s1 w) else some (true, s1) := by
  by_cases hc : s1.mTxBuffer ≠ [] ∧ fdset.readyToWrite s1.mSock = true
  · have hne : s1.mTxBuffer.isEmpty = false := by simpa using hc.1
    rw [if_pos hc]
    simp only [hne, hc.2, Bool.not_false, Bool.and_self, if_true]
    rcases hp : processSomeWrites s1 w with ⟨ok, s2⟩
    cases ok <;> simp
  · rw [if_neg hc]
    have : (!s1.mTxBuffer.isEmpty && fdset.readyToWrite s1.mSock) = false := by
      by_cases he : s1.mTxBuffer = []
      · simp [he]
      · have : fdset.readyToWrite s1.mSock = false := by
          simpa [he] using hc
        simp [this]
    simp [this]

end XmlRpcConnection

theorem charRun_eq_zero (c : Char) (suf : Data) (h : charRun c suf = 0) :
    suf = [] ∨ ∃ t, suf = c :: t := by
  cases suf with
  | nil => exact Or.inl rfl
  | cons d ds =>
    by_cases hd : d = c
    · exact Or.inr ⟨ds, by rw [hd]⟩
    · simp [charRun, hd] at h

/-- Skipping whitespace and then scanning to `<` ends at the first `<`. -/
theorem scanRun_open (pre suf : Data) (hpre : '<' ∉ pre) (hs : charRun '<' suf = 0) :
    whitespaceRun (pre ++ suf)
      + charRun '<' ((pre ++ suf).drop (whitespaceRun (pre ++ suf))) = pre.length := by
  induction pre with
  | nil =>
    rcases charRun_eq_zero _ _ hs with rfl | ⟨t, rfl⟩
    · rfl
    · simp [whitespaceRun, isWhitespace, charRun]
  | cons a p ih =>
    have hp : '<' ∉ p := fun h => hpre (List.mem_cons_of_mem _ h)
    by_cases ha : isWhitespace a = true
    · have := ih hp
      have hcons : whitespaceRun (a :: (p ++ suf)) = whitespaceRun (p ++ suf) + 1 := by
        simp [whitespaceRun, ha]
      rw [List.cons_append, hcons, List.drop_succ_cons, List.length_cons]
      omega
    · have h0 := charRun_append '<' (a :: p) suf hpre
      have hcons : whitespaceRun (a :: (p ++ suf)) = 0 := by
        simp [whitespaceRun, ha]
      rw [List.cons_append] at h0
      rw [List.cons_append, hcons, List.drop_zero, Nat.zero_add, h0, hs, Nat.add_zero]

namespace ParseBuffer

theorem skipToOpen (pre suf : Data) (hpre : '<' ∉ pre) (hs : charRun '<' suf = 0) :
    ((init (pre ++ suf)).skipWhitespace).skipToChar '<' = atSplit pre suf := by
  have h := scanRun_open pre suf hpre hs
  simp only [init, skipWhitespace, skipToChar, rest, atSplit, List.drop_zero, Nat.zero_add]
  rw [h]

theorem skipToChars_general (pre suf sub : Data) :
    (atSplit pre suf).skipToChars sub
      = atSplit (pre ++ suf.take (charsRun sub suf)) (suf.drop (charsRun sub suf)) := by
  have h := skipToChars_atSplit pre (suf.take (charsRun sub suf)) (suf.drop (charsRun sub suf)) sub
    (by rw [List.take_append_drop, List.length_take, Nat.min_eq_left (charsRun_le sub suf)])
  rwa [List.take_append_drop] at h

end ParseBuffer

namespace XmlRpcConnection

open ParseBuffer

/-- A buffer without `<` is left as it is. -/
theorem tryParse_no_open (s : XmlRpcConnection) (h : '<' ∉ s.mRxBuffer) : tryParse s = some s := by
  have h1 := skipToOpen s.mRxBuffer [] h rfl
  rw [List.append_nil] at h1
  simp [tryParse, h1]

/-- A buffer without `>` after its first `<` is left as it is. -/
theorem tryParse_no_bracket (s : XmlRpcConnection) (pre t : Data) (hpre : '<' ∉ pre)
    (ht : '>' ∉ t) (hrx : s.mRxBuffer = pre ++ '<' :: t) : tryParse s = some s := by
  have h1 := skipToOpen pre ('<' :: t) hpre (charRun_cons_self _ _)
  rw [← hrx] at h1
  have h3 := skipChar_atSplit pre t '<'
  have h4 : (atSplit (pre ++ ['<']) t).skipToChar '>' = atSplit (pre ++ ['<'] ++ t) [] := by
    simpa using skipToChar_atSplit (pre ++ ['<']) t [] '>' ht rfl
  simp [tryParse, h1, h3, h4]

/-- A buffer in which the search for the closing sequence of the first tag
reaches the end is left as it is. -/
theorem tryParse_no_closing (s : XmlRpcConnection) (pre tag r : Data) (hpre : '<' ∉ pre)
    (htag : '>' ∉ tag) (hrun : charsRun (closingTag tag) ('>' :: r) = ('>' :: r).length)
    (hrx : s.mRxBuffer = pre ++ '<' :: (tag ++ '>' :: r)) : tryParse s = some s := by
  have h1 := skipToOpen pre ('<' :: (tag ++ '>' :: r)) hpre (charRun_cons_self _ _)
  rw [← hrx] at h1
  have h3 := skipChar_atSplit pre (tag ++ '>' :: r) '<'
  have h4 := skipToChar_atSplit (pre ++ ['<']) tag ('>' :: r) '>' htag (charRun_cons_self _ _)
  have h5 : (atSplit (pre ++ ['<'] ++ tag) ('>' :: r)).data (pre ++ ['<']).length = tag :=
    data_atSplit _ _ _
  have h6 : (atSplit (pre ++ ['<'] ++ tag) ('>' :: r)).skipToChars (closingTag tag)
      = atSplit (pre ++ ['<'] ++ tag ++ '>' :: r) [] := by
    simpa using skipToChars_atSplit (pre ++ ['<'] ++ tag) ('>' :: r) [] (closingTag tag)
      (by simpa using hrun)
  simp only [tryParse, h1, eof_atSplit, h3, position_atSplit, h4, h5, closingTag_eq,
    h6, Option.some_bind, Option.bind_eq_bind]
  simp

/-- A buffer in which the closing sequence of the first tag is found: the bytes
up to its end are framed. -/
theorem tryParse_frame_run (s : XmlRpcConnection) (pre tag body S : Data) (hpre : '<' ∉ pre)
    (htag : '>' ∉ tag)
    (hrun : charsRun (closingTag tag) ('>' :: body ++ (closingTag tag ++ S))
      = ('>' :: body).length)
    (hrx : s.mRxBuffer = pre ++ '<' :: (tag ++ '>' :: (body ++ (closingTag tag ++ S)))) :
    tryParse s = some { s with
      mRequests := s.mRequests.assign s.mNextRequestId (message pre tag body)
      mNextRequestId := (s.mNextRequestId + 1) % UINT_RANGE
      mRxBuffer := S.dropWhile isWhitespace
      trace := s.trace ++
        [Event.handleRequest s.mConnectionId s.mNextRequestId (message pre tag body)] } := by
  have h1 := skipToOpen pre ('<' :: (tag ++ '>' :: (body ++ (closingTag tag ++ S)))) hpre
    (charRun_cons_self _ _)
  rw [← hrx] at h1
  have h3 := skipChar_atSplit pre (tag ++ '>' :: (body ++ (closingTag tag ++ S))) '<'
  have h4 := skipToChar_atSplit (pre ++ ['<']) tag ('>' :: (body ++ (closingTag tag ++ S))) '>'
    htag (charRun_cons_self _ _)
  have h5 : (atSplit (pre ++ ['<'] ++ tag) ('>' :: (body ++ (closingTag tag ++ S)))).data
      (pre ++ ['<']).length = tag := data_atSplit _ _ _
  have h6 : (atSplit (pre ++ ['<'] ++ tag)
      ('>' :: (body ++ (closingTag tag ++ S)))).skipToChars (closingTag tag)
      = atSplit (pre ++ ['<'] ++ tag ++ '>' :: body) (closingTag tag ++ S) := by
    have := skipToChars_atSplit (pre ++ ['<'] ++ tag) ('>' :: body) (closingTag tag ++ S)
      (closingTag tag) hrun
    simpa using this
  have h7 := skipN_atSplit (pre ++ ['<'] ++ tag ++ '>' :: body) (closingTag tag) S
    (tag.length + 3) (closingTag_length tag)
  have h8 : pre ++ ['<'] ++ tag ++ '>' :: body ++ closingTag tag = message pre tag body := by
    simp [message]
  rw [h8] at h7
  have h9 := skipWhitespace_general (message pre tag body) S
  have h10 := skipToEnd_atSplit (message pre tag body ++ S.takeWhile isWhitespace)
    (S.dropWhile isWhitespace)
  have h11 := data_atSplit (message pre tag body ++ S.takeWhile isWhitespace)
    (S.dropWhile isWhitespace) []
  have h12 : (closingTag tag ++ S).isEmpty = false := by simp [closingTag]
  simp only [tryParse, h1, eof_atSplit, h3, position_atSplit, h4, h5, closingTag_eq, h6, h7,
    h12, h9, h10, h11, data_atSplit_zero, RequestMap.index_assign, Option.some_bind,
    Option.bind_eq_bind, position_init]
  cases hd : S.dropWhile isWhitespace <;> simp

end XmlRpcConnection

theorem split_at_char (c : Char) (l : Data) :
    c ∉ l ∨ ∃ p t, l = p ++ c :: t ∧ c ∉ p := by
  induction l with
  | nil => exact Or.inl (by simp)
  | cons d ds ih =>
    by_cases hd : d = c
    · exact Or.inr ⟨[], ds, by simp [hd], by simp⟩
    · rcases ih with h | ⟨p, t, hl, hp⟩
      · exact Or.inl (by simp [h, Ne.symm hd])
      · exact Or.inr ⟨d :: p, t, by simp [hl], by simp [hp, Ne.symm hd]⟩

theorem charsRun_closingTag_cons (tag r : Data) :
    charsRun (closingTag tag) ('>' :: r) = charsRun (closingTag tag) r + 1 := by
  simp [charsRun, closingTag]

namespace XmlRpcConnection

/-- What the parser does on any buffer: nothing, or it frames the bytes up to
the end of the first occurrence of the closing sequence of the first tag. -/
theorem tryParse_cases (s : XmlRpcConnection) :
    tryParse s = some s ∨
    ∃ pre tag body S, '<' ∉ pre ∧ '>' ∉ tag ∧
      charsRun (closingTag tag) (body ++ (closingTag tag ++ S)) = body.length ∧
      s.mRxBuffer = pre ++ '<' :: (tag ++ '>' :: (body ++ (closingTag tag ++ S))) ∧
      tryParse s = some { s with
        mRequests := s.mRequests.assign s.mNextRequestId (message pre tag body)
        mNextRequestId := (s.mNextRequestId + 1) % UINT_RANGE
        mRxBuffer := S.dropWhile isWhitespace
        trace := s.trace ++
          [Event.handleRequest s.mConnectionId s.mNextRequestId (message pre tag body)] } := by
  rcases split_at_char '<' s.mRxBuffer with h | ⟨pre, r2, hB, hpre⟩
  · exact Or.inl (tryParse_no_open s h)
  · rcases split_at_char '>' r2 with h | ⟨tag, r, hr2, htag⟩
    · exact Or.inl (tryParse_no_bracket s pre r2 hpre h hB)
    · subst hr2
      rcases Nat.lt_or_ge (charsRun (closingTag tag) r) r.length with hlt | hge
      · obtain ⟨S, hS1, hS2⟩ := charsRun_found _ _ hlt
        have hlen : (r.take (charsRun (closingTag tag) r)).length
            = charsRun (closingTag tag) r := by
          rw [List.length_take, Nat.min_eq_left (charsRun_le _ _)]
        refine Or.inr ⟨pre, tag, r.take (charsRun (closingTag tag) r), S, hpre, htag, hS2, ?_, ?_⟩
        · rw [← hS1]; exact hB
        · exact tryParse_frame_run s pre tag _ S hpre htag
            (by rw [List.cons_append, charsRun_closingTag_cons, hS2, List.length_cons])
            (by rw [← hS1]; exact hB)
      · refine Or.inl (tryParse_no_closing s pre tag r hpre htag ?_ hB)
        rw [charsRun_closingTag_cons, List.length_cons,
          Nat.le_antisymm (charsRun_le _ _) hge]

end XmlRpcConnection

theorem head_dropWhile_whitespace (l : Data) (c : Char)
    (h : (l.dropWhile isWhitespace).head? = some c) : isWhitespace c = false := by
  induction l with
  | nil => simp at h
  | cons d ds ih =>
    by_cases hd : isWhitespace d = true
    · rw [List.dropWhile_cons_of_pos hd] at h
      exact ih h
    · rw [List.dropWhile_cons_of_neg hd] at h
      simp only [List.head?_cons, Option.some.injEq] at h
      rw [← h]
      simpa using hd

theorem isWhitespace_iff (c : Char) :
    isWhitespace c = true ↔ c = ' ' ∨ c = '\t' ∨ c = '\r' ∨ c = '\n' := by
  simp [isWhitespace, or_assoc]

theorem occursAt_append (sub l S : Data) (i : Nat) (hi : i ≤ l.length)
    (h : occursAt sub l i) : occursAt sub (l ++ S) i := by
  unfold occursAt at h ⊢
  rw [List.drop_append_of_le_length hi]
  exact h.trans (List.prefix_append _ _)

/-- A literal that occurs is found before the end. -/
theorem charsRun_lt_of_infix (sub l : Data) (hsub : sub ≠ []) (h : sub <:+: l) :
    charsRun sub l < l.length := by
  induction l with
  | nil =>
    exact absurd (List.eq_nil_of_infix_nil h) hsub
  | cons d ds ih =>
    by_cases hp : sub.isPrefixOf (d :: ds) = true
    · simp [charsRun, hp]
    · rcases List.infix_cons_iff.mp h with h1 | h1
      · exact absurd (List.isPrefixOf_iff_prefix.mpr h1) hp
      · have := ih h1
        simp [charsRun, hp]
        exact this

/-- The literal does not stand anywhere in front of where the scan stops. -/
theorem charsRun_min (sub l : Data) :
    ∀ i, i < charsRun sub l → ¬ occursAt sub l i := by
  induction l with
  | nil => intro i hi; simp [charsRun] at hi
  | cons d ds ih =>
    intro i hi hocc
    by_cases hp : sub.isPrefixOf (d :: ds) = true
    · simp [charsRun, hp] at hi
    · have hrun : charsRun sub (d :: ds) = charsRun sub ds + 1 := by simp [charsRun, hp]
      cases i with
      | zero =>
        apply hp
        rw [List.isPrefixOf_iff_prefix]
        simpa [occursAt] using hocc
      | succ i =>
        exact ih i (by omega) (by simpa [occursAt] using hocc)

namespace XmlRpcConnection

theorem envelope_bare (R Y : Data) (h : charsRun "</Request>".toList R = R.length) :
    envelope R Y = "<Response>".toList ++ Y ++ "</Response>".toList := by
  unfold envelope
  rw [if_neg (by omega)]

/-- The bytes queued by `sendResponse` for a known request id are the envelope
of the stored request and the response data. -/
theorem sendResponse_envelope (s : XmlRpcConnection) (requestId : Nat) (R Y : Data)
    (h : s.mRequests.find requestId = some R) :
    sendResponse s requestId Y
      = some (true, { s with mTxBuffer := s.mTxBuffer ++ envelope R Y }) := by
  rcases Nat.lt_or_ge (charsRun "</Request>".toList R) R.length with hlt | hge
  · obtain ⟨S, hS1, hS2⟩ := charsRun_found _ _ hlt
    have hlen : (R.take (charsRun "</Request>".toList R)).length
        = charsRun "</Request>".toList R := by
      rw [List.length_take, Nat.min_eq_left (charsRun_le _ _)]
    have hdrop : R.drop (charsRun "</Request>".toList R + 10) = S := by
      have hd : (R.take (charsRun "</Request>".toList R) ++ ("</Request>".toList ++ S)).drop
          (charsRun "</Request>".toList R + 10) = S := by
        rw [← List.append_assoc]
        exact List.drop_left' (by rw [List.length_append, hlen]; rfl)
      rw [← hS1] at hd
      exact hd
    have h2 : s.mRequests.find requestId
        = some (R.take (charsRun "</Request>".toList R) ++ ("</Request>".toList ++ S)) := by
      rw [← hS1]; exact h
    rw [sendResponse_splice s requestId Y _ S h2 hS2]
    unfold envelope
    rw [if_pos hlt, hdrop]
  · have hrun : charsRun "</Request>".toList R = R.length :=
      Nat.le_antisymm (charsRun_le _ _) hge
    rw [sendResponse_bare s requestId Y R h hrun, envelope_bare R Y hrun]

end XmlRpcConnection

namespace XmlRpcConnection

theorem tryParse_effect (s : XmlRpcConnection) :
    ∃ s1, tryParse s = some s1 ∧ (Quiet s s1 ∨ ∃ d, Frames s s1 d) := by
  rcases tryParse_cases s with h | ⟨pre, tag, body, S, -, -, -, -, h⟩
  · exact ⟨s, h, Or.inl ⟨rfl, rfl, rfl, rfl⟩⟩
  · exact ⟨_, h, Or.inr ⟨message pre tag body, rfl, rfl, rfl, by simp [handled_append, handled]⟩⟩

theorem processSomeReads_effect (s : XmlRpcConnection) (r : ReadResult) :
    ∃ ok s1, processSomeReads s r = some (ok, s1) ∧ (Quiet s s1 ∨ ∃ d, Frames s s1 d) := by
  by_cases hr : r = ReadResult.error ∨ r = ReadResult.bytes []
  · exact ⟨false, _, processSomeReads_close s r hr,
      Or.inl ⟨rfl, rfl, rfl, by simp [handled_append, handled]⟩⟩
  · obtain ⟨c, rfl, hc⟩ : ∃ c, r = ReadResult.bytes c ∧ c ≠ [] := by
      cases r with
      | error => simp at hr
      | bytes c => exact ⟨c, rfl, by simpa using hr⟩
    obtain ⟨s1, hs1, heff⟩ := tryParse_effect
      { s with trace := s.trace ++ [Event.read (ReadResult.bytes c)]
               mRxBuffer := s.mRxBuffer ++ c }
    refine ⟨true, s1, by rw [processSomeReads_bytes s c hc, hs1]; rfl, ?_⟩
    rcases heff with ⟨h1, h2, h3, h4⟩ | ⟨d, h1, h2, h3, h4⟩
    · exact Or.inl ⟨h1, h2, h3, by rw [h4]; simp [handled_append, handled]⟩
    · exact Or.inr ⟨d, h1, h2, h3, by rw [h4]; simp [handled_append, handled]⟩

theorem processSomeWrites_quiet (s : XmlRpcConnection) (w : WriteResult) :
    Quiet s (processSomeWrites s w).2 := by
  by_cases h : s.mTxBuffer = []
  · rw [processSomeWrites_empty s w h]
    exact ⟨rfl, rfl, rfl, rfl⟩
  · cases w with
    | error =>
      rw [processSomeWrites_error s h]
      exact ⟨rfl, rfl, rfl, by simp [handled_append, handled]⟩
    | accepted n =>
      rw [processSomeWrites_accepted s n h]
      exact ⟨rfl, rfl, rfl, by simp [handled_append, handled]⟩

theorem sendResponse_quiet (s : XmlRpcConnection) (requestId : Nat) (Y : Data) :
    ∃ ok s1, sendResponse s requestId Y = some (ok, s1) ∧ Quiet s s1 := by
  obtain ⟨ok, E, hE, -⟩ := sendResponse_total s requestId Y
  exact ⟨ok, _, hE, rfl, rfl, rfl, rfl⟩

theorem Quiet.trans {s s1 s2 : XmlRpcConnection} (h1 : Quiet s s1) (h2 : Quiet s1 s2) :
    Quiet s s2 :=
  ⟨h2.1.trans h1.1, h2.2.1.trans h1.2.1, h2.2.2.1.trans h1.2.2.1, h2.2.2.2.trans h1.2.2.2⟩

theorem Frames.then_quiet {s s1 s2 : XmlRpcConnection} {d : Data} (h1 : Frames s s1 d)
    (h2 : Quiet s1 s2) : Frames s s2 d :=
  ⟨h2.1.trans h1.1, h2.2.1.trans h1.2.1, h2.2.2.1.trans h1.2.2.1, h2.2.2.2.trans h1.2.2.2⟩

/-- The function `process` is at most one read followed by at most one
write. -/
theorem process_effect (s : XmlRpcConnection) (fdset : FdSet) (r : ReadResult)
    (w : WriteResult) :
    ∃ ok s2, process s fdset r w = some (ok, s2) ∧ (Quiet s s2 ∨ ∃ d, Frames s s2 d) := by
  by_cases hex : fdset.hasException s.mSock = true
  · exact ⟨false, s, by simp [process, hex], Or.inl ⟨rfl, rfl, rfl, rfl⟩⟩
  · have hex' : fdset.hasException s.mSock = false := by simpa using hex
    have key : ∀ (ok1 : Bool) (s1 : XmlRpcConnection),
        (Quiet s s1 ∨ ∃ d, Frames s s1 d) →
        ∃ ok s2, (if (!ok1) = true then some (false, s1)
          else if s1.mTxBuffer ≠ [] ∧ fdset.readyToWrite s1.mSock = true
            then some (processSomeWrites s1 w) else some (true, s1)) = some (ok, s2) ∧
          (Quiet s s2 ∨ ∃ d, Frames s s2 d) := by
      intro ok1 s1 heff
      cases ok1 with
      | false => exact ⟨false, s1, by simp, heff⟩
      | true =>
        by_cases hc : s1.mTxBuffer ≠ [] ∧ fdset.readyToWrite s1.mSock = true
        · refine ⟨(processSomeWrites s1 w).1, (processSomeWrites s1 w).2, by simp [hc], ?_⟩
          rcases heff with h | ⟨d, h⟩
          · exact Or.inl (h.trans (processSomeWrites_quiet s1 w))
          · exact Or.inr ⟨d, h.then_quiet (processSomeWrites_quiet s1 w)⟩
        · exact ⟨true, s1, by simp [hc], heff⟩
    by_cases hrd : fdset.readyToRead s.mSock = true
    · obtain ⟨ok1, s1, hread, heff⟩ := processSomeReads_effect s r
      have hproc : process s fdset r w
          = if (!ok1) = true then some (false, s1)
            else if s1.mTxBuffer ≠ [] ∧ fdset.readyToWrite s1.mSock = true
              then some (processSomeWrites s1 w) else some (true, s1) := by
        simp only [process, hex', hrd, hread, Bool.false_eq_true, if_false, if_true,
          Option.some_bind]
        rw [process_write_step]
      rw [hproc]
      exact key ok1 s1 heff
    · have hrd' : fdset.readyToRead s.mSock = false := by simpa using hrd
      have hproc : process s fdset r w
          = if (!true) = true then some (false, s)
            else if s.mTxBuffer ≠ [] ∧ fdset.readyToWrite s.mSock = true
              then some (processSomeWrites s w) else some (true, s) := by
        simp only [process, hex', hrd', Bool.false_eq_true, if_false, Option.some_bind,
          Bool.not_true]
        rw [process_write_step]
      rw [hproc]
      exact key true s (Or.inl ⟨rfl, rfl, rfl, rfl⟩)

/-- Every call returns, and frames at most one message. -/
theorem step_effect (s : XmlRpcConnection) (op : ConnOp) :
    ∃ s1, step s op = some s1 ∧ (Quiet s s1 ∨ ∃ d, Frames s s1 d) := by
  cases op with
  | read r =>
    obtain ⟨ok, s1, h, heff⟩ := processSomeReads_effect s r
    exact ⟨s1, by simp [step, h], heff⟩
  | write w => exact ⟨_, rfl, Or.inl (processSomeWrites_quiet s w)⟩
  | respond requestId Y =>
    obtain ⟨ok, s1, h, hq⟩ := sendResponse_quiet s requestId Y
    exact ⟨s1, by simp [step, h], Or.inl hq⟩
  | poll fdset r w =>
    obtain ⟨ok, s1, h, heff⟩ := process_effect s fdset r w
    exact ⟨s1, by simp [step, h], heff⟩

theorem step_connectionId (s s1 : XmlRpcConnection) (op : ConnOp) (h : step s op = some s1) :
    s1.mConnectionId = s.mConnectionId := by
  obtain ⟨s2, h2, heff⟩ := step_effect s op
  rw [h2] at h
  cases h
  rcases heff with hq | ⟨d, hf⟩
  · exact hq.1
  · exact hf.1

end XmlRpcConnection

namespace XmlRpcConnection

theorem tableInvariant_fresh (connectionId sock : Nat) :
    TableInvariant (fresh connectionId sock) := by
  refine ⟨rfl, ?_⟩
  intro j
  simp only [fresh, construct, RequestMap.find, List.lookup]
  constructor
  · intro h; exact absurd rfl h
  · intro h; omega

/-- One call keeps the request table in order, as long as the next request id
does not wrap. -/
theorem step_inv (s s1 : XmlRpcConnection) (op : ConnOp) (hinv : TableInvariant s)
    (hstep : step s op = some s1) (hN : (handled s1.trace).length + 1 < UINT_RANGE) :
    TableInvariant s1 ∧ (handled s.trace).length ≤ (handled s1.trace).length ∧
      s1.mNextRequestId = s.mNextRequestId
        + ((handled s1.trace).length - (handled s.trace).length) ∧
      (∀ j R, s.mRequests.find j = some R → s1.mRequests.find j = some R) := by
  obtain ⟨s2, h2, heff⟩ := step_effect s op
  rw [h2] at hstep
  cases hstep
  obtain ⟨hnext, hkeys⟩ := hinv
  rcases heff with ⟨-, hreq, hn, hh⟩ | ⟨d, -, hreq, hn, hh⟩
  · refine ⟨⟨by rw [hn, hh]; exact hnext, ?_⟩, by rw [hh], by rw [hn, hh]; omega, ?_⟩
    · intro j; rw [hreq, hn]; exact hkeys j
    · intro j R hj; rw [hreq]; exact hj
  · have hlen : (handled s1.trace).length = (handled s.trace).length + 1 := by
      rw [hh]; simp
    have hmod : (s.mNextRequestId + 1) % UINT_RANGE = s.mNextRequestId + 1 :=
      Nat.mod_eq_of_lt (by omega)
    rw [hmod] at hn
    refine ⟨⟨by omega, ?_⟩, by omega, by omega, ?_⟩
    · intro j
      rw [hreq, RequestMap.find_assign, hn]
      by_cases hj : j = s.mNextRequestId
      · simp [hj]; omega
      · rw [if_neg hj, hkeys j]
        omega
    · intro j R hj
      have hjlt : j < s.mNextRequestId := ((hkeys j).mp (by rw [hj]; simp)).2
      rw [hreq, RequestMap.find_assign, if_neg (by omega)]
      exact hj

theorem run_total (ops : List ConnOp) : ∀ s : XmlRpcConnection, ∃ s1, run s ops = some s1 := by
  induction ops with
  | nil => intro s; exact ⟨s, rfl⟩
  | cons op ops ih =>
    intro s
    obtain ⟨s1, h1, -⟩ := step_effect s op
    obtain ⟨s2, h2⟩ := ih s1
    exact ⟨s2, by simp [run, h1, h2]⟩

theorem run_handled_le (ops : List ConnOp) :
    ∀ s s1 : XmlRpcConnection, run s ops = some s1 →
      (handled s.trace).length ≤ (handled s1.trace).length := by
  induction ops with
  | nil => intro s s1 h; simp only [run, Option.some.injEq] at h; rw [h]
  | cons op ops ih =>
    intro s s1 h
    obtain ⟨s2, h2, heff⟩ := step_effect s op
    simp only [run, h2, Option.some_bind] at h
    have := ih s2 s1 h
    rcases heff with hq | ⟨d, hf⟩
    · rw [← hq.2.2.2]; exact this
    · have hl : (handled s2.trace).length = (handled s.trace).length + 1 := by
        rw [hf.2.2.2]; simp
      omega

/-- Any sequence of calls keeps the request table in order, as long as the
next request id does not wrap. -/
theorem run_inv (ops : List ConnOp) :
    ∀ s s1 : XmlRpcConnection, TableInvariant s → run s ops = some s1 →
      (handled s1.trace).length + 1 < UINT_RANGE →
      TableInvariant s1 ∧
      s1.mNextRequestId = s.mNextRequestId
        + ((handled s1.trace).length - (handled s.trace).length) ∧
      (∀ j R, s.mRequests.find j = some R → s1.mRequests.find j = some R) := by
  induction ops with
  | nil =>
    intro s s1 hinv h _
    simp only [run, Option.some.injEq] at h
    subst h
    exact ⟨hinv, by simp, fun j R hj => hj⟩
  | cons op ops ih =>
    intro s s1 hinv h hN
    obtain ⟨s2, h2, -⟩ := step_effect s op
    simp only [run, h2, Option.some_bind] at h
    have hle := run_handled_le ops s2 s1 h
    obtain ⟨hinv2, hle2, hn2, hkeep2⟩ := step_inv s s2 op hinv h2 (by omega)
    obtain ⟨hinv1, hn1, hkeep1⟩ := ih s2 s1 hinv2 h hN
    exact ⟨hinv1, by omega, fun j R hj => hkeep1 j R (hkeep2 j R hj)⟩

theorem run_reads (cs : List Data) :
    ∀ s : XmlRpcConnection,
      run s (cs.map fun c => ConnOp.read (ReadResult.bytes c)) = feed s cs := by
  induction cs with
  | nil => intro s; rfl
  | cons c cs ih =>
    intro s
    simp only [List.map_cons, run, feed, step]
    cases processSomeReads s (ReadResult.bytes c) with
    | none => rfl
    | some p => simp [ih]

theorem delivers_replicate (m : Data × Data × Data) (hm : WellFormed m.1 m.2.1 m.2.2)
    (n : Nat) :
    List.Forall₂ Delivers (List.replicate n m) (List.replicate n [toMessage m]) := by
  induction n with
  | zero => exact List.Forall₂.nil
  | succ n ih =>
    rw [List.replicate_succ, List.replicate_succ]
    refine List.Forall₂.cons ⟨hm, ?_, by simp⟩ ih
    intro c hc
    rw [List.mem_singleton] at hc
    rw [hc]
    exact message_ne_nil _ _ _

theorem flatten_replicate_singleton (M : Data) (n : Nat) :
    (List.replicate n [M]).flatten = List.replicate n M := by
  induction n with
  | zero => rfl
  | succ n ih => rw [List.replicate_succ, List.replicate_succ, List.flatten_cons, ih]; rfl

/-- After one message fewer than `unsigned int` has values, the next request
id is back at 0 while request 1 is in the table. -/
theorem table_wrap (n : Nat) (hn : n + 1 = UINT_RANGE) :
    ∃ s, run (fresh 7 3)
        (List.replicate n (ConnOp.read (ReadResult.bytes (message [] "a".toList [])))) = some s ∧
      (handled s.trace).length = n ∧ s.mNextRequestId = 0 ∧ s.mRequests.find 1 ≠ none := by
  have hR : 0 < UINT_RANGE := by simp [UINT_RANGE]
  obtain ⟨s, hfeed, -, -, hnext, hids, -, hfind, -⟩ :=
    feed_deliveries _ _ (delivers_replicate ([], "a".toList, []) (by decide) n) (fresh 7 3) rfl
      (by simp [fresh, construct, UINT_RANGE])
      (by simp only [fresh, construct, List.length_replicate]; omega)
  refine ⟨s, ?_, ?_, ?_, ?_⟩
  · rw [← hfeed, flatten_replicate_singleton, ← run_reads, List.map_replicate]
    rfl
  · have := congrArg List.length hids
    simpa [handledIds, fresh, construct, handled] using this
  · rw [hnext]
    simp only [fresh, construct, List.length_replicate]
    rw [Nat.add_comm, hn, Nat.mod_self]
  · have hnpos : 0 < n := by
      simp only [UINT_RANGE] at hn
      omega
    have h0 := hfind 0 (by rw [List.length_replicate]; exact hnpos)
    simp only [fresh, construct, Nat.add_zero] at h0
    rw [h0]
    simp

end XmlRpcConnection

namespace ServerProcess

theorem counted_start : Counted start 0 := by
  refine ⟨rfl, ?_, ?_⟩
  · simp [start, UINT_RANGE]
  · simp [liveIds, start]

theorem liveIds_set (live : List XmlRpcConnection) (i : Nat) (c c1 : XmlRpcConnection)
    (hc : live[i]? = some c) (hid : c1.mConnectionId = c.mConnectionId) :
    (live.set i c1).map (fun c => c.mConnectionId) = live.map fun c => c.mConnectionId := by
  induction live generalizing i with
  | nil => simp
  | cons d ds ih =>
    cases i with
    | zero =>
      simp only [List.getElem?_cons_zero, Option.some.injEq] at hc
      simp [hid, hc]
    | succ i =>
      simp only [List.getElem?_cons_succ] at hc
      simp [ih i hc]

/-- One step of the process keeps the count of the ids, as long as the counter
has not run through the range of `unsigned int`. -/
theorem step_counted (p : ServerProcess) (n : Nat) (op : ProcessOp) (h : Counted p n)
    (hn : n + constructions [op] < UINT_RANGE) :
    Counted (step p op) (n + constructions [op]) := by
  obtain ⟨hcreated, hnext, hsub⟩ := h
  cases op with
  | construct sock =>
    simp only [constructions] at hn ⊢
    have hid : p.NextConnectionId = n + 1 := by
      rw [hnext, Nat.mod_eq_of_lt (by omega)]
    refine ⟨?_, ?_, ?_⟩
    · simp only [step, XmlRpcConnection.construct, hcreated, hid]
      rw [List.range'_concat]
      simp [Nat.add_comm]
    · simp only [step, XmlRpcConnection.construct, hid]
    · simp only [step, XmlRpcConnection.construct, liveIds, List.map_append, List.map_cons,
        List.map_nil]
      exact List.Sublist.append hsub (List.Sublist.refl _)
  | destruct i =>
    refine ⟨hcreated, hnext, ?_⟩
    simp only [step, liveIds]
    exact ((List.eraseIdx_sublist p.live i).map _).trans hsub
  | call i op =>
    simp only [constructions, Nat.add_zero]
    simp only [step]
    cases hc : p.live[i]? with
    | none => exact ⟨hcreated, hnext, hsub⟩
    | some c =>
      simp only
      cases hs : XmlRpcConnection.step c op with
      | none => exact ⟨hcreated, hnext, hsub⟩
      | some c1 =>
        refine ⟨hcreated, hnext, ?_⟩
        simp only [liveIds]
        rw [liveIds_set p.live i c c1 hc (XmlRpcConnection.step_connectionId c c1 op hs)]
        exact hsub

theorem constructions_cons (op : ProcessOp) (ops : List ProcessOp) :
    constructions (op :: ops) = constructions [op] + constructions ops := by
  cases op <;> simp [constructions]
  omega

theorem run_counted (ops : List ProcessOp) :
    ∀ (p : ServerProcess) (n : Nat), Counted p n → n + constructions ops < UINT_RANGE →
      Counted (run p ops) (n + constructions ops) := by
  induction ops with
  | nil => intro p n h _; simpa [run, constructions] using h
  | cons op ops ih =>
    intro p n h hn
    rw [constructions_cons] at hn ⊢
    have h1 := step_counted p n op h (by omega)
    have h2 := ih (step p op) (n + constructions [op]) h1 (by omega)
    simpa [run, Nat.add_assoc] using h2

end ServerProcess

namespace ResipClock

/-- The multiplier of a non-negative random value lies in `[5000, 8999]`. -/
theorem multiplier_range (random : Int) (hr : 0 ≤ random) :
    5000 ≤ multiplier random ∧ multiplier random ≤ 8999 := by
  have h1 := Int.tmod_nonneg (4000 : Int) hr
  have h2 := Int.tmod_lt_of_pos random (by norm_num : (0 : Int) < 4000)
  simp only [multiplier]
  constructor <;> omega

/-- A delay scaled by a multiplier in `[5000, 8999]` lies between half the
delay and the delay. -/
theorem scaled_bounds (futureMs rn : Nat) (hlo : 5000 ≤ rn) (hhi : rn ≤ 8999) :
    futureMs / 2 ≤ futureMs * rn / 10000 ∧ futureMs * rn / 10000 ≤ futureMs := by
  constructor
  · rw [Nat.le_div_iff_mul_le (by norm_num)]
    have h1 : futureMs / 2 * 2 ≤ futureMs := Nat.div_mul_le_self futureMs 2
    calc futureMs / 2 * 10000 = futureMs / 2 * 2 * 5000 := by ring
      _ ≤ futureMs * 5000 := Nat.mul_le_mul_right _ h1
      _ ≤ futureMs * rn := Nat.mul_le_mul_left _ hlo
  · apply Nat.div_le_of_le_mul
    calc futureMs * rn ≤ futureMs * 10000 := Nat.mul_le_mul_left _ (by omega)
      _ = 10000 * futureMs := by ring

/-- Without overflow the function returns `now` plus the scaled delay, and
all three `assert`s hold. -/
theorem getRandomFutureTimeMs_eq (now futureMs : Nat) (random : Int) (hr : 0 ≤ random)
    (hmul : futureMs * 8999 < UINT64_RANGE) (hadd : now + futureMs < UINT64_RANGE) :
    getRandomFutureTimeMs now random futureMs
      = some (now + futureMs * (multiplier random).toNat / 10000) := by
  obtain ⟨hlo, hhi⟩ := multiplier_range random hr
  have hR : (UINT64_RANGE : Int) = 18446744073709551616 := by norm_num [UINT64_RANGE]
  obtain ⟨rn, hrn⟩ : ∃ rn : Nat, multiplier random = (rn : Int) :=
    ⟨(multiplier random).toNat, (Int.toNat_of_nonneg (by omega)).symm⟩
  have hlo' : 5000 ≤ rn := by omega
  have hhi' : rn ≤ 8999 := by omega
  have hconv : ((rn : Int) % (UINT64_RANGE : Int)).toNat = rn := by
    rw [Int.emod_eq_of_lt (by omega) (by rw [hR]; omega)]
    simp
  have hprod : futureMs * rn < UINT64_RANGE :=
    Nat.lt_of_le_of_lt (Nat.mul_le_mul_left _ hhi') hmul
  obtain ⟨hb1, hb2⟩ := scaled_bounds futureMs rn hlo' hhi'
  have hhalf : futureMs / 2 ≤ futureMs := Nat.div_le_self _ _
  unfold getRandomFutureTimeMs
  simp only [hrn, hconv, Int.toNat_ofNat, Nat.mod_eq_of_lt hprod]
  rw [Nat.mod_eq_of_lt (by omega : now + futureMs * rn / 10000 < UINT64_RANGE),
    Nat.mod_eq_of_lt (by omega : now + futureMs / 2 < UINT64_RANGE), Nat.mod_eq_of_lt hadd]
  rw [if_pos ⟨by omega, by omega, by omega⟩]

namespace WinMonoClock
namespace GTCLock

/-- One call of `GTC64`, when the sum does not overflow `UInt64`. -/
theorem GTC64_step (b t : Nat) (ht : t < DWORD_RANGE) (hov : b + DWORD_RANGE ≤ UINT64_RANGE) :
    GTC64 b t = b + (t + DWORD_RANGE - b % DWORD_RANGE) % DWORD_RANGE ∧
    GTC64 b t % DWORD_RANGE = t ∧ b ≤ GTC64 b t ∧ GTC64 b t < b + DWORD_RANGE := by
  have hD : 0 < DWORD_RANGE := by simp [DWORD_RANGE]
  have hlow : b % DWORD_RANGE < DWORD_RANGE := Nat.mod_lt _ hD
  have hd : (t + DWORD_RANGE - b % DWORD_RANGE) % DWORD_RANGE < DWORD_RANGE := Nat.mod_lt _ hD
  have heq : GTC64 b t = b + (t + DWORD_RANGE - b % DWORD_RANGE) % DWORD_RANGE := by
    unfold GTC64
    by_cases h : t = b % DWORD_RANGE
    · simp only [h, ne_eq, not_true_eq_false, if_false]
      rw [Nat.add_sub_cancel_left, Nat.mod_self, Nat.add_zero]
    · simp only [ne_eq, h, not_false_eq_true, if_true]
      exact Nat.mod_eq_of_lt (by omega)
  refine ⟨heq, ?_, by omega, by omega⟩
  rw [heq]
  have hb := Nat.div_add_mod b DWORD_RANGE
  rcases Nat.lt_or_ge t (b % DWORD_RANGE) with hlt | hge
  · have h1 : (t + DWORD_RANGE - b % DWORD_RANGE) % DWORD_RANGE
        = t + DWORD_RANGE - b % DWORD_RANGE := Nat.mod_eq_of_lt (by omega)
    rw [h1]
    have h2 : b + (t + DWORD_RANGE - b % DWORD_RANGE)
        = t + DWORD_RANGE * (b / DWORD_RANGE + 1) := by
      rw [Nat.mul_add, Nat.mul_one]; omega
    rw [h2, Nat.add_mul_mod_self_left, Nat.mod_eq_of_lt ht]
  · have h1 : (t + DWORD_RANGE - b % DWORD_RANGE) % DWORD_RANGE = t - b % DWORD_RANGE := by
      have : t + DWORD_RANGE - b % DWORD_RANGE = (t - b % DWORD_RANGE) + DWORD_RANGE := by omega
      rw [this, Nat.add_mod_right, Nat.mod_eq_of_lt (by omega)]
    rw [h1]
    have h2 : b + (t - b % DWORD_RANGE) = t + DWORD_RANGE * (b / DWORD_RANGE) := by omega
    rw [h2, Nat.add_mul_mod_self_left, Nat.mod_eq_of_lt ht]

/-- The values returned by successive calls do not decrease, as long as the
sums do not overflow `UInt64`. -/
theorem clock_chain (ticks : List Nat) :
    ∀ b, (∀ t ∈ ticks, t < DWORD_RANGE) → b + DWORD_RANGE * ticks.length ≤ UINT64_RANGE →
      List.Chain (fun x y => x ≤ y) b (clock b ticks) := by
  induction ticks with
  | nil => intro b _ _; exact List.Chain.nil
  | cons t ticks ih =>
    intro b ht hov
    have hlen : DWORD_RANGE * (t :: ticks).length
        = DWORD_RANGE + DWORD_RANGE * ticks.length := by
      rw [List.length_cons, Nat.mul_add, Nat.mul_one, Nat.add_comm]
    rw [hlen] at hov
    obtain ⟨-, -, hle, hlt⟩ := GTC64_step b t (ht t (List.mem_cons_self _ _)) (by omega)
    refine List.Chain.cons hle (ih _ (fun u hu => ht u (List.mem_cons_of_mem _ hu)) (by omega))

end GTCLock
end WinMonoClock
end ResipClock

namespace DumFeatureChain

/-- One turn of the loop at a feature whose flag is false. -/
theorem processLoop_inactive (codes : ResultCodes) (respond : Nat → DumFeature.ProcessingResult)
    (pos : Nat) (feat : DumFeature) (features : List DumFeature) (active : List Bool)
    (pres : Nat) :
    (processLoop codes respond pos (feat :: features) (false :: active) pres).active
      = false :: (if features.isEmpty = false
          then (processLoop codes respond (pos + 1) features active pres).active
          else active) ∧
    (processLoop codes respond pos (feat :: features) (false :: active) pres).invoked
      = (if features.isEmpty = false
          then (processLoop codes respond (pos + 1) features active pres).invoked
          else []) := by
  by_cases hend : features.isEmpty = true <;> simp [processLoop, hend]

/-- One turn of the loop at a feature whose flag is true. -/
theorem processLoop_active (codes : ResultCodes) (respond : Nat → DumFeature.ProcessingResult)
    (pos : Nat) (feat : DumFeature) (features : List DumFeature) (active : List Bool)
    (pres : Nat) :
    (processLoop codes respond pos (feat :: features) (true :: active) pres).active
      = (switchResult (feat.process respond pos)).1 ::
        (if (switchResult (feat.process respond pos)).2 = false ∧ features.isEmpty = false
          then (processLoop codes respond (pos + 1) features active
            (adjustResult codes (codes.value (feat.process respond pos)))).active
          else active) ∧
    (processLoop codes respond pos (feat :: features) (true :: active) pres).invoked
      = pos ::
        (if (switchResult (feat.process respond pos)).2 = false ∧ features.isEmpty = false
          then (processLoop codes respond (pos + 1) features active
            (adjustResult codes (codes.value (feat.process respond pos)))).invoked
          else []) := by
  by_cases hstop : (switchResult (feat.process respond pos)).2 = true <;>
    by_cases hend : features.isEmpty = true <;> simp [processLoop, hstop, hend]

/-- The loop of `process` keeps the number of flags, leaves a false flag false,
invokes increasing positions whose flag was true, and clears the flag of an
invoked feature whose result calls for it. -/
theorem processLoop_facts (codes : ResultCodes) (respond : Nat → DumFeature.ProcessingResult) :
    ∀ (features : List DumFeature) (pos : Nat) (active : List Bool) (pres : Nat),
      (processLoop codes respond pos features active pres).active.length = active.length ∧
      (∀ j : Nat, active[j]? = some false →
        (processLoop codes respond pos features active pres).active[j]? = some false) ∧
      List.Pairwise (fun x y => x < y)
        (processLoop codes respond pos features active pres).invoked ∧
      (∀ p ∈ (processLoop codes respond pos features active pres).invoked,
        pos ≤ p ∧ active[p - pos]? = some true) ∧
      (∀ (j : Nat) (f : DumFeature), features[j]? = some f →
        pos + j ∈ (processLoop codes respond pos features active pres).invoked →
        deactivates (f.process respond (pos + j)) = true →
        (processLoop codes respond pos features active pres).active[j]? = some false) := by
  intro features
  induction features with
  | nil =>
    intro pos active pres
    cases active <;>
      exact ⟨rfl, fun j h => h, List.Pairwise.nil, fun p hp => absurd hp (List.not_mem_nil p),
        fun j f hf => by simp at hf⟩
  | cons feat features ih =>
    intro pos active pres
    cases active with
    | nil =>
      exact ⟨rfl, fun j h => h, List.Pairwise.nil, fun p hp => absurd hp (List.not_mem_nil p),
        fun j f _ hp => absurd hp (List.not_mem_nil _)⟩
    | cons a active =>
      -- the facts for the flags and the calls behind the current position
      have tail : ∀ (cont : Prop) [Decidable cont] (pres1 : Nat),
          (if cont then (processLoop codes respond (pos + 1) features active pres1).active
            else active).length = active.length ∧
          (∀ j : Nat, active[j]? = some false →
            (if cont then (processLoop codes respond (pos + 1) features active pres1).active
              else active)[j]? = some false) ∧
          List.Pairwise (fun x y => x < y)
            (if cont then (processLoop codes respond (pos + 1) features active pres1).invoked
              else []) ∧
          (∀ p ∈ (if cont then (processLoop codes respond (pos + 1) features active pres1).invoked
              else []), pos + 1 ≤ p ∧ active[p - (pos + 1)]? = some true) ∧
          (∀ (j : Nat) (f : DumFeature), features[j]? = some f →
            pos + 1 + j ∈ (if cont
              then (processLoop codes respond (pos + 1) features active pres1).invoked
              else []) →
            deactivates (f.process respond (pos + 1 + j)) = true →
            (if cont then (processLoop codes respond (pos + 1) features active pres1).active
              else active)[j]? = some false) := by
        intro cont _ pres1
        by_cases hc : cont
        · simp only [hc, if_true]
          exact ih (pos + 1) active pres1
        · simp only [hc, if_false]
          exact ⟨trivial, fun j h => h, List.Pairwise.nil,
            fun p hp => absurd hp (List.not_mem_nil p),
            fun j f _ hp => absurd hp (List.not_mem_nil _)⟩
      have shift : ∀ j : Nat, pos + (j + 1) = pos + 1 + j := fun j => by omega
      cases a with
      | false =>
        obtain ⟨ha, hi⟩ := processLoop_inactive codes respond pos feat features active pres
        obtain ⟨h1, h2, h3, h4, h5⟩ := tail (features.isEmpty = false) pres
        rw [ha, hi]
        refine ⟨by rw [List.length_cons, h1, List.length_cons], ?_, h3, ?_, ?_⟩
        · intro j hj
          cases j with
          | zero => simp
          | succ j => simpa using h2 j (by simpa using hj)
        · intro p hp
          obtain ⟨hp1, hp2⟩ := h4 p hp
          refine ⟨by omega, ?_⟩
          have : p - pos = (p - (pos + 1)) + 1 := by omega
          rw [this]
          simpa using hp2
        · intro j f hf hp hd
          cases j with
          | zero =>
            exfalso
            have := (h4 pos (by simpa using hp)).1
            omega
          | succ j =>
            rw [shift j] at hp hd
            simpa using h5 j f (by simpa using hf) hp hd
      | true =>
        obtain ⟨ha, hi⟩ := processLoop_active codes respond pos feat features active pres
        obtain ⟨h1, h2, h3, h4, h5⟩ :=
          tail ((switchResult (feat.process respond pos)).2 = false ∧ features.isEmpty = false)
            (adjustResult codes (codes.value (feat.process respond pos)))
        rw [ha, hi]
        refine ⟨by rw [List.length_cons, h1, List.length_cons], ?_, ?_, ?_, ?_⟩
        · intro j hj
          cases j with
          | zero => simp at hj
          | succ j => simpa using h2 j (by simpa using hj)
        · rw [List.pairwise_cons]
          exact ⟨fun p hp => by have := (h4 p hp).1; omega, h3⟩
        · intro p hp
          rcases List.mem_cons.mp hp with rfl | hp
          · simp
          · obtain ⟨hp1, hp2⟩ := h4 p hp
            refine ⟨by omega, ?_⟩
            have : p - pos = (p - (pos + 1)) + 1 := by omega
            rw [this]
            simpa using hp2
        · intro j f hf hp hd
          cases j with
          | zero =>
            simp only [List.getElem?_cons_zero, Option.some.injEq] at hf
            subst hf
            simp only [deactivates, Nat.add_zero] at hd
            simpa using hd
          | succ j =>
            rw [shift j] at hp hd
            rcases List.mem_cons.mp hp with h | h
            · omega
            · simpa using h5 j f (by simpa using hf) h hd

end DumFeatureChain

namespace DumFeatureChain

/-- The results that clear the flag of a feature are `FeatureDone` and its
four combinations. -/
theorem deactivates_iff (res : DumFeature.ProcessingResult) :
    deactivates res = true ↔
      res = DumFeature.ProcessingResult.FeatureDone ∨
      res = DumFeature.ProcessingResult.FeatureDoneAndEventDone ∨
      res = DumFeature.ProcessingResult.FeatureDoneAndEventTaken ∨
      res = DumFeature.ProcessingResult.ChainDoneAndEventTaken ∨
      res = DumFeature.ProcessingResult.ChainDoneAndEventDone := by
  cases res <;> simp [deactivates, switchResult]

/-- One call of `process`: the features stay, the number of flags stays, the
positions invoked increase and had a true flag, a false flag stays false, and
an invoked feature whose result clears the flag has a false flag afterwards. -/
theorem process_flags (codes : ResultCodes) (respond : Nat → DumFeature.ProcessingResult)
    (c : DumFeatureChain) :
    (process codes respond c).chain.mFeatures = c.mFeatures ∧
    (process codes respond c).chain.mActiveFeatures.length = c.mActiveFeatures.length ∧
    List.Pairwise (fun x y => x < y) (process codes respond c).invoked ∧
    (∀ p ∈ (process codes respond c).invoked, c.mActiveFeatures[p]? = some true) ∧
    (∀ j : Nat, c.mActiveFeatures[j]? = some false →
      (process codes respond c).chain.mActiveFeatures[j]? = some false) ∧
    (∀ (j : Nat) (f : DumFeature), c.mFeatures[j]? = some f →
      j ∈ (process codes respond c).invoked →
      deactivates (f.process respond j) = true →
      (process codes respond c).chain.mActiveFeatures[j]? = some false) := by
  have h := processLoop_facts codes respond c.mFeatures 0 c.mActiveFeatures
    (codes.value DumFeature.ProcessingResult.FeatureDone)
  obtain ⟨h1, h2, h3, h4, h5⟩ := h
  refine ⟨rfl, h1, h3, ?_, h2, ?_⟩
  · intro p hp
    simpa using (h4 p hp).2
  · intro j f hf hj hd
    have := h5 j f hf (by simpa using hj) (by simpa using hd)
    exact this

/-- Successive calls of `process` keep the features and the number of flags,
and leave a false flag false. -/
theorem after_flags (codes : ResultCodes) :
    ∀ (responds : List (Nat → DumFeature.ProcessingResult)) (c : DumFeatureChain),
      (after codes c responds).mFeatures = c.mFeatures ∧
      (after codes c responds).mActiveFeatures.length = c.mActiveFeatures.length ∧
      (∀ j : Nat, c.mActiveFeatures[j]? = some false →
        (after codes c responds).mActiveFeatures[j]? = some false) := by
  intro responds
  induction responds with
  | nil => intro c; exact ⟨rfl, rfl, fun j h => h⟩
  | cons respond responds ih =>
    intro c
    obtain ⟨h1, h2, -, -, h5, -⟩ := process_flags codes respond c
    obtain ⟨i1, i2, i3⟩ := ih (process codes respond c).chain
    exact ⟨i1.trans h1, i2.trans h2, fun j hj => i3 j (h5 j hj)⟩

/-- A feature whose flag is false is invoked by none of the following calls. -/
theorem invokedBy_inactive (codes : ResultCodes) :
    ∀ (responds : List (Nat → DumFeature.ProcessingResult)) (c : DumFeatureChain) (j : Nat),
      c.mActiveFeatures[j]? = some false →
      ∀ inv ∈ invokedBy codes c responds, j ∉ inv := by
  intro responds
  induction responds with
  | nil => intro c j _ inv hinv; simp [invokedBy] at hinv
  | cons respond responds ih =>
    intro c j hj inv hinv
    obtain ⟨-, -, -, h4, h5, -⟩ := process_flags codes respond c
    simp only [invokedBy, List.mem_cons] at hinv
    rcases hinv with rfl | hinv
    · intro hmem
      have := h4 j hmem
      rw [hj] at this
      cases this
    · exact ih (process codes respond c).chain j (h5 j hj) inv hinv

end DumFeatureChain

namespace ResipClock
namespace WinMonoClock
namespace GTCLock

/-- The low 32 bits of the value returned are the tick count read, also when
the 64-bit sum wraps. -/
theorem GTC64_low (b t : Nat) (ht : t < DWORD_RANGE) : GTC64 b t % DWORD_RANGE = t := by
  have hdvd : DWORD_RANGE ∣ UINT64_RANGE := ⟨2 ^ 32, by norm_num [DWORD_RANGE, UINT64_RANGE]⟩
  unfold GTC64
  by_cases h : t = b % DWORD_RANGE
  · simp only [h, ne_eq, not_true_eq_false, if_false]
  · simp only [ne_eq, h, not_false_eq_true, if_true]
    rw [Nat.mod_mod_of_dvd _ hdvd]
    simp only [DWORD_RANGE] at ht h ⊢
    omega

/-- The increment written with the integers: `(t - low32(b)) mod 2^32`. -/
theorem increment_eq (b t : Nat) (ht : t < DWORD_RANGE) :
    (((t + DWORD_RANGE - b % DWORD_RANGE) % DWORD_RANGE : Nat) : Int)
      = ((t : Int) - ((b % DWORD_RANGE : Nat) : Int)) % (DWORD_RANGE : Int) := by
  simp only [DWORD_RANGE] at ht ⊢
  omega

end GTCLock
end WinMonoClock
end ResipClock

/-! ## The claims -/

namespace XmlRpcConnection

/-- C1. Framing under fragmentation: on a fresh connection, a well-formed
message split in any way into non-empty chunks, one successful read per chunk,
is handed to `handleRequest` exactly once, after the last chunk has been read,
with request id 1 and exactly the bytes of the message; the receive buffer
ends empty; and no proper initial run of the chunks hands anything over. -/
theorem framing_under_fragmentation (connectionId sock : Nat) (w tag body : Data)
    (chunks : List Data) (hwf : WellFormed w tag body) (hne : ∀ c ∈ chunks, c ≠ [])
    (hsplit : chunks.flatten = message w tag body) :
    feed (fresh connectionId sock) chunks = some { fresh connectionId sock with
        mNextRequestId := 2
        mRequests := [(1, message w tag body)]
        mRxBuffer := []
        trace := readEvents chunks ++ [Event.handleRequest connectionId 1 (message w tag body)] }
    ∧ handled (readEvents chunks ++ [Event.handleRequest connectionId 1 (message w tag body)])
        = [(connectionId, 1, message w tag body)]
    ∧ ∀ k, k < chunks.length → ∃ s, feed (fresh connectionId sock) (chunks.take k) = some s ∧
        handled s.trace = [] ∧ s.mRequests = [] ∧ s.mNextRequestId = 1 := by
  have hchunks : chunks ≠ [] := by
    rintro rfl
    simp [message] at hsplit
  refine ⟨?_, ?_, ?_⟩
  · have h := feed_message w tag body hwf chunks (fresh connectionId sock) hchunks hne
      (by simpa [fresh, construct] using hsplit)
    rw [h]
    simp [fresh, construct, RequestMap.assign, UINT_RANGE]
  · simp [handled_append, handled_readEvents, handled]
  · intro k hk
    have hdrop : chunks.drop k ≠ [] := by
      intro h
      have := congrArg List.length h
      simp at this
      omega
    have hD : (chunks.drop k).flatten ≠ [] :=
      flatten_ne_nil_of_ne_nil _ hdrop (fun c hc => hne c (List.mem_of_mem_drop hc))
    have h := feed_partial w tag body hwf (chunks.drop k).flatten hD (chunks.take k)
      (fresh connectionId sock) (fun c hc => hne c (List.mem_of_mem_take hc))
      (by
        have : (chunks.take k).flatten ++ (chunks.drop k).flatten = chunks.flatten := by
          rw [← List.flatten_append, List.take_append_drop]
        simpa [fresh, construct, this] using hsplit)
    refine ⟨_, h, ?_, ?_, ?_⟩
    · simp [fresh, construct, handled_readEvents]
    · simp [fresh, construct]
    · simp [fresh, construct]

/-- C1 at the message ` <a>hi</a>` read as ` <a`, `>hi</`, `a>`. -/
theorem framing_under_fragmentation_witness :
    WellFormed " ".toList "a".toList "hi".toList ∧
    (feed (fresh 7 3) [" <a".toList, ">hi</".toList, "a>".toList] = some { fresh 7 3 with
        mNextRequestId := 2
        mRequests := [(1, " <a>hi</a>".toList)]
        mRxBuffer := []
        trace := readEvents [" <a".toList, ">hi</".toList, "a>".toList] ++
          [Event.handleRequest 7 1 " <a>hi</a>".toList] }) :=
  ⟨by decide,
   (framing_under_fragmentation 7 3 " ".toList "a".toList "hi".toList
      [" <a".toList, ">hi</".toList, "a>".toList] (by decide) (by decide) (by decide)).1⟩

/-- C2. Batched-message deferral: one successful read delivering two
well-formed messages `M1 ++ M2` to a fresh connection hands over `M1` only,
with request id 1; afterwards the next request id is 2 and the receive buffer
holds `M2` less its leading whitespace, not handed over. Every later successful
read hands it over with request id 2; a failed read, a write event and
`sendResponse` hand nothing over. -/
theorem batched_message_deferral (connectionId sock : Nat) (w1 tag1 body1 w2 tag2 body2 : Data)
    (hwf1 : WellFormed w1 tag1 body1) (hwf2 : WellFormed w2 tag2 body2) :
    ∃ s1, processSomeReads (fresh connectionId sock)
        (ReadResult.bytes (message w1 tag1 body1 ++ message w2 tag2 body2)) = some (true, s1) ∧
      handled s1.trace = [(connectionId, 1, message w1 tag1 body1)] ∧
      s1.mNextRequestId = 2 ∧
      s1.mRequests = [(1, message w1 tag1 body1)] ∧
      s1.mRxBuffer = message [] tag2 body2 ∧
      w2 ++ s1.mRxBuffer = message w2 tag2 body2 ∧
      (∀ c, c ≠ [] → ∃ s2, processSomeReads s1 (ReadResult.bytes c) = some (true, s2) ∧
        handled s2.trace = [(connectionId, 1, message w1 tag1 body1),
                            (connectionId, 2, message [] tag2 body2)]) ∧
      (∀ r, r = ReadResult.error ∨ r = ReadResult.bytes [] →
        ∃ s2, processSomeReads s1 r = some (false, s2) ∧ handled s2.trace = handled s1.trace) ∧
      (∀ wr, handled (processSomeWrites s1 wr).2.trace = handled s1.trace) ∧
      (∀ requestId responseData, ∃ p, sendResponse s1 requestId responseData = some p ∧
        handled p.2.trace = handled s1.trace) := by
  have hne : message w1 tag1 body1 ++ message w2 tag2 body2 ≠ [] := by simp [message]
  have hstrip : (message w2 tag2 body2).dropWhile isWhitespace = message [] tag2 body2 := by
    have := dropWhile_whitespace_append w2 (message [] tag2 body2) hwf2.1
      (by simp [message, whitespaceRun, isWhitespace])
    simpa [message] using this
  have h1 := processSomeReads_frame (fresh connectionId sock) w1 tag1 body1
    (message w2 tag2 body2) (message w1 tag1 body1 ++ message w2 tag2 body2) hwf1 hne
    (by simp [fresh, construct])
  refine ⟨{ mConnectionId := connectionId, mNextRequestId := 2, mSock := sock,
             mRxBuffer := message [] tag2 body2, mTxBuffer := [],
             mRequests := [(1, message w1 tag1 body1)],
             trace := [Event.read (ReadResult.bytes (message w1 tag1 body1 ++ message w2 tag2 body2)),
               Event.handleRequest connectionId 1 (message w1 tag1 body1)] },
    ?_, ?_, ?_, ?_, ?_, ?_, ?_, ?_, ?_, ?_⟩
  · rw [h1]
    simp [fresh, construct, hstrip, RequestMap.assign, UINT_RANGE]
  · simp [handled]
  · simp
  · simp
  · simp
  · simp [message]
  · intro c hc
    have h2 := processSomeReads_frame
      { mConnectionId := connectionId
        mNextRequestId := 2
        mSock := sock
        mRxBuffer := message [] tag2 body2
        mTxBuffer := []
        mRequests := [(1, message w1 tag1 body1)]
        trace := [Event.read (ReadResult.bytes (message w1 tag1 body1 ++ message w2 tag2 body2)),
          Event.handleRequest connectionId 1 (message w1 tag1 body1)] }
      [] tag2 body2 c c (wellFormed_strip hwf2) hc rfl
    exact ⟨_, h2, by simp [handled, handled_append]⟩
  · intro r hr
    exact ⟨_, processSomeReads_close _ r hr, by simp [handled_append, handled]⟩
  · intro wr
    exact processSomeWrites_handled _ wr
  · intro requestId responseData
    obtain ⟨ok, E, hE, -⟩ := sendResponse_total
      { mConnectionId := connectionId
        mNextRequestId := 2
        mSock := sock
        mRxBuffer := message [] tag2 body2
        mTxBuffer := []
        mRequests := [(1, message w1 tag1 body1)]
        trace := [Event.read (ReadResult.bytes (message w1 tag1 body1 ++ message w2 tag2 body2)),
          Event.handleRequest connectionId 1 (message w1 tag1 body1)] } requestId responseData
    exact ⟨_, hE, rfl⟩

/-- C2 at the read `<a>x</a> <b>y</b>`. -/
theorem batched_message_deferral_witness :
    ∃ s1, processSomeReads (fresh 7 3)
        (ReadResult.bytes (message [] "a".toList "x".toList ++
          message " ".toList "b".toList "y".toList)) = some (true, s1) ∧
      handled s1.trace = [(7, 1, message [] "a".toList "x".toList)] ∧
      s1.mNextRequestId = 2 ∧
      s1.mRequests = [(1, message [] "a".toList "x".toList)] ∧
      s1.mRxBuffer = message [] "b".toList "y".toList ∧
      " ".toList ++ s1.mRxBuffer = message " ".toList "b".toList "y".toList ∧
      (∀ c, c ≠ [] → ∃ s2, processSomeReads s1 (ReadResult.bytes c) = some (true, s2) ∧
        handled s2.trace = [(7, 1, message [] "a".toList "x".toList),
                            (7, 2, message [] "b".toList "y".toList)]) ∧
      (∀ r, r = ReadResult.error ∨ r = ReadResult.bytes [] →
        ∃ s2, processSomeReads s1 r = some (false, s2) ∧ handled s2.trace = handled s1.trace) ∧
      (∀ wr, handled (processSomeWrites s1 wr).2.trace = handled s1.trace) ∧
      (∀ requestId responseData, ∃ p, sendResponse s1 requestId responseData = some p ∧
        handled p.2.trace = handled s1.trace) :=
  batched_message_deferral 7 3 [] "a".toList "x".toList " ".toList "b".toList "y".toList
    (by decide) (by decide)

/-- C3 (amended). Request id monotonicity: for every `N` below `2 ^ 32` and
every sequence of `N` well-formed messages whose bytes reach a fresh connection
in any sequence of non-empty reads, the request ids passed to `handleRequest`
are exactly 1, 2, ..., `K` in delivery order, where `K ≤ N` is the number of
messages framed: each read frames the next message if and only if all the bytes
of that message have arrived, and never more than one, so `K` is at most the
number of reads. The `k`-th framed message is the `k`-th message less leading
whitespace (the first message whole) and is the value stored at `requests[k]`.
When each message is delivered in one or more reads of its own, `K = N`, the
ids are 1, 2, ..., `N` and the framed messages are the messages. -/
theorem request_ids_consecutive (connectionId sock : Nat) (msgs : List (Data × Data × Data))
    (chunks : List Data) (hwf : ∀ m ∈ msgs, WellFormed m.1 m.2.1 m.2.2)
    (hne : ∀ c ∈ chunks, c ≠ []) (hflat : chunks.flatten = (msgs.map toMessage).flatten)
    (hN : msgs.length < UINT_RANGE) :
    ∃ s, feed (fresh connectionId sock) chunks = some s ∧
      framedCount (msgs.map toMessage) 0 chunks ≤ msgs.length ∧
      framedCount (msgs.map toMessage) 0 chunks ≤ chunks.length ∧
      handledIds s.trace = List.range' 1 (framedCount (msgs.map toMessage) 0 chunks) ∧
      (handledPayloads s.trace).length = framedCount (msgs.map toMessage) 0 chunks ∧
      (∀ k, k < framedCount (msgs.map toMessage) 0 chunks →
        s.mRequests.find (k + 1) = (handledPayloads s.trace)[k]? ∧
        ∃ m n, msgs[k]? = some m ∧ n ≤ m.1.length ∧ (k = 0 → n = 0) ∧
          (handledPayloads s.trace)[k]? = some (message (m.1.drop n) m.2.1 m.2.2)) ∧
      (∀ deliveries, List.Forall₂ Delivers msgs deliveries → chunks = deliveries.flatten →
        framedCount (msgs.map toMessage) 0 chunks = msgs.length ∧
        handledIds s.trace = List.range' 1 msgs.length ∧
        handledPayloads s.trace = msgs.map toMessage ∧
        ∀ k (hk : k < msgs.length), s.mRequests.find (k + 1) = some (toMessage msgs[k])) := by
  obtain ⟨s, P, hfeed, hP, hids, hpay, hk, -⟩ :=
    feed_stream chunks msgs (fresh connectionId sock) [] [] hwf hne (by simp)
      (by simpa [fresh, construct] using hflat)
      (by simp only [fresh, construct]; omega)
  have hP0 : P.length = framedCount (msgs.map toMessage) 0 chunks := by
    simpa [fresh, construct] using hP
  have hids0 : handledIds s.trace = List.range' 1 P.length := by
    simpa [fresh, construct, handledIds, handled] using hids
  have hpay0 : handledPayloads s.trace = P := by
    simpa [fresh, construct, handledPayloads, handled] using hpay
  refine ⟨s, hfeed, by simpa using framedCount_le chunks (msgs.map toMessage) 0,
    framedCount_le_reads chunks (msgs.map toMessage) 0, by rw [hids0, hP0], by rw [hpay0, hP0], ?_, ?_⟩
  · intro k hkK
    obtain ⟨m, n, hm, hn, h0, hPk, hfind⟩ := hk k (by rw [hP0]; exact hkK)
    rw [hpay0]
    refine ⟨?_, m, n, hm, hn, fun h => by simpa using h0 h, hPk⟩
    simpa [fresh, construct, Nat.add_comm] using hfind
  · intro deliveries hdel hchunks
    obtain ⟨s1, hfeed1, -, -, -, hids1, hpay1, hfind1, -⟩ :=
      feed_deliveries msgs deliveries hdel (fresh connectionId sock) rfl
        (by simp [fresh, construct, UINT_RANGE])
        (by simp only [fresh, construct]; omega)
    rw [← hchunks, hfeed] at hfeed1
    cases hfeed1
    have hids2 : handledIds s.trace = List.range' 1 msgs.length := by
      simpa [fresh, construct, handledIds, handled] using hids1
    refine ⟨?_, hids2, ?_, ?_⟩
    · have := congrArg List.length hids2
      rw [hids0, List.length_range', List.length_range'] at this
      rw [← hP0, this]
    · simpa [fresh, construct, handledPayloads, handled] using hpay1
    · intro k hk1
      have := hfind1 k hk1
      simpa [fresh, construct, Nat.add_comm] using this

/-- C3 (amended) at the messages `<a>x</a>` and `<b>y</b>`, read as
`<a>x</a><b>` and `y</b>`: the first read frames the first message, the second
read the second, under the request ids 1 and 2. -/
theorem request_ids_consecutive_witness :
    (∀ m ∈ [(([] : Data), "a".toList, "x".toList), ([], "b".toList, "y".toList)],
      WellFormed m.1 m.2.1 m.2.2) ∧
    (∀ c ∈ ["<a>x</a><b>".toList, "y</b>".toList], c ≠ []) ∧
    ["<a>x</a><b>".toList, "y</b>".toList].flatten
      = ([(([] : Data), "a".toList, "x".toList), ([], "b".toList, "y".toList)].map
          toMessage).flatten ∧
    framedCount
      ([(([] : Data), "a".toList, "x".toList), ([], "b".toList, "y".toList)].map toMessage)
      0 ["<a>x</a><b>".toList, "y</b>".toList] = 2 ∧
    ∃ s, feed (fresh 7 3) ["<a>x</a><b>".toList, "y</b>".toList] = some s ∧
      handledIds s.trace = List.range' 1 (framedCount
        ([(([] : Data), "a".toList, "x".toList), ([], "b".toList, "y".toList)].map toMessage)
        0 ["<a>x</a><b>".toList, "y</b>".toList]) :=
  ⟨by decide, by decide, by decide, by decide,
   match request_ids_consecutive 7 3
      [([], "a".toList, "x".toList), ([], "b".toList, "y".toList)]
      ["<a>x</a><b>".toList, "y</b>".toList] (by decide) (by decide) (by decide)
      (by decide) with
   | ⟨s, h1, _, _, h3, _⟩ => ⟨s, h1, h3⟩⟩

/-- C3 as stated fails in two ways. At `N = 2 ^ 32`: when the well-formed
message `<a></a>` is read `2 ^ 32` times by a fresh connection, the request ids
passed to `handleRequest` are not 1, 2, ..., `2 ^ 32`: the counter is an
`unsigned int` and the last message is handed over under request id 0. At
`N = 2`: when the well-formed messages `<a>x</a>` and `<b>y</b>` are delivered
to a fresh connection in one read, the request ids passed to `handleRequest`
are not 1, 2 but 1 alone: a read frames one message. -/
theorem request_ids_as_stated_fails :
    (WellFormed [] "a".toList [] ∧
      ∃ s, feed (fresh 7 3) (List.replicate (2 ^ 32) (message [] "a".toList [])) = some s ∧
        handledIds s.trace ≠ List.range' 1 (2 ^ 32)) ∧
    (WellFormed [] "a".toList "x".toList ∧ WellFormed [] "b".toList "y".toList ∧
      ∃ s, feed (fresh 7 3)
          [message [] "a".toList "x".toList ++ message [] "b".toList "y".toList] = some s ∧
        handledIds s.trace = [1] ∧ handledIds s.trace ≠ List.range' 1 2) :=
  ⟨⟨by decide, ids_wrap (2 ^ 32) rfl⟩,
   by decide, by decide, _, rfl, by decide, by decide⟩

/-- C4 (amended). Envelope round-trip, exact bytes: for every `X` free of
`</Request>` and every body `Y`, if the request stored under `requestId` is
`<Request>X</Request>`, then `sendResponse` returns true and appends to the
transmit buffer exactly `<Request>X</Request>`, CRLF, two spaces, `<Response>`,
`Y`, two spaces, `</Response>`, CRLF: two spaces stand between `Y` and the
closing tag of the response. -/
theorem envelope_round_trip (s : XmlRpcConnection) (requestId : Nat) (X Y : Data)
    (hX : ¬ "</Request>".toList <:+: X)
    (hreq : s.mRequests.find requestId
      = some ("<Request>".toList ++ X ++ "</Request>".toList)) :
    sendResponse s requestId Y = some (true, { s with
      mTxBuffer := s.mTxBuffer ++
        ("<Request>".toList ++ X ++ "</Request>".toList ++ Symbols.CRLF ++
          "  <Response>".toList ++ Y ++ "  </Response>".toList ++ Symbols.CRLF) }) := by
  have hrun := charsRun_first "</Request>".toList ("<Request>".toList ++ X) []
    (closeRequest_only_at_end X hX)
  have h := sendResponse_splice s requestId Y ("<Request>".toList ++ X) []
    (by simpa using hreq) hrun
  rw [h]
  simp

/-- C4 (amended) at the stored request `<Request>x</Request>` and the body
`ok`. -/
theorem envelope_round_trip_witness :
    sendResponse (holding "<Request>x</Request>".toList)
      1 "ok".toList
    = some (true, { holding "<Request>x</Request>".toList with
        mTxBuffer := [] ++ ("<Request>".toList ++ "x".toList ++ "</Request>".toList ++
          Symbols.CRLF ++ "  <Response>".toList ++ "ok".toList ++ "  </Response>".toList ++
          Symbols.CRLF) }) :=
  envelope_round_trip (holding "<Request>x</Request>".toList)
    1 "x".toList "ok".toList (by decide) (by decide)

/-- C4 as stated fails: after `<Request>x</Request>` has been read and framed,
`sendResponse` with the body `ok` queues `ok` followed by two spaces and
`</Response>`, not `ok</Response>`. -/
theorem envelope_round_trip_as_stated_fails :
    ((processSomeReads (fresh 7 3) (ReadResult.bytes "<Request>x</Request>".toList)).bind
        fun p => (sendResponse p.2 1 "ok".toList).map fun q => (q.1, q.2.mTxBuffer))
      = some (true, "<Request>x</Request>\r\n  <Response>ok  </Response>\r\n".toList) ∧
    ((processSomeReads (fresh 7 3) (ReadResult.bytes "<Request>x</Request>".toList)).bind
        fun p => (sendResponse p.2 1 "ok".toList).map fun q => (q.1, q.2.mTxBuffer))
      ≠ some (true, "<Request>x</Request>\r\n  <Response>ok</Response>\r\n".toList) := by
  decide

/-- C5 (amended). Splice position: for every stored request
`R = P ++ </Request> ++ S`, this being the first occurrence of `</Request>` in
`R`, and every body `Y`, with `W` the run of whitespace at the start of `S` and
`S = W ++ T`: `sendResponse` returns true and the bytes `E` it appends begin
with `P ++ </Request> ++ W` immediately followed by CRLF, and end with CRLF
immediately followed by `T`; the whitespace that follows `</Request>` stays in
front of the inserted block. When `S` does not begin with whitespace, `E`
begins with `P ++ </Request>` immediately followed by CRLF and ends with CRLF
immediately followed by `S`. -/
theorem splice_position (s : XmlRpcConnection) (requestId : Nat) (P S Y : Data)
    (hreq : s.mRequests.find requestId = some (P ++ "</Request>".toList ++ S))
    (hfirst : ∀ i, i < P.length → ¬ occursAt "</Request>".toList
      (P ++ "</Request>".toList ++ S) i) :
    ∃ E, sendResponse s requestId Y
        = some (true, { s with mTxBuffer := s.mTxBuffer ++ E }) ∧
      E = P ++ "</Request>".toList ++ S.takeWhile isWhitespace ++ Symbols.CRLF ++
          "  <Response>".toList ++ Y ++ "  </Response>".toList ++ Symbols.CRLF ++
          S.dropWhile isWhitespace ∧
      S.takeWhile isWhitespace ++ S.dropWhile isWhitespace = S ∧
      P ++ "</Request>".toList ++ S.takeWhile isWhitespace ++ Symbols.CRLF <+: E ∧
      Symbols.CRLF ++ S.dropWhile isWhitespace <:+ E ∧
      ((∀ c, S.head? = some c → isWhitespace c = false) →
        P ++ "</Request>".toList ++ Symbols.CRLF <+: E ∧ Symbols.CRLF ++ S <:+ E) := by
  have hfirst2 : ∀ i, i < P.length → ¬ occursAt "</Request>".toList (P ++ "</Request>".toList) i := by
    intro i hi hocc
    apply hfirst i hi
    unfold occursAt at hocc ⊢
    have hle : i ≤ (P ++ "</Request>".toList).length := by simp; omega
    rw [List.drop_append_of_le_length hle]
    exact hocc.trans (List.prefix_append _ _)
  have hrun := charsRun_first "</Request>".toList P S hfirst2
  have h := sendResponse_splice s requestId Y P S (by simpa using hreq) hrun
  refine ⟨_, h, ?_, List.takeWhile_append_dropWhile _ _, ?_, ?_, ?_⟩
  · simp
  · exact ⟨"  <Response>".toList ++ Y ++ "  </Response>".toList ++ Symbols.CRLF ++
      S.dropWhile isWhitespace, by simp⟩
  · exact ⟨P ++ "</Request>".toList ++ S.takeWhile isWhitespace ++ Symbols.CRLF ++
      ("  <Response>".toList ++ Y ++ "  </Response>".toList), by simp⟩
  · intro hS
    rw [takeWhile_whitespace_eq_nil S hS, dropWhile_whitespace_eq_self S hS]
    exact ⟨⟨"  <Response>".toList ++ Y ++ "  </Response>".toList ++ Symbols.CRLF ++ S, by simp⟩,
      ⟨P ++ "</Request>".toList ++ Symbols.CRLF ++
        ("  <Response>".toList ++ Y ++ "  </Response>".toList), by simp⟩⟩

/-- C5 (amended) at the stored request `<a><Request>x</Request> </a>` and the
body `y`. -/
theorem splice_position_witness :
    ∃ E, sendResponse (holding "<a><Request>x</Request> </a>".toList)
          1 "y".toList
        = some (true, { holding "<a><Request>x</Request> </a>".toList with mTxBuffer := [] ++ E }) ∧
      E = "<a><Request>x".toList ++ "</Request>".toList ++
          (" </a>".toList).takeWhile isWhitespace ++ Symbols.CRLF ++
          "  <Response>".toList ++ "y".toList ++ "  </Response>".toList ++ Symbols.CRLF ++
          (" </a>".toList).dropWhile isWhitespace ∧
      (" </a>".toList).takeWhile isWhitespace ++ (" </a>".toList).dropWhile isWhitespace
        = " </a>".toList ∧
      "<a><Request>x".toList ++ "</Request>".toList ++ (" </a>".toList).takeWhile isWhitespace
        ++ Symbols.CRLF <+: E ∧
      Symbols.CRLF ++ (" </a>".toList).dropWhile isWhitespace <:+ E ∧
      ((∀ c, (" </a>".toList).head? = some c → isWhitespace c = false) →
        "<a><Request>x".toList ++ "</Request>".toList ++ Symbols.CRLF <+: E ∧
          Symbols.CRLF ++ " </a>".toList <:+ E) :=
  splice_position (holding "<a><Request>x</Request> </a>".toList)
    1 "<a><Request>x".toList " </a>".toList "y".toList (by decide) (by decide)

/-- C5 as stated fails: after `<a><Request>x</Request> </a>` has been read and
framed, the bytes queued by `sendResponse` with the body `y` keep the space
that follows `</Request>` in front of the inserted block: they neither begin
with `<a><Request>x</Request>` directly followed by CRLF, nor end with CRLF
directly followed by the original remainder (space, `</a>`). -/
theorem splice_position_as_stated_fails :
    ((processSomeReads (fresh 7 3) (ReadResult.bytes "<a><Request>x</Request> </a>".toList)).bind
        fun p => (sendResponse p.2 1 "y".toList).map fun q => (q.1, q.2.mTxBuffer))
      = some (true, "<a><Request>x</Request> \r\n  <Response>y  </Response>\r\n</a>".toList) ∧
    "<a><Request>x".toList ++ "</Request>".toList ++ " </a>".toList
      = "<a><Request>x</Request> </a>".toList ∧
    ¬ ("<a><Request>x".toList ++ "</Request>".toList ++ Symbols.CRLF
        <+: "<a><Request>x</Request> \r\n  <Response>y  </Response>\r\n</a>".toList) ∧
    ¬ (Symbols.CRLF ++ " </a>".toList
        <:+ "<a><Request>x</Request> \r\n  <Response>y  </Response>\r\n</a>".toList) := by
  decide

/-- C6. Fallback envelope: for every stored request that does not contain
`</Request>` and every body `Y`, `sendResponse` returns true and appends to the
transmit buffer exactly `<Response>`, `Y`, `</Response>`: nothing of the
request. -/
theorem fallback_envelope (s : XmlRpcConnection) (requestId : Nat) (R Y : Data)
    (hreq : s.mRequests.find requestId = some R) (hno : ¬ "</Request>".toList <:+: R) :
    sendResponse s requestId Y = some (true, { s with
      mTxBuffer := s.mTxBuffer ++ ("<Response>".toList ++ Y ++ "</Response>".toList) }) :=
  sendResponse_bare s requestId Y R hreq (charsRun_absent _ _ hno)

/-- C6 at the stored request `<Req>hi</Req>` and the body `ok`. -/
theorem fallback_envelope_witness :
    sendResponse (holding "<Req>hi</Req>".toList)
      1 "ok".toList
    = some (true, { holding "<Req>hi</Req>".toList with
        mTxBuffer := [] ++ ("<Response>".toList ++ "ok".toList ++ "</Response>".toList) }) :=
  fallback_envelope (holding "<Req>hi</Req>".toList)
    1 "<Req>hi</Req>".toList "ok".toList (by decide) (by decide)

/-- C7. Unknown id rejection: in every connection state, for a request id that
is not a key of `requests`, `sendResponse` returns false and leaves the whole
state (transmit and receive buffer, `requests`, next request id) as it was; for
a request id that is a key it returns true. On a fresh connection every id is
unknown; and after a fresh connection has framed `N` well-formed messages, with
`N + 1` below `2 ^ 32`, the id 0 and every id from the next request id on are
unknown. -/
theorem unknown_id_rejection (s : XmlRpcConnection) (requestId : Nat) (Y : Data) :
    (s.mRequests.find requestId = none → sendResponse s requestId Y = some (false, s)) ∧
    (s.mRequests.find requestId ≠ none →
      ∃ s1, sendResponse s requestId Y = some (true, s1)) ∧
    (∀ connectionId sock,
      sendResponse (fresh connectionId sock) requestId Y
        = some (false, fresh connectionId sock)) ∧
    (∀ connectionId sock msgs deliveries, List.Forall₂ Delivers msgs deliveries →
      msgs.length + 1 < UINT_RANGE →
      ∃ s1, feed (fresh connectionId sock) deliveries.flatten = some s1 ∧
        s1.mNextRequestId = msgs.length + 1 ∧
        ∀ j, j = 0 ∨ s1.mNextRequestId ≤ j → sendResponse s1 j Y = some (false, s1)) := by
  refine ⟨sendResponse_unknown s requestId Y, ?_, ?_, ?_⟩
  · intro hkey
    obtain ⟨ok, E, hE, hok⟩ := sendResponse_total s requestId Y
    have : ok = true := hok.mpr hkey
    subst this
    exact ⟨_, hE⟩
  · intro connectionId sock
    exact sendResponse_unknown _ requestId Y rfl
  · intro connectionId sock msgs deliveries hdel hN
    obtain ⟨s1, hfeed, -, -, hnext, -, -, -, hkeep⟩ :=
      feed_deliveries msgs deliveries hdel (fresh connectionId sock) rfl
        (by simp [fresh, construct, UINT_RANGE])
        (by simp only [fresh, construct]; omega)
    have hnext1 : s1.mNextRequestId = msgs.length + 1 := by
      rw [hnext]
      simp only [fresh, construct]
      rw [Nat.mod_eq_of_lt (by omega)]
      omega
    refine ⟨s1, hfeed, hnext1, ?_⟩
    intro j hj
    apply sendResponse_unknown
    rw [hkeep j (by simp only [fresh, construct]; omega)]
    rfl

/-- C8. Partial write resumption: with an empty transmit buffer
`processSomeWrites` returns true, makes no `write` call and changes nothing;
with a non-empty transmit buffer `T`, when the socket accepts `n` bytes it
returns true and the transmit buffer becomes `T` less its first `n` bytes
(empty when `n` is the length of `T`). Over any sequence of write events, the
bytes accepted so far followed by the transmit buffer stay the same byte
string. -/
theorem partial_write_resumption (s : XmlRpcConnection) (n : Nat) (ws : List WriteResult) :
    (s.mTxBuffer = [] → ∀ w, processSomeWrites s w = (true, s)) ∧
    (s.mTxBuffer ≠ [] →
      processSomeWrites s (WriteResult.accepted n) = (true, { s with
        mTxBuffer := s.mTxBuffer.drop n
        trace := s.trace ++ [Event.write s.mTxBuffer (WriteResult.accepted n)] }) ∧
      sent [Event.write s.mTxBuffer (WriteResult.accepted n)] = s.mTxBuffer.take n ∧
      (n = s.mTxBuffer.length →
        (processSomeWrites s (WriteResult.accepted n)).2.mTxBuffer = [])) ∧
    sent (drain s ws).trace ++ (drain s ws).mTxBuffer = sent s.trace ++ s.mTxBuffer := by
  refine ⟨fun h w => processSomeWrites_empty s w h, fun h => ⟨?_, ?_, ?_⟩, drain_stream ws s⟩
  · exact processSomeWrites_accepted s n h
  · simp [sent]
  · intro hn
    rw [processSomeWrites_accepted s n h, hn]
    simp

/-- C9. Close on zero read or error: `processSomeReads` always returns; it
returns false exactly when the read reports a hard error or zero bytes (so true
for every read of at least one byte); in the false case the parser is not run:
apart from the record of the `read` call the connection is as before (receive
buffer, `requests` and next request id unchanged, whatever the receive buffer
holds) and no `handleRequest` call is made. -/
theorem close_on_zero_read_or_error (s : XmlRpcConnection) (r : ReadResult) :
    (∃ ok s1, processSomeReads s r = some (ok, s1) ∧
      (ok = false ↔ (r = ReadResult.error ∨ r = ReadResult.bytes []))) ∧
    ((r = ReadResult.error ∨ r = ReadResult.bytes []) →
      processSomeReads s r = some (false, { s with trace := s.trace ++ [Event.read r] }) ∧
      handled (s.trace ++ [Event.read r]) = handled s.trace) := by
  constructor
  · obtain ⟨ok, s1, h, hok, -⟩ := processSomeReads_total s r
    exact ⟨ok, s1, h, hok⟩
  · intro hr
    exact ⟨processSomeReads_close s r hr, by simp [handled_append, handled]⟩

/-- C10. Dispatch order of `process`: with an exceptional condition on the
descriptor it returns false and does nothing (no `read`, no `write`).
Otherwise, if the descriptor is readable it performs one read, and if that read
signals close it returns false with no `write` attempted. Otherwise, with `s1`
the connection after the read step (the connection itself when the descriptor
is not readable), it performs a write exactly when the transmit buffer of `s1`
is non-empty and the descriptor is writable, and returns the result of that
write; in the remaining cases it returns true, with no `write` attempted. -/
theorem dispatch_order (s : XmlRpcConnection) (fdset : FdSet) (r : ReadResult)
    (w : WriteResult) :
    (fdset.hasException s.mSock = true → process s fdset r w = some (false, s)) ∧
    (fdset.hasException s.mSock = false → fdset.readyToRead s.mSock = true →
      ∃ ok s1, processSomeReads s r = some (ok, s1) ∧
        readCount s1.trace = readCount s.trace + 1 ∧
        writeCount s1.trace = writeCount s.trace ∧
        (ok = false → process s fdset r w = some (false, s1)) ∧
        (ok = true → s1.mTxBuffer ≠ [] → fdset.readyToWrite s.mSock = true →
          process s fdset r w = some (processSomeWrites s1 w) ∧
          writeCount (processSomeWrites s1 w).2.trace = writeCount s.trace + 1) ∧
        (ok = true → (s1.mTxBuffer = [] ∨ fdset.readyToWrite s.mSock = false) →
          process s fdset r w = some (true, s1))) ∧
    (fdset.hasException s.mSock = false → fdset.readyToRead s.mSock = false →
      (s.mTxBuffer ≠ [] → fdset.readyToWrite s.mSock = true →
        process s fdset r w = some (processSomeWrites s w) ∧
        readCount (processSomeWrites s w).2.trace = readCount s.trace ∧
        writeCount (processSomeWrites s w).2.trace = writeCount s.trace + 1) ∧
      ((s.mTxBuffer = [] ∨ fdset.readyToWrite s.mSock = false) →
        process s fdset r w = some (true, s))) := by
  refine ⟨?_, ?_, ?_⟩
  · intro hex
    simp [process, hex]
  · intro hex hrd
    obtain ⟨ok, s1, hread, -, htx, hsock, hrc, hwc⟩ := processSomeReads_total s r
    have hproc : process s fdset r w
        = if (!ok) = true then some (false, s1)
          else if s1.mTxBuffer ≠ [] ∧ fdset.readyToWrite s1.mSock = true
            then some (processSomeWrites s1 w) else some (true, s1) := by
      simp only [process, hex, hrd, hread, Bool.false_eq_true, if_false, if_true,
        Option.some_bind]
      rw [process_write_step]
    refine ⟨ok, s1, hread, hrc, hwc, ?_, ?_, ?_⟩
    · intro hok
      rw [hproc, hok]
      rfl
    · intro hok hne hwr
      rw [hproc, hok]
      simp only [Bool.not_true, Bool.false_eq_true, if_false]
      rw [if_pos ⟨hne, by rw [hsock]; exact hwr⟩]
      exact ⟨rfl, by rw [(processSomeWrites_counts s1 w hne).2, hwc]⟩
    · intro hok hno
      rw [hproc, hok]
      simp only [Bool.not_true, Bool.false_eq_true, if_false]
      rw [if_neg]
      rintro ⟨hne, hwr⟩
      rcases hno with h | h
      · exact hne h
      · rw [hsock, h] at hwr
        exact Bool.false_ne_true hwr
  · intro hex hrd
    have hproc : process s fdset r w
        = if s.mTxBuffer ≠ [] ∧ fdset.readyToWrite s.mSock = true
            then some (processSomeWrites s w) else some (true, s) := by
      simp only [process, hex, hrd, Bool.false_eq_true, if_false, Option.some_bind,
        Bool.not_true]
      rw [process_write_step]
    refine ⟨?_, ?_⟩
    · intro hne hwr
      rw [hproc, if_pos ⟨hne, hwr⟩]
      exact ⟨rfl, processSomeWrites_counts s w hne⟩
    · intro hno
      rw [hproc, if_neg]
      rintro ⟨hne, hwr⟩
      rcases hno with h | h
      · exact hne h
      · rw [h] at hwr
        exact Bool.false_ne_true hwr

/-- C11. Incomplete frame is not an error: for every successful read of at
least one byte after which the buffer (old receive buffer, then the chunk)
contains no `<`, or no `>` after its first `<`, or no occurrence of the closing
sequence of the tag name after the opening tag, `processSomeReads` returns true,
the receive buffer becomes exactly the old one followed by the chunk,
`handleRequest` is not invoked, and `requests` and the next request id are
unchanged. -/
theorem incomplete_frame_is_not_an_error (s : XmlRpcConnection) (chunk : Data)
    (hchunk : chunk ≠ [])
    (hinc : '<' ∉ s.mRxBuffer ++ chunk ∨
      (∃ pre t, s.mRxBuffer ++ chunk = pre ++ '<' :: t ∧ '<' ∉ pre ∧ '>' ∉ t) ∨
      (∃ pre tag r, s.mRxBuffer ++ chunk = pre ++ '<' :: tag ++ '>' :: r ∧ '<' ∉ pre ∧
        '>' ∉ tag ∧ ¬ closingTag tag <:+: r)) :
    processSomeReads s (ReadResult.bytes chunk) = some (true, { s with
      mRxBuffer := s.mRxBuffer ++ chunk
      trace := s.trace ++ [Event.read (ReadResult.bytes chunk)] }) ∧
    handled (s.trace ++ [Event.read (ReadResult.bytes chunk)]) = handled s.trace := by
  refine ⟨?_, by simp [handled_append, handled]⟩
  rw [processSomeReads_bytes s chunk hchunk]
  have key : tryParse { s with trace := s.trace ++ [Event.read (ReadResult.bytes chunk)]
                               mRxBuffer := s.mRxBuffer ++ chunk }
      = some { s with trace := s.trace ++ [Event.read (ReadResult.bytes chunk)]
                      mRxBuffer := s.mRxBuffer ++ chunk } := by
    rcases hinc with h | ⟨pre, t, hB, hpre, ht⟩ | ⟨pre, tag, r, hB, hpre, htag, hno⟩
    · exact tryParse_no_open _ h
    · exact tryParse_no_bracket _ pre t hpre ht hB
    · refine tryParse_no_closing _ pre tag r hpre htag ?_ (by simpa using hB)
      rw [charsRun_closingTag_cons, charsRun_absent _ _ hno, List.length_cons]
  rw [key]
  rfl

/-- C11 at the receive buffer `<a>h` and the chunk `i</b>`: the closing
sequence of `a` has not arrived. -/
theorem incomplete_frame_is_not_an_error_witness :
    processSomeReads { fresh 7 3 with mRxBuffer := "<a>h".toList }
        (ReadResult.bytes "i</b>".toList)
      = some (true, { ({ fresh 7 3 with mRxBuffer := "<a>h".toList } : XmlRpcConnection) with
          mRxBuffer := "<a>h".toList ++ "i</b>".toList
          trace := [] ++ [Event.read (ReadResult.bytes "i</b>".toList)] }) ∧
    handled ([] ++ [Event.read (ReadResult.bytes "i</b>".toList)]) = handled [] :=
  incomplete_frame_is_not_an_error { fresh 7 3 with mRxBuffer := "<a>h".toList }
    "i</b>".toList (by decide)
    (Or.inr (Or.inr ⟨[], "a".toList, "hi</b>".toList, by decide, by decide, by decide,
      by decide⟩))

/-- C12. Framed payload and remainder: whenever `tryParse` frames a message
from a buffer `B`, the payload `P` passed to `handleRequest` (and stored in
`requests` under the request id used) is a prefix of `B`, so it starts at the
first byte of `B`, leading whitespace and bytes before the first `<` included;
it ends with the closing sequence of the tag name, the bytes between the first
`<` and the next `>`; and `B` is `P`, then whitespace bytes `w` only, then the
new receive buffer, which is empty or begins with a byte that is not
whitespace (space, tab, CR, LF). -/
theorem framed_payload_and_remainder (s s1 : XmlRpcConnection) (hparse : tryParse s = some s1)
    (hframed : handled s1.trace ≠ handled s.trace) :
    ∃ P w pre tag body,
      handled s1.trace = handled s.trace ++ [(s.mConnectionId, s.mNextRequestId, P)] ∧
      s1.mRequests.find s.mNextRequestId = some P ∧
      P <+: s.mRxBuffer ∧
      P = pre ++ '<' :: tag ++ '>' :: body ++ closingTag tag ∧ '<' ∉ pre ∧ '>' ∉ tag ∧
      closingTag tag <:+ P ∧
      s.mRxBuffer = P ++ w ++ s1.mRxBuffer ∧
      (∀ c ∈ w, c = ' ' ∨ c = '\t' ∨ c = '\r' ∨ c = '\n') ∧
      (∀ c, s1.mRxBuffer.head? = some c → ¬ (c = ' ' ∨ c = '\t' ∨ c = '\r' ∨ c = '\n')) := by
  rcases tryParse_cases s with h | ⟨pre, tag, body, S, hpre, htag, -, hB, h⟩
  · rw [h] at hparse
    cases hparse
    exact absurd rfl hframed
  · rw [h] at hparse
    cases hparse
    refine ⟨message pre tag body, S.takeWhile isWhitespace, pre, tag, body, ?_, ?_, ?_, ?_, hpre,
      htag, ?_, ?_, ?_, ?_⟩
    · simp [handled_append, handled]
    · simp [RequestMap.find_assign]
    · rw [hB]
      exact ⟨S, by simp [message]⟩
    · simp [message]
    · exact ⟨pre ++ '<' :: tag ++ '>' :: body, by simp [message]⟩
    · rw [hB, List.append_assoc, List.takeWhile_append_dropWhile]
      simp [message]
    · intro c hc
      exact (isWhitespace_iff c).mp (List.mem_takeWhile_imp hc)
    · intro c hc
      have := head_dropWhile_whitespace S c hc
      rw [← isWhitespace_iff, this]
      exact Bool.false_ne_true

/-- C12 at the buffer `<a>x</a>`, space, line feed, `<b`: the payload is
`<a>x</a>` and `<b` is left. -/
theorem framed_payload_and_remainder_witness :
    tryParse { fresh 7 3 with mRxBuffer := "<a>x</a> \n<b".toList }
      = some { mConnectionId := 7, mNextRequestId := 2, mSock := 3, mRxBuffer := "<b".toList,
               mTxBuffer := [], mRequests := [(1, "<a>x</a>".toList)],
               trace := [Event.handleRequest 7 1 "<a>x</a>".toList] } ∧
    ∃ P w pre tag body,
      handled [Event.handleRequest 7 1 "<a>x</a>".toList] = handled [] ++ [(7, 1, P)] ∧
      RequestMap.find [(1, "<a>x</a>".toList)] 1 = some P ∧
      P <+: "<a>x</a> \n<b".toList ∧
      P = pre ++ '<' :: tag ++ '>' :: body ++ closingTag tag ∧ '<' ∉ pre ∧ '>' ∉ tag ∧
      closingTag tag <:+ P ∧
      "<a>x</a> \n<b".toList = P ++ w ++ "<b".toList ∧
      (∀ c ∈ w, c = ' ' ∨ c = '\t' ∨ c = '\r' ∨ c = '\n') ∧
      (∀ c, ("<b".toList).head? = some c → ¬ (c = ' ' ∨ c = '\t' ∨ c = '\r' ∨ c = '\n')) :=
  ⟨by decide,
   framed_payload_and_remainder { fresh 7 3 with mRxBuffer := "<a>x</a> \n<b".toList }
     { mConnectionId := 7, mNextRequestId := 2, mSock := 3, mRxBuffer := "<b".toList,
       mTxBuffer := [], mRequests := [(1, "<a>x</a>".toList)],
       trace := [Event.handleRequest 7 1 "<a>x</a>".toList] }
     (by decide) (by decide)⟩

end XmlRpcConnection

/-- C13. Connection id uniqueness: over any interleaving of fewer than
`2 ^ 32` constructions with destructions and member-function calls, starting
from the static initialiser `NextConnectionId = 1`, the `k`-th connection
constructed receives connection id `k`; so no two connections, alive or
destroyed, have the same id. Destruction leaves the counter and the ids handed
out as they are, and no member function changes the id of its connection. -/
theorem connection_id_uniqueness (ops : List ProcessOp)
    (h : ServerProcess.constructions ops < UINT_RANGE) :
    (ServerProcess.run ServerProcess.start ops).created
      = List.range' 1 (ServerProcess.constructions ops) ∧
    (∀ k, 1 ≤ k → k ≤ ServerProcess.constructions ops →
      (ServerProcess.run ServerProcess.start ops).created[k - 1]? = some k) ∧
    (ServerProcess.run ServerProcess.start ops).NextConnectionId
      = (ServerProcess.constructions ops + 1) % UINT_RANGE ∧
    (ServerProcess.run ServerProcess.start ops).created.Nodup ∧
    (ServerProcess.run ServerProcess.start ops).liveIds.Nodup ∧
    (∀ id ∈ (ServerProcess.run ServerProcess.start ops).liveIds,
      id ∈ (ServerProcess.run ServerProcess.start ops).created) ∧
    (∀ (p : ServerProcess) (i : Nat),
      (p.step (ProcessOp.destruct i)).NextConnectionId = p.NextConnectionId ∧
      (p.step (ProcessOp.destruct i)).created = p.created) ∧
    (∀ (c c1 : XmlRpcConnection) (op : XmlRpcConnection.ConnOp),
      XmlRpcConnection.step c op = some c1 → c1.mConnectionId = c.mConnectionId) := by
  have hc := ServerProcess.run_counted ops ServerProcess.start 0 ServerProcess.counted_start
    (by simpa using h)
  rw [Nat.zero_add] at hc
  obtain ⟨hcreated, hcounter, hsub⟩ := hc
  have hnodup : (ServerProcess.run ServerProcess.start ops).created.Nodup := by
    rw [hcreated]; exact List.nodup_range' 1 _
  refine ⟨hcreated, ?_, hcounter, hnodup, hnodup.sublist hsub, fun id hid => hsub.subset hid,
    fun p i => ⟨rfl, rfl⟩, XmlRpcConnection.step_connectionId⟩
  intro k hk1 hk2
  rw [hcreated, List.getElem?_range' 1 1 (by omega : k - 1 < ServerProcess.constructions ops)]
  congr 1
  omega

/-- C13 at two constructions, a destruction, a third construction and a read
on the first connection alive. -/
theorem connection_id_uniqueness_witness :
    ServerProcess.constructions
      [ProcessOp.construct 3, ProcessOp.construct 4, ProcessOp.destruct 0,
        ProcessOp.construct 5,
        ProcessOp.call 0 (XmlRpcConnection.ConnOp.read (ReadResult.bytes "<a>".toList))]
      < UINT_RANGE ∧
    (ServerProcess.run ServerProcess.start
      [ProcessOp.construct 3, ProcessOp.construct 4, ProcessOp.destruct 0,
        ProcessOp.construct 5,
        ProcessOp.call 0 (XmlRpcConnection.ConnOp.read
          (ReadResult.bytes "<a>".toList))]).created
      = List.range' 1 (ServerProcess.constructions
          [ProcessOp.construct 3, ProcessOp.construct 4, ProcessOp.destruct 0,
            ProcessOp.construct 5,
            ProcessOp.call 0 (XmlRpcConnection.ConnOp.read
              (ReadResult.bytes "<a>".toList))]) ∧
    (ServerProcess.run ServerProcess.start
      [ProcessOp.construct 3, ProcessOp.construct 4, ProcessOp.destruct 0,
        ProcessOp.construct 5,
        ProcessOp.call 0 (XmlRpcConnection.ConnOp.read
          (ReadResult.bytes "<a>".toList))]).liveIds = [2, 3] :=
  ⟨by decide,
   (connection_id_uniqueness
      [ProcessOp.construct 3, ProcessOp.construct 4, ProcessOp.destruct 0,
        ProcessOp.construct 5,
        ProcessOp.call 0 (XmlRpcConnection.ConnOp.read (ReadResult.bytes "<a>".toList))]
      (by decide)).1,
   by decide⟩

namespace XmlRpcConnection

/-- C14. End-to-end fallback scenario: on a fresh connection, one read
delivering a complete message `M` that does not contain the literal
`</Request>` frames it as request id 1 with payload `M`, and a following
`sendResponse` for id 1 with body `Y` returns true and makes the transmit
buffer exactly `<Response>`, `Y`, `</Response>`: the tag name that framed the
message plays no part in the splice. -/
theorem end_to_end_fallback (connectionId sock : Nat) (w tag body Y : Data)
    (hwf : WellFormed w tag body) (hno : ¬ "</Request>".toList <:+: message w tag body) :
    ∃ s1, processSomeReads (fresh connectionId sock) (ReadResult.bytes (message w tag body))
        = some (true, s1) ∧
      handled s1.trace = [(connectionId, 1, message w tag body)] ∧
      s1.mRequests.find 1 = some (message w tag body) ∧
      sendResponse s1 1 Y = some (true, { s1 with
        mTxBuffer := "<Response>".toList ++ Y ++ "</Response>".toList }) := by
  have h1 := processSomeReads_frame (fresh connectionId sock) w tag body []
    (message w tag body) hwf (message_ne_nil _ _ _) (by simp [fresh, construct])
  refine ⟨_, h1, ?_, ?_, ?_⟩
  · simp [fresh, construct, handled]
  · simp [fresh, construct, RequestMap.find_assign]
  · rw [sendResponse_bare _ 1 Y (message w tag body)
      (by simp [fresh, construct, RequestMap.find_assign]) (charsRun_absent _ _ hno)]
    simp [fresh, construct]

/-- C14 at the message `<Req>hi</Req>` and the body `ok`: the transmit buffer
becomes `<Response>ok</Response>`. -/
theorem end_to_end_fallback_witness :
    "<Response>".toList ++ "ok".toList ++ "</Response>".toList
      = "<Response>ok</Response>".toList ∧
    message [] "Req".toList "hi".toList = "<Req>hi</Req>".toList ∧
    ∃ s1, processSomeReads (fresh 7 3)
        (ReadResult.bytes (message [] "Req".toList "hi".toList)) = some (true, s1) ∧
      handled s1.trace = [(7, 1, message [] "Req".toList "hi".toList)] ∧
      s1.mRequests.find 1 = some (message [] "Req".toList "hi".toList) ∧
      sendResponse s1 1 "ok".toList = some (true, { s1 with
        mTxBuffer := "<Response>".toList ++ "ok".toList ++ "</Response>".toList }) :=
  ⟨by decide, by decide,
   end_to_end_fallback 7 3 [] "Req".toList "hi".toList "ok".toList (by decide) (by decide)⟩

/-- C15. Responses are appended in call order: every successful `sendResponse`
for id `r` with body `Y` sets the transmit buffer to the old one followed by
the envelope, bytes that depend on the stored request for `r` and on `Y` only,
and leaves the receive buffer, `requests` and the next request id as they were;
so for two framed ids `a` and `b`, `sendResponse` for `b` and then for `a`
queues the envelope of `b` in front of that of `a`, whatever the order of
framing. -/
theorem responses_appended_in_call_order (s : XmlRpcConnection) (a b : Nat)
    (Ra Rb Ya Yb : Data) (ha : s.mRequests.find a = some Ra)
    (hb : s.mRequests.find b = some Rb) :
    sendResponse s b Yb
      = some (true, { s with mTxBuffer := s.mTxBuffer ++ envelope Rb Yb }) ∧
    sendResponse { s with mTxBuffer := s.mTxBuffer ++ envelope Rb Yb } a Ya
      = some (true, { s with mTxBuffer := s.mTxBuffer ++ envelope Rb Yb ++ envelope Ra Ya }) ∧
    (∀ (t : XmlRpcConnection) (r : Nat) (ok : Bool) (t1 : XmlRpcConnection) (Y : Data),
      sendResponse t r Y = some (ok, t1) →
        t1.mRxBuffer = t.mRxBuffer ∧ t1.mRequests = t.mRequests ∧
        t1.mNextRequestId = t.mNextRequestId ∧
        (ok = true → ∃ R, t.mRequests.find r = some R ∧
          t1.mTxBuffer = t.mTxBuffer ++ envelope R Y)) := by
  refine ⟨sendResponse_envelope s b Rb Yb hb, ?_, ?_⟩
  · exact sendResponse_envelope { s with mTxBuffer := s.mTxBuffer ++ envelope Rb Yb } a Ra Ya ha
  · intro t r ok t1 Y ht
    cases hf : t.mRequests.find r with
    | none =>
      rw [sendResponse_unknown t r Y hf] at ht
      cases ht
      exact ⟨rfl, rfl, rfl, fun h => absurd h (by simp)⟩
    | some R =>
      rw [sendResponse_envelope t r R Y hf] at ht
      cases ht
      exact ⟨rfl, rfl, rfl, fun _ => ⟨R, rfl, rfl⟩⟩

/-- C15 at a connection holding `<a>x</a>` as request 1 and `<b>y</b>` as
request 2, answered in the order 2, 1. -/
theorem responses_appended_in_call_order_witness :
    envelope "<b>y</b>".toList "B".toList ++ envelope "<a>x</a>".toList "A".toList
      = "<Response>B</Response><Response>A</Response>".toList ∧
    sendResponse { fresh 7 3 with mRequests := [(1, "<a>x</a>".toList), (2, "<b>y</b>".toList)] }
        2 "B".toList
      = some (true, { ({ fresh 7 3 with
            mRequests := [(1, "<a>x</a>".toList), (2, "<b>y</b>".toList)] } : XmlRpcConnection)
          with mTxBuffer := [] ++ envelope "<b>y</b>".toList "B".toList }) :=
  ⟨by decide,
   (responses_appended_in_call_order
      { fresh 7 3 with mRequests := [(1, "<a>x</a>".toList), (2, "<b>y</b>".toList)] }
      1 2 "<a>x</a>".toList "<b>y</b>".toList "A".toList "B".toList (by decide) (by decide)).1⟩

/-- C16. Interest declaration: `buildFdSet` always registers read interest for
the socket of the connection, and registers write interest for it if and only if
the transmit buffer is non-empty (the write set is left as it was otherwise);
the exception set is untouched. The function reads the connection and returns
the descriptor set only: no connection state changes. -/
theorem interest_declaration (s : XmlRpcConnection) (fdset : FdSet) :
    (buildFdSet s fdset).readyToRead s.mSock = true ∧
    (buildFdSet s fdset).read = fdset.read.insert s.mSock ∧
    (s.mTxBuffer ≠ [] → (buildFdSet s fdset).write = fdset.write.insert s.mSock ∧
      (buildFdSet s fdset).readyToWrite s.mSock = true) ∧
    (s.mTxBuffer = [] → (buildFdSet s fdset).write = fdset.write) ∧
    (fdset.readyToWrite s.mSock = false →
      ((buildFdSet s fdset).readyToWrite s.mSock = true ↔ s.mTxBuffer ≠ [])) ∧
    (buildFdSet s fdset).except = fdset.except := by
  by_cases h : s.mTxBuffer = []
  · simp [buildFdSet, h, FdSet.setRead, FdSet.setWrite, FdSet.readyToRead, FdSet.readyToWrite]
  · have hne : s.mTxBuffer.isEmpty = false := by simpa using h
    simp [buildFdSet, h, hne, FdSet.setRead, FdSet.setWrite, FdSet.readyToRead,
      FdSet.readyToWrite]

/-- C17 (amended). Request table invariant: every sequence of reads, writes,
`sendResponse` and `process` calls on a fresh connection returns; in every
state `s` so reached, and every state `s1` reached from it, with fewer than
`2 ^ 32 - 1` messages framed: the next request id is the number of messages
framed plus 1, the keys of `requests` are exactly 1, ..., next request id - 1,
the next request id has not decreased from `s` to `s1` and has grown by exactly
the number of messages framed in between, and every entry of `requests` in `s`
is in `s1` with the same value. A call frames at most one message; a write and
`sendResponse` frame none and leave the next request id and `requests` as they
are. -/
theorem request_table_invariant (connectionId sock : Nat) (ops ops1 : List ConnOp) :
    ∃ s s1, run (fresh connectionId sock) ops = some s ∧ run s ops1 = some s1 ∧
      ((handled s1.trace).length < UINT_RANGE - 1 →
        s.mNextRequestId = (handled s.trace).length + 1 ∧
        s1.mNextRequestId = (handled s1.trace).length + 1 ∧
        (∀ j, s.mRequests.find j ≠ none ↔ 1 ≤ j ∧ j < s.mNextRequestId) ∧
        (∀ j, s1.mRequests.find j ≠ none ↔ 1 ≤ j ∧ j < s1.mNextRequestId) ∧
        s.mNextRequestId ≤ s1.mNextRequestId ∧
        s1.mNextRequestId
          = s.mNextRequestId + ((handled s1.trace).length - (handled s.trace).length) ∧
        (∀ j R, s.mRequests.find j = some R → s1.mRequests.find j = some R)) ∧
      (∀ op, ∃ t, step s op = some t ∧ (Quiet s t ∨ ∃ d, Frames s t d)) ∧
      (∀ w, Quiet s (processSomeWrites s w).2) ∧
      (∀ requestId Y, ∃ ok t, sendResponse s requestId Y = some (ok, t) ∧ Quiet s t) := by
  obtain ⟨s, hs⟩ := run_total ops (fresh connectionId sock)
  obtain ⟨s1, hs1⟩ := run_total ops1 s
  refine ⟨s, s1, hs, hs1, ?_, step_effect s, processSomeWrites_quiet s, sendResponse_quiet s⟩
  intro hN
  have hN1 : (handled s1.trace).length + 1 < UINT_RANGE := by omega
  have hle := run_handled_le ops1 s s1 hs1
  obtain ⟨hinv, -, -⟩ := run_inv ops (fresh connectionId sock) s
    (tableInvariant_fresh connectionId sock) hs (by omega)
  obtain ⟨hinv1, hn1, hkeep⟩ := run_inv ops1 s s1 hinv hs1 hN1
  exact ⟨hinv.1, hinv1.1, hinv.2, hinv1.2, by omega, hn1, hkeep⟩

/-- C17 as stated fails at `2 ^ 32 - 1` framed messages, fewer than `2 ^ 32`:
when a fresh connection (next request id 1) has read the well-formed message
`<a></a>` that many times, its next request id, an `unsigned int`, is 0: it has
decreased, and request 1, a key of `requests`, is not among 1, ..., next
request id - 1. -/
theorem request_table_wraps_below_uint_range :
    WellFormed [] "a".toList [] ∧ (fresh 7 3).mNextRequestId = 1 ∧
    ∃ s, run (fresh 7 3) (List.replicate (2 ^ 32 - 1)
        (ConnOp.read (ReadResult.bytes (message [] "a".toList [])))) = some s ∧
      (handled s.trace).length = 2 ^ 32 - 1 ∧ s.mNextRequestId = 0 ∧
      s.mRequests.find 1 ≠ none :=
  ⟨by decide, rfl, table_wrap (2 ^ 32 - 1) (by simp [UINT_RANGE])⟩

/-- C18. Request retention: `sendResponse` never removes or modifies an entry
of `requests`; so for every framed id `r` and bodies `Y1`, `Y2`, a second
`sendResponse` for `r` after a first one also returns true, and each appends
the envelope of the stored request and its body: with `Y1 = Y2`, the same bytes
a second time. -/
theorem request_retention (s : XmlRpcConnection) (r : Nat) (R Y1 Y2 : Data)
    (hr : s.mRequests.find r = some R) :
    (∀ (t : XmlRpcConnection) (k : Nat) (Y : Data) (p : Bool × XmlRpcConnection),
      sendResponse t k Y = some p → p.2.mRequests = t.mRequests) ∧
    sendResponse s r Y1
      = some (true, { s with mTxBuffer := s.mTxBuffer ++ envelope R Y1 }) ∧
    sendResponse { s with mTxBuffer := s.mTxBuffer ++ envelope R Y1 } r Y2
      = some (true, { s with mTxBuffer := s.mTxBuffer ++ envelope R Y1 ++ envelope R Y2 }) ∧
    (Y1 = Y2 → envelope R Y1 = envelope R Y2) := by
  refine ⟨?_, sendResponse_envelope s r R Y1 hr, ?_, fun h => by rw [h]⟩
  · intro t k Y p hp
    obtain ⟨ok, E, hE, -⟩ := sendResponse_total t k Y
    rw [hE] at hp
    cases hp
    rfl
  · exact sendResponse_envelope { s with mTxBuffer := s.mTxBuffer ++ envelope R Y1 } r R Y2 hr

/-- C18 at a connection holding `<Req>hi</Req>` as request 1, answered twice
with `ok`. -/
theorem request_retention_witness :
    envelope "<Req>hi</Req>".toList "ok".toList = "<Response>ok</Response>".toList ∧
    sendResponse { holding "<Req>hi</Req>".toList with
        mTxBuffer := (holding "<Req>hi</Req>".toList).mTxBuffer
          ++ envelope "<Req>hi</Req>".toList "ok".toList } 1 "ok".toList
      = some (true, { holding "<Req>hi</Req>".toList with
          mTxBuffer := (holding "<Req>hi</Req>".toList).mTxBuffer
            ++ envelope "<Req>hi</Req>".toList "ok".toList
            ++ envelope "<Req>hi</Req>".toList "ok".toList }) :=
  ⟨by decide,
   (request_retention (holding "<Req>hi</Req>".toList) 1 "<Req>hi</Req>".toList
      "ok".toList "ok".toList (by decide)).2.2.1⟩

/-- C19. Purely lexical tag matching: the tag name used by `tryParse` is every
byte between the first `<` of the buffer and the next `>`, and the framed
message ends with the first occurrence of the closing sequence of that tag
name at or after that `>`. So the buffer `<a><a>x</a></a>` frames the payload
`<a><a>x</a>` and leaves `</a>` in the receive buffer, and the buffer
`<a x="1">hi</a>` frames nothing and stays as it is, because the literal
`</a x="1">` is absent. -/
theorem lexical_tag_matching (s : XmlRpcConnection) (pre tag body S : Data)
    (hpre : '<' ∉ pre) (htag : '>' ∉ tag)
    (hfirst : ∀ i, i ≤ body.length →
      ¬ occursAt (closingTag tag) ('>' :: body ++ closingTag tag ++ S) i)
    (hrx : s.mRxBuffer = pre ++ '<' :: tag ++ '>' :: body ++ closingTag tag ++ S) :
    tryParse s = some { s with
      mRequests := s.mRequests.assign s.mNextRequestId
        (pre ++ '<' :: tag ++ '>' :: body ++ closingTag tag)
      mNextRequestId := (s.mNextRequestId + 1) % UINT_RANGE
      mRxBuffer := S.dropWhile isWhitespace
      trace := s.trace ++ [Event.handleRequest s.mConnectionId s.mNextRequestId
        (pre ++ '<' :: tag ++ '>' :: body ++ closingTag tag)] } ∧
    tryParse { fresh 7 3 with mRxBuffer := "<a><a>x</a></a>".toList }
      = some { mConnectionId := 7, mNextRequestId := 2, mSock := 3,
               mRxBuffer := "</a>".toList, mTxBuffer := [],
               mRequests := [(1, "<a><a>x</a>".toList)],
               trace := [Event.handleRequest 7 1 "<a><a>x</a>".toList] } ∧
    tryParse { fresh 7 3 with mRxBuffer := "<a x=\"1\">hi</a>".toList }
      = some { fresh 7 3 with mRxBuffer := "<a x=\"1\">hi</a>".toList } ∧
    ¬ "</a x=\"1\">".toList <:+: "<a x=\"1\">hi</a>".toList := by
  refine ⟨?_, by decide, by decide, by decide⟩
  have hrun : charsRun (closingTag tag) ('>' :: body ++ (closingTag tag ++ S))
      = ('>' :: body).length := by
    apply charsRun_first
    intro i hi hocc
    apply hfirst i (by simpa [Nat.lt_succ_iff] using hi)
    exact occursAt_append _ _ S i (by simp at hi ⊢; omega) hocc
  have h := tryParse_frame_run s pre tag body S hpre htag hrun (by simpa using hrx)
  rw [h]
  simp [message]

/-- C19 at the buffer `<a><a>x</a></a>`: the tag name is `a`, and the first
`</a>` ends the payload. -/
theorem lexical_tag_matching_witness :
    tryParse { fresh 7 3 with mRxBuffer := "<a><a>x</a></a>".toList }
      = some { ({ fresh 7 3 with mRxBuffer := "<a><a>x</a></a>".toList } : XmlRpcConnection) with
          mRequests := RequestMap.assign [] 1
            ([] ++ '<' :: "a".toList ++ '>' :: "<a>x".toList ++ closingTag "a".toList)
          mNextRequestId := (1 + 1) % UINT_RANGE
          mRxBuffer := ("</a>".toList).dropWhile isWhitespace
          trace := [] ++ [Event.handleRequest 7 1
            ([] ++ '<' :: "a".toList ++ '>' :: "<a>x".toList ++ closingTag "a".toList)] } :=
  (lexical_tag_matching { fresh 7 3 with mRxBuffer := "<a><a>x</a></a>".toList }
    [] "a".toList "<a>x".toList "</a>".toList (by decide) (by decide) (by decide)
    (by decide)).1

/-- C20. Splice preserves the request: for every stored request `R`
containing `</Request>` and every body `Y`, with `k` the index just past the
first `</Request>` and the run of whitespace that follows it, the bytes
appended by `sendResponse` are the first `k` bytes of `R`, CRLF, two spaces,
`<Response>`, `Y`, two spaces, `</Response>`, CRLF, and the rest of `R`; so
without the inserted block the output is `R`, and its length is that of `R`
plus that of `Y` plus 29. -/
theorem splice_preserves_request (s : XmlRpcConnection) (r : Nat) (R Y : Data)
    (hr : s.mRequests.find r = some R) (hR : "</Request>".toList <:+: R) :
    ∃ P W T, R = P ++ "</Request>".toList ++ W ++ T ∧
      (∀ i, i < P.length → ¬ occursAt "</Request>".toList R i) ∧
      (∀ c ∈ W, isWhitespace c = true) ∧
      (∀ c, T.head? = some c → isWhitespace c = false) ∧
      sendResponse s r Y = some (true, { s with
        mTxBuffer := s.mTxBuffer ++
          (R.take (P ++ "</Request>".toList ++ W).length ++ Symbols.CRLF ++
            "  <Response>".toList ++ Y ++ "  </Response>".toList ++ Symbols.CRLF ++
            R.drop (P ++ "</Request>".toList ++ W).length) }) ∧
      R.take (P ++ "</Request>".toList ++ W).length
        ++ R.drop (P ++ "</Request>".toList ++ W).length = R ∧
      (R.take (P ++ "</Request>".toList ++ W).length ++ Symbols.CRLF ++
          "  <Response>".toList ++ Y ++ "  </Response>".toList ++ Symbols.CRLF ++
          R.drop (P ++ "</Request>".toList ++ W).length).length
        = R.length + Y.length + 29 := by
  have hlt := charsRun_lt_of_infix "</Request>".toList R (by decide) hR
  obtain ⟨S, hS1, hS2⟩ := charsRun_found _ _ hlt
  have hlen : (R.take (charsRun "</Request>".toList R)).length
      = charsRun "</Request>".toList R := by
    rw [List.length_take, Nat.min_eq_left (charsRun_le _ _)]
  have hmin := charsRun_min "</Request>".toList R
  generalize R.take (charsRun "</Request>".toList R) = P at hS1 hS2 hlen
  have hsplit : R = P ++ "</Request>".toList ++ S.takeWhile isWhitespace
      ++ S.dropWhile isWhitespace := by
    rw [List.append_assoc (P ++ "</Request>".toList), List.takeWhile_append_dropWhile,
      List.append_assoc]
    exact hS1
  have htake : R.take (P ++ "</Request>".toList ++ S.takeWhile isWhitespace).length
      = P ++ "</Request>".toList ++ S.takeWhile isWhitespace := by
    conv_lhs => rw [hsplit]
    exact List.take_left' rfl
  have hdrop : R.drop (P ++ "</Request>".toList ++ S.takeWhile isWhitespace).length
      = S.dropWhile isWhitespace := by
    conv_lhs => rw [hsplit]
    exact List.drop_left' rfl
  refine ⟨P, S.takeWhile isWhitespace, S.dropWhile isWhitespace, hsplit, ?_,
    fun c hc => List.mem_takeWhile_imp hc, head_dropWhile_whitespace S, ?_, ?_, ?_⟩
  · intro i hi
    exact hmin i (by omega)
  · rw [htake, hdrop]
    have h2 : s.mRequests.find r = some (P ++ ("</Request>".toList ++ S)) := by
      rw [← hS1]; exact hr
    rw [sendResponse_splice s r Y P S h2 hS2]
    simp
  · rw [htake, hdrop]
    exact hsplit.symm
  · rw [htake, hdrop]
    have hl := congrArg List.length hsplit
    simp only [List.length_append] at hl ⊢
    have h10 : ("</Request>".toList).length = 10 := rfl
    have h12 : ("  <Response>".toList).length = 12 := rfl
    have h13 : ("  </Response>".toList).length = 13 := rfl
    have h2 : Symbols.CRLF.length = 2 := rfl
    rw [h10] at hl
    rw [h10, h12, h13, h2]
    omega

/-- C20 at the stored request `<a><Request>x</Request> </a>` and the body `y`:
the output has 28 + 1 + 29 bytes. -/
theorem splice_preserves_request_witness :
    ("<a><Request>x</Request> </a>".toList).length + ("y".toList).length + 29 = 58 ∧
    ∃ P W T, "<a><Request>x</Request> </a>".toList = P ++ "</Request>".toList ++ W ++ T ∧
      (∀ i, i < P.length →
        ¬ occursAt "</Request>".toList "<a><Request>x</Request> </a>".toList i) ∧
      (∀ c ∈ W, isWhitespace c = true) ∧
      (∀ c, T.head? = some c → isWhitespace c = false) ∧
      sendResponse (holding "<a><Request>x</Request> </a>".toList) 1 "y".toList
        = some (true, { holding "<a><Request>x</Request> </a>".toList with
          mTxBuffer := (holding "<a><Request>x</Request> </a>".toList).mTxBuffer ++
            (("<a><Request>x</Request> </a>".toList).take (P ++ "</Request>".toList ++ W).length
              ++ Symbols.CRLF ++ "  <Response>".toList ++ "y".toList ++ "  </Response>".toList
              ++ Symbols.CRLF ++
              ("<a><Request>x</Request> </a>".toList).drop
                (P ++ "</Request>".toList ++ W).length) }) ∧
      ("<a><Request>x</Request> </a>".toList).take (P ++ "</Request>".toList ++ W).length
        ++ ("<a><Request>x</Request> </a>".toList).drop (P ++ "</Request>".toList ++ W).length
        = "<a><Request>x</Request> </a>".toList ∧
      (("<a><Request>x</Request> </a>".toList).take (P ++ "</Request>".toList ++ W).length
          ++ Symbols.CRLF ++ "  <Response>".toList ++ "y".toList ++ "  </Response>".toList
          ++ Symbols.CRLF ++
          ("<a><Request>x</Request> </a>".toList).drop (P ++ "</Request>".toList ++ W).length).length
        = ("<a><Request>x</Request> </a>".toList).length + ("y".toList).length + 29 :=
  ⟨by decide,
   splice_preserves_request (holding "<a><Request>x</Request> </a>".toList) 1
     "<a><Request>x</Request> </a>".toList "y".toList (by decide) (by decide)⟩

end XmlRpcConnection

namespace ResipClock

/-- C21. Assertion validity of `getRandomFutureTimeMs`: for every current time
`now`, every `futureMs` with `futureMs * 8999 < 2^64` and `now + futureMs < 2^64`,
and every non-negative random value, the multiplier `r` lies in `[5000, 8999]`,
the function returns (no `assert` fails) the value
`ret = now + floor(futureMs * r / 10000)`, and `now ≤ ret`,
`now + floor(futureMs / 2) ≤ ret` and `ret ≤ now + futureMs`. -/
theorem random_future_time_asserts_hold (now futureMs : Nat) (random : Int)
    (hr : 0 ≤ random) (hmul : futureMs * 8999 < UINT64_RANGE)
    (hadd : now + futureMs < UINT64_RANGE) :
    5000 ≤ multiplier random ∧ multiplier random ≤ 8999 ∧
    getRandomFutureTimeMs now random futureMs
      = some (now + futureMs * (multiplier random).toNat / 10000) ∧
    now ≤ now + futureMs * (multiplier random).toNat / 10000 ∧
    now + futureMs / 2 ≤ now + futureMs * (multiplier random).toNat / 10000 ∧
    now + futureMs * (multiplier random).toNat / 10000 ≤ now + futureMs := by
  obtain ⟨hlo, hhi⟩ := multiplier_range random hr
  obtain ⟨hb1, hb2⟩ := scaled_bounds futureMs (multiplier random).toNat (by omega) (by omega)
  exact ⟨hlo, hhi, getRandomFutureTimeMs_eq now futureMs random hr hmul hadd,
    Nat.le_add_right _ _, Nat.add_le_add_left hb1 _, Nat.add_le_add_left hb2 _⟩

/-- C21 at `now = 1000`, `futureMs = 600` and the random value 123456789, whose
multiplier is 5789: the function returns 1347. -/
theorem random_future_time_asserts_hold_witness :
    (0 : Int) ≤ 123456789 ∧ 600 * 8999 < UINT64_RANGE ∧ 1000 + 600 < UINT64_RANGE ∧
    multiplier 123456789 = 5789 ∧
    getRandomFutureTimeMs 1000 123456789 600 = some 1347 :=
  ⟨by decide, by decide, by decide, by decide,
   (random_future_time_asserts_hold 1000 600 123456789 (by decide) (by decide)
      (by decide)).2.2.1⟩

namespace WinMonoClock
namespace GTCLock

/-- C22. Tick rollover in `GTC64`: for every 64-bit base time `b` and every
32-bit tick value `t`, the value returned has its low 32 bits equal to `t`; when
`b + 2^32` does not overflow 64 bits it is `b + ((t - low32(b)) mod 2^32)` and
lies in `[b, b + 2^32)`, and from a base whose low 32 bits are `0xFFFFFFFF` the
tick value 0 gives `b + 1`; hence, as long as the sums do not overflow 64 bits,
the values returned by any sequence of calls never decrease. -/
theorem tick_rollover (b t : Nat) (ticks : List Nat) (hb : b < UINT64_RANGE)
    (ht : t < DWORD_RANGE) (hticks : ∀ u ∈ ticks, u < DWORD_RANGE)
    (hlen : b + DWORD_RANGE * ticks.length ≤ UINT64_RANGE) :
    GTC64 b t % DWORD_RANGE = t ∧ GTC64 b t < UINT64_RANGE ∧
    (b + DWORD_RANGE ≤ UINT64_RANGE →
      GTC64 b t = b + (t + DWORD_RANGE - b % DWORD_RANGE) % DWORD_RANGE ∧
      (GTC64 b t : Int)
        = (b : Int) + ((t : Int) - ((b % DWORD_RANGE : Nat) : Int)) % (DWORD_RANGE : Int) ∧
      b ≤ GTC64 b t ∧ GTC64 b t < b + DWORD_RANGE ∧
      (b % DWORD_RANGE = DWORD_RANGE - 1 → GTC64 b 0 = b + 1)) ∧
    List.Chain (fun x y => x ≤ y) b (clock b ticks) := by
  refine ⟨GTC64_low b t ht, ?_, ?_, clock_chain ticks b hticks hlen⟩
  · unfold GTC64
    by_cases h : t = b % DWORD_RANGE
    · simpa only [h, ne_eq, not_true_eq_false, if_false] using hb
    · simp only [ne_eq, h, not_false_eq_true, if_true]
      exact Nat.mod_lt _ (by simp [UINT64_RANGE])
  · intro hov
    obtain ⟨h1, -, h3, h4⟩ := GTC64_step b t ht hov
    refine ⟨h1, ?_, h3, h4, ?_⟩
    · rw [h1, Nat.cast_add, increment_eq b t ht]
    · intro hlow
      have h0 := (GTC64_step b 0 (by simp [DWORD_RANGE]) hov).1
      rw [h0, hlow]
      simp [DWORD_RANGE]

/-- C22 at the base `0xFFFFFFFF` and the tick values 0, 5, 3: the counter wraps
twice and the clock reads `2^32`, `2^32 + 5`, `2^33 + 3`. -/
theorem tick_rollover_witness :
    4294967295 < UINT64_RANGE ∧ 0 < DWORD_RANGE ∧ (∀ u ∈ [0, 5, 3], u < DWORD_RANGE) ∧
    4294967295 + DWORD_RANGE * [0, 5, 3].length ≤ UINT64_RANGE ∧
    clock 4294967295 [0, 5, 3] = [4294967296, 4294967301, 8589934595] ∧
    List.Chain (fun x y => x ≤ y) 4294967295 (clock 4294967295 [0, 5, 3]) :=
  ⟨by decide, by decide, by decide, by decide, by decide,
   (tick_rollover 4294967295 0 [0, 5, 3] (by decide) (by decide) (by decide)
      (by decide)).2.2.2⟩

end GTCLock
end WinMonoClock
end ResipClock

namespace DumFeatureChain

/-- C23. Feature deactivation is permanent in `DumFeatureChain`: the constructor
appends one guard feature and marks every feature active, so the flags and the
features have the same length `n + 1`; after any number of calls of `process`
the features are the same and the flags are as many; every call of `process`
on such a chain invokes features at increasing positions, only where the flag
was true, and leaves every false flag false; so a feature that was invoked and
returned `FeatureDone` or one of the combinations `FeatureDoneAndEventDone`,
`FeatureDoneAndEventTaken`, `ChainDoneAndEventTaken`, `ChainDoneAndEventDone`
has a false flag after that call and is invoked by no later call of
`process`. -/
theorem feature_deactivation_is_permanent (codes : ResultCodes)
    (features : List DumFeature) (before later : List (Nat → DumFeature.ProcessingResult))
    (respond : Nat → DumFeature.ProcessingResult) (i : Nat) (f : DumFeature)
    (hf : (features ++ [DumFeature.guard])[i]? = some f)
    (hinvoked : i ∈ (process codes respond (after codes (construct features) before)).invoked)
    (hdone : f.process respond i = DumFeature.ProcessingResult.FeatureDone ∨
      f.process respond i = DumFeature.ProcessingResult.FeatureDoneAndEventDone ∨
      f.process respond i = DumFeature.ProcessingResult.FeatureDoneAndEventTaken ∨
      f.process respond i = DumFeature.ProcessingResult.ChainDoneAndEventTaken ∨
      f.process respond i = DumFeature.ProcessingResult.ChainDoneAndEventDone) :
    (construct features).mFeatures = features ++ [DumFeature.guard] ∧
    (construct features).mActiveFeatures = List.replicate (features.length + 1) true ∧
    (∀ (calls : List (Nat → DumFeature.ProcessingResult))
        (r : Nat → DumFeature.ProcessingResult),
      (after codes (construct features) calls).mFeatures = features ++ [DumFeature.guard] ∧
      (after codes (construct features) calls).mActiveFeatures.length = features.length + 1 ∧
      (process codes r (after codes (construct features) calls)).chain.mFeatures
        = features ++ [DumFeature.guard] ∧
      (process codes r (after codes (construct features) calls)).chain.mActiveFeatures.length
        = features.length + 1 ∧
      List.Pairwise (fun x y => x < y)
        (process codes r (after codes (construct features) calls)).invoked ∧
      (∀ p ∈ (process codes r (after codes (construct features) calls)).invoked,
        (after codes (construct features) calls).mActiveFeatures[p]? = some true) ∧
      (∀ j : Nat, (after codes (construct features) calls).mActiveFeatures[j]? = some false →
        (process codes r (after codes (construct features) calls)).chain.mActiveFeatures[j]?
          = some false)) ∧
    (process codes respond (after codes (construct features) before)).chain.mActiveFeatures[i]?
      = some false ∧
    (∀ inv ∈ invokedBy codes
        (process codes respond (after codes (construct features) before)).chain later,
      i ∉ inv) := by
  have hc1 : (construct features).mFeatures = features ++ [DumFeature.guard] := rfl
  have hc2 : (construct features).mActiveFeatures
      = List.replicate (features.length + 1) true := by
    simp [construct]
  have hreach : ∀ calls : List (Nat → DumFeature.ProcessingResult),
      (after codes (construct features) calls).mFeatures = features ++ [DumFeature.guard] ∧
      (after codes (construct features) calls).mActiveFeatures.length
        = features.length + 1 := by
    intro calls
    obtain ⟨a1, a2, -⟩ := after_flags codes calls (construct features)
    exact ⟨a1.trans hc1, a2.trans (by rw [hc2, List.length_replicate])⟩
  have hflag : (process codes respond
      (after codes (construct features) before)).chain.mActiveFeatures[i]? = some false := by
    obtain ⟨-, -, -, -, -, p6⟩ :=
      process_flags codes respond (after codes (construct features) before)
    exact p6 i f (by rw [(hreach before).1]; exact hf) hinvoked
      ((deactivates_iff _).mpr hdone)
  refine ⟨hc1, hc2, ?_, hflag, invokedBy_inactive codes later _ i hflag⟩
  intro calls r
  obtain ⟨a1, a2⟩ := hreach calls
  obtain ⟨p1, p2, p3, p4, p5, -⟩ :=
    process_flags codes r (after codes (construct features) calls)
  exact ⟨a1, a2, p1.trans a1, p2.trans a2, p3, p4, p5⟩

/-- C23 at a chain of two features and the guard: the first call, in which
every feature returns `FeatureDone`, invokes the positions 0, 1 and 2, and the
second call invokes none of them. -/
theorem feature_deactivation_is_permanent_witness :
    ([DumFeature.user 0, DumFeature.user 1] ++ [DumFeature.guard])[0]?
      = some (DumFeature.user 0) ∧
    (process sampleCodes (fun _ => DumFeature.ProcessingResult.FeatureDone)
      (after sampleCodes (construct [DumFeature.user 0, DumFeature.user 1]) [])).invoked
      = [0, 1, 2] ∧
    invokedBy sampleCodes
      (process sampleCodes (fun _ => DumFeature.ProcessingResult.FeatureDone)
        (after sampleCodes (construct [DumFeature.user 0, DumFeature.user 1]) [])).chain
      [fun _ => DumFeature.ProcessingResult.EventTaken] = [[]] ∧
    (process sampleCodes (fun _ => DumFeature.ProcessingResult.FeatureDone)
      (after sampleCodes (construct [DumFeature.user 0, DumFeature.user 1])
        [])).chain.mActiveFeatures[0]? = some false :=
  ⟨by decide, by decide, by decide,
   (feature_deactivation_is_permanent sampleCodes [DumFeature.user 0, DumFeature.user 1] []
      [fun _ => DumFeature.ProcessingResult.EventTaken]
      (fun _ => DumFeature.ProcessingResult.FeatureDone) 0 (DumFeature.user 0)
      (by decide) (by decide) (by decide)).2.2.2.1⟩

end DumFeatureChain

end Resip
